import Mathlib

/-!
# Mython: lexer and runtime, embedded from the C++ sources

Shallow embedding of `src/lexer.cpp`, `src/include/lexer.h`, `src/runtime.cpp` and
`src/src/statement.cpp`.

Conventions of the embedding

* `std::istream` is the list of characters still to be read.  Every read at the end of
  the list yields `EOF`; `unget` after a successful `get` puts the character back and
  `unget` after a failed `get` does nothing (the stream is in a failed state).
* C++ exceptions are explicit results.
* `int` values that only count characters are natural numbers; the `int` value of a
  Mython number is an integer and an operation that overflows `int` is undefined.
* A handle to a class instance is the address of the instance together with its class;
  the fields of the instances and the output stream form the `World` that every
  `Execute` threads through, next to the closure it was given.
* Undefined behaviour of the C++ program (a null pointer dereferenced, an `int`
  division by zero) is an explicit result, distinct from every exception.
* `Execute` carries a bound on the depth of nested calls, since a Mython program can
  recurse forever; the loops of the lexer carry a bound that is proved sufficient.
-/

/-! ## Lexer (`lexer.h`, `lexer.cpp`) -/

namespace parse

/-- Tokens of `lexer.h` (`token_type::*` and the variant `Token`). -/
inductive Token where
  | Number (value : Int)
  | Id (value : String)
  | Char (value : Char)
  | String (value : String)
  | Class
  | Return
  | If
  | Else
  | Def
  | Newline
  | Print
  | Indent
  | Dedent
  | And
  | Or
  | Not
  | Eq
  | NotEq
  | LessOrEq
  | GreaterOrEq
  | None
  | True
  | False
  | Eof
  deriving DecidableEq, Repr

/-- Exceptions that leave the lexer: `LexerError` (declared in `lexer.h`) and the
`std::out_of_range` that `std::stoi` throws in `ParseNumber`.  `fuel` marks an
exhausted iteration bound of the embedding; `ReadLine` and `ParseTokens` are started
with a bound that is never exhausted. -/
inductive LexException where
  | LexerError (what : String)
  | out_of_range (what : String)
  | fuel
  deriving DecidableEq, Repr

/-- The map `lexemes` of `lexer.h`. -/
def lexemes : List (String × Token) :=
  [("class", Token.Class), ("return", Token.Return), ("if", Token.If),
   ("else", Token.Else), ("def", Token.Def), ("print", Token.Print),
   ("and", Token.And), ("or", Token.Or), ("not", Token.Not),
   ("==", Token.Eq), ("!=", Token.NotEq), ("<=", Token.LessOrEq),
   (">=", Token.GreaterOrEq), ("None", Token.None), ("True", Token.True),
   ("False", Token.False)]

def COMMENT_SIGN : Char := '#'
def SPACE_SIGN : Char := ' '
def NEW_LINE_SIGN : Char := '\n'

/-- `Lexer::LineTokenizer`: the indent of a line and its tokens. -/
structure LineTokenizer where
  indent_ : Nat
  tokens_ : List Token
  deriving DecidableEq, Repr

/-- `LineTokenizer::IsEmpty`. -/
def LineTokenizer.IsEmpty (line : LineTokenizer) : Bool :=
  line.tokens_.isEmpty || line.tokens_.all (fun t => t == Token.Newline)

/-- `LineTokenizer::IsEofOnly`. -/
def LineTokenizer.IsEofOnly (line : LineTokenizer) : Bool :=
  line.tokens_.isEmpty || line.tokens_.all (fun t => t == Token.Eof)

/-- `LineTokenizer::SkipSpaces`: the number of spaces read and the rest of the input. -/
def SkipSpaces : List Char → Nat × List Char
  | [] => (0, [])
  | c :: rest =>
    if c = SPACE_SIGN then ((SkipSpaces rest).1 + 1, (SkipSpaces rest).2)
    else (0, c :: rest)

/-- `LineTokenizer::SkipComment`: reads up to, and not including, the next newline. -/
def SkipComment : List Char → List Char
  | [] => []
  | c :: rest => if c = NEW_LINE_SIGN then c :: rest else SkipComment rest

/-- The loop of `LineTokenizer::ParseString`, after the opening quote was read. -/
def ParseStringLoop (quotation_mark : Char) :
    List Char → List Char → Except LexException (List Char × List Char)
  | [], _ => .error (.LexerError "String parsing error")
  | ch :: rest, str =>
    if ch = quotation_mark then .ok (str, rest)
    else if ch = '\\' then
      match rest with
      | [] => .error (.LexerError "String parsing error")
      | escaped_char :: rest2 =>
        if escaped_char = 'n' then ParseStringLoop quotation_mark rest2 (str ++ ['\n'])
        else if escaped_char = 't' then ParseStringLoop quotation_mark rest2 (str ++ ['\t'])
        else if escaped_char = 'r' then ParseStringLoop quotation_mark rest2 (str ++ ['\r'])
        else if escaped_char = '"' then ParseStringLoop quotation_mark rest2 (str ++ ['"'])
        else if escaped_char = '\'' then ParseStringLoop quotation_mark rest2 (str ++ ['\''])
        else if escaped_char = '\\' then ParseStringLoop quotation_mark rest2 (str ++ ['\\'])
        else .error (.LexerError ("Unrecognized escape sequence \\" ++ String.mk [escaped_char]))
    else if ch = '\n' ∨ ch = '\r' then .error (.LexerError "Unexpected end of line")
    else ParseStringLoop quotation_mark rest (str ++ [ch])

/-- `LineTokenizer::ParseString`, called on the input `quotation_mark :: rest`. -/
def ParseString (quotation_mark : Char) (rest : List Char) :
    Except LexException (Token × List Char) :=
  match ParseStringLoop quotation_mark rest [] with
  | .ok (str, rest2) => .ok (Token.String (String.mk str), rest2)
  | .error e => .error e

/-- The characters of the longest prefix that satisfies `p`, and the rest. -/
def takeWhileRest (p : Char → Bool) : List Char → List Char × List Char
  | [] => ([], [])
  | c :: rest =>
    if p c then (c :: (takeWhileRest p rest).1, (takeWhileRest p rest).2)
    else ([], c :: rest)

/-- The value of a string of decimal digits. -/
def digitsValue (str : List Char) : Nat :=
  str.foldl (fun acc c => 10 * acc + (c.toNat - '0'.toNat)) 0

/-- `LineTokenizer::ParseNumber`, called on the input `first :: rest` where `first` is
a digit.  `std::stoi` throws `std::out_of_range` when the value does not fit in `int`. -/
def ParseNumber (first : Char) (rest : List Char) : Except LexException (Token × List Char) :=
  let str := first :: (takeWhileRest Char.isDigit rest).1
  if digitsValue str ≤ 2147483647 then
    .ok (Token.Number (Int.ofNat (digitsValue str)), (takeWhileRest Char.isDigit rest).2)
  else .error (.out_of_range "stoi")

/-- `LineTokenizer::ParseNameOrToken`, called on the input `first :: rest`; returns the
token that is appended. -/
def ParseNameOrToken (first : Char) (rest : List Char) : Token × List Char :=
  let str := String.mk (first :: (takeWhileRest (fun c => c.isAlphanum || c = '_') rest).1)
  let rest2 := (takeWhileRest (fun c => c.isAlphanum || c = '_') rest).2
  match lexemes.lookup str with
  | some t => (t, rest2)
  | none => (Token.Id str, rest2)

/-- `LineTokenizer::ParseComparisonOrChar`, called on the input `first :: rest`; returns
the token that is appended.  At the end of input `peek` gives `EOF`, whose cast to
`char` is the byte 255. -/
def ParseComparisonOrChar (first : Char) (rest : List Char) : Token × List Char :=
  let second : Char := match rest with
    | [] => Char.ofNat 255
    | c :: _ => c
  match lexemes.lookup (String.mk [first, second]) with
  | some t => (t, rest.tail)
  | none => (Token.Char first, rest)

/-- The loop of `LineTokenizer::ReadLine`. -/
def ReadLineLoop : Nat → List Char → List Token → Except LexException (List Token × List Char)
  | 0, _, _ => .error .fuel
  | fuel + 1, input, tokens =>
    match input with
    | [] =>
      let tokens1 :=
        if !(LineTokenizer.IsEmpty ⟨0, tokens⟩) && !(tokens.getLast? == some Token.Newline)
        then tokens ++ [Token.Newline] else tokens
      .ok (tokens1 ++ [Token.Eof], [])
    | ch :: rest =>
      if ch = SPACE_SIGN then ReadLineLoop fuel (SkipSpaces (ch :: rest)).2 tokens
      else if ch = COMMENT_SIGN then ReadLineLoop fuel (SkipComment (ch :: rest)) tokens
      else if ch = NEW_LINE_SIGN then .ok (tokens ++ [Token.Newline], rest)
      else if ch = '"' ∨ ch = '\'' then
        match ParseString ch rest with
        | .ok (t, rest2) => ReadLineLoop fuel rest2 (tokens ++ [t])
        | .error e => .error e
      else if ch.isDigit then
        match ParseNumber ch rest with
        | .ok (t, rest2) => ReadLineLoop fuel rest2 (tokens ++ [t])
        | .error e => .error e
      else if ch.isAlphanum || ch = '_' then
        ReadLineLoop fuel (ParseNameOrToken ch rest).2 (tokens ++ [(ParseNameOrToken ch rest).1])
      else
        ReadLineLoop fuel (ParseComparisonOrChar ch rest).2
          (tokens ++ [(ParseComparisonOrChar ch rest).1])

/-- `LineTokenizer::ReadLine`: the line read and the rest of the input. -/
def ReadLine (input : List Char) : Except LexException (LineTokenizer × List Char) :=
  match ReadLineLoop ((SkipSpaces input).2.length + 1) (SkipSpaces input).2 [] with
  | .ok (tokens, rest) => .ok (⟨(SkipSpaces input).1, tokens⟩, rest)
  | .error e => .error e

/-- The `for` loop at the head of `Lexer::ParseTokens`: read lines until one is not
`IsEmpty`. -/
def ReadNonEmptyLine : Nat → List Char → Except LexException (LineTokenizer × List Char)
  | 0, _ => .error .fuel
  | fuel + 1, input =>
    match ReadLine input with
    | .ok (line, rest) => if line.IsEmpty then ReadNonEmptyLine fuel rest else .ok (line, rest)
    | .error e => .error e

/-- The state of `Lexer`: the stream, the token buffer `tokinazer_.tokens_`, the
current indent and the index of the current token. -/
structure Lexer where
  input_ : List Char
  tokens_ : List Token
  current_indent_ : Nat
  index_current_token_ : Int
  deriving DecidableEq, Repr

/-- `Lexer::ParseTokens`. -/
def Lexer.ParseTokens (lx : Lexer) : Except LexException Lexer :=
  match ReadNonEmptyLine (lx.input_.length + 1) lx.input_ with
  | .error e => .error e
  | .ok (line, rest) =>
    if line.indent_ % 2 ≠ 0 then .error (.LexerError "Parsing error: indentation")
    else
      let s0 : Lexer := { lx with input_ := rest }
      let s1 : Lexer :=
        if !line.IsEofOnly && line.indent_ > s0.current_indent_ then
          { s0 with
            tokens_ := s0.tokens_ ++
              List.replicate ((line.indent_ - s0.current_indent_) / 2) Token.Indent
            current_indent_ := line.indent_ }
        else s0
      let s2 : Lexer :=
        if !line.IsEofOnly && line.indent_ < s1.current_indent_ then
          { s1 with
            tokens_ := s1.tokens_ ++
              List.replicate ((s1.current_indent_ - line.indent_) / 2) Token.Dedent
            current_indent_ := line.indent_ }
        else s1
      let s3 : Lexer :=
        if line.IsEofOnly && s2.current_indent_ > 0 then
          { s2 with
            tokens_ := s2.tokens_ ++ List.replicate (s2.current_indent_ / 2) Token.Dedent
            current_indent_ := line.indent_ }
        else s2
      .ok { s3 with tokens_ := s3.tokens_ ++ line.tokens_ }

/-- `Lexer::NextToken`: the token returned and the new state.  `tokens_.at` throws
`std::out_of_range` for an index outside the buffer. -/
def Lexer.NextToken (lx : Lexer) : Except LexException (Token × Lexer) :=
  let refilled : Except LexException Lexer :=
    if lx.tokens_.isEmpty || lx.index_current_token_ = (lx.tokens_.length : Int) - 1 then
      Lexer.ParseTokens { lx with tokens_ := [], index_current_token_ := -1 }
    else .ok lx
  match refilled with
  | .error e => .error e
  | .ok lx1 =>
    let lx2 : Lexer := { lx1 with index_current_token_ := lx1.index_current_token_ + 1 }
    match lx2.tokens_.get? lx2.index_current_token_.toNat with
    | some t => .ok (t, lx2)
    | none => .error (.out_of_range "vector::at")

/-- `Lexer::Lexer`: the constructor reads the first token. -/
def Lexer.new (input : List Char) : Except LexException (Token × Lexer) :=
  Lexer.NextToken { input_ := input, tokens_ := [], current_indent_ := 0,
                    index_current_token_ := -1 }

/-- `Lexer::CurrentToken`. -/
def Lexer.CurrentToken (lx : Lexer) : Option Token :=
  lx.tokens_.get? lx.index_current_token_.toNat

/-- The first `n` results of `NextToken` from a state (shorter when an exception
stops the lexer: the exception is the last element). -/
def nextTokens : Nat → Lexer → List (Except LexException Token)
  | 0, _ => []
  | n + 1, lx =>
    match lx.NextToken with
    | .ok (t, lx1) => .ok t :: nextTokens n lx1
    | .error e => [.error e]

/-- The tokens a client sees: the token exposed by the constructor followed by the
results of `n` calls of `NextToken`. -/
def tokenStream (n : Nat) (source : String) : List (Except LexException Token) :=
  match Lexer.new source.toList with
  | .ok (t, lx) => .ok t :: nextTokens n lx
  | .error e => [.error e]

/-- The tokens from construction up to and including the first `Eof`, read with at most
`n` calls of `NextToken`; `none` when an exception or the bound comes first. -/
def tokensToEofFrom : Nat → Token → Lexer → Option (List Token)
  | 0, t, _ => if t = Token.Eof then some [t] else none
  | n + 1, t, lx =>
    if t = Token.Eof then some [t]
    else
      match lx.NextToken with
      | .ok (t1, lx1) => (tokensToEofFrom n t1 lx1).map (fun ts => t :: ts)
      | .error _ => none

/-- The token sequence of a source up to and including its first `Eof`. -/
def tokensToEof (source : String) : Option (List Token) :=
  match Lexer.new source.toList with
  | .ok (t, lx) => tokensToEofFrom (2 * source.length + 2) t lx
  | .error _ => none

end parse


/-! ## Runtime and statements (`runtime.cpp`, `statement.cpp`) -/

namespace runtime

/-- The six comparison functions of `runtime.cpp` that a `Comparison` node can carry. -/
inductive Comparator where
  | Equal
  | NotEqual
  | Less
  | Greater
  | LessOrEqual
  | GreaterOrEqual
  deriving DecidableEq, Repr

mutual

/-- `ObjectHolder`: the empty handle or a handle to an object.  A `ClassInstance` object
is identified by its address; its class is fixed at construction (`cls_` is a
reference) and travels with the handle, its fields live in the `World`. -/
inductive ObjectHolder where
  | None
  | Number (value : Int)
  | String (value : String)
  | Bool (value : Bool)
  | Class (cls : Class)
  | ClassInstance (addr : Nat) (cls : Class)

/-- `runtime::Class`: name, methods and parent (a class constructed earlier). -/
inductive Class where
  | mk (name_ : String) (methods_ : List Method) (parent_ : Option Class)

/-- `runtime::Method`. -/
inductive Method where
  | mk (name : String) (formal_params : List String) (body : Statement)

/-- The nodes of `statement.cpp`.  A `NewInstance` node owns its member
`class_instance_`, an object at the address `addr`, of the class `cls`.
`FieldAssignment` holds the dotted ids of its member `object_`, a `VariableValue`.
`Comparison` carries one of the six comparison functions of `runtime.cpp`. -/
inductive Statement where
  /-- Modelled from the spec: the literal nodes of `statement.h` (numeric, string and
  boolean constants, `None`), which are not under `src/`; executing one returns a handle
  to its value. -/
  | Const (value : ObjectHolder)
  | Assignment (var_ : String) (rv_ : Statement)
  | VariableValue (dotted_ids_ : List String)
  | Print (args_ : List Statement)
  | MethodCall (object_ : Statement) (method_ : String) (args_ : List Statement)
  | Stringify (argument_ : Statement)
  | Add (lhs_ rhs_ : Statement)
  | Sub (lhs_ rhs_ : Statement)
  | Mult (lhs_ rhs_ : Statement)
  | Div (lhs_ rhs_ : Statement)
  | Compound (args_ : List Statement)
  | Return (statement_ : Statement)
  | ClassDefinition (cls_ : ObjectHolder)
  | FieldAssignment (object_ : List String) (field_name_ : String) (rv_ : Statement)
  | IfElse (condition_ if_body_ : Statement) (else_body_ : Option Statement)
  | Or (lhs_ rhs_ : Statement)
  | And (lhs_ rhs_ : Statement)
  | Not (argument_ : Statement)
  | Comparison (cmp_ : Comparator) (lhs_ rhs_ : Statement)
  | NewInstance (addr : Nat) (cls : Class) (args_ : List Statement)
  | MethodBody (body_ : Statement)

end

/-- `Class::GetName`. -/
def Class.GetName : Class → String
  | .mk name_ _ _ => name_

def Class.methods_ : Class → List Method
  | .mk _ methods_ _ => methods_

def Class.parent_ : Class → Option Class
  | .mk _ _ parent_ => parent_

def Method.name : Method → String
  | .mk name _ _ => name

def Method.formal_params : Method → List String
  | .mk _ formal_params _ => formal_params

def Method.body : Method → Statement
  | .mk _ _ body => body

/-- `m[k] = v` on a map with string keys, kept as an association list with unique
keys. -/
def mapSet {α : Type} : List (String × α) → String → α → List (String × α)
  | [], k, v => [(k, v)]
  | (k1, v1) :: rest, k, v =>
    if k1 = k then (k, v) :: rest else (k1, v1) :: mapSet rest k v

/-- `m.find(k)`: the value bound to `k`, if any (`count` is `isSome`, `at` the value). -/
def mapFind {α : Type} : List (String × α) → String → Option α
  | [], _ => none
  | (k1, v1) :: rest, k => if k1 = k then some v1 else mapFind rest k

/-- `runtime::Closure` (declared in `runtime.h`): a map from names to handles. -/
abbrev Closure := List (String × ObjectHolder)

/-- The loop of the constructor `Class::Class` that fills `methods_by_name_`. -/
def Class.buildIndex : List Method → Nat → List (String × Nat) → List (String × Nat)
  | [], _, index => index
  | m :: rest, i, index => Class.buildIndex rest (i + 1) (mapSet index m.name i)

/-- The member `methods_by_name_` as the constructor leaves it. -/
def Class.methods_by_name_ (cls : Class) : List (String × Nat) :=
  Class.buildIndex cls.methods_ 0 []

/-- `Class::GetMethod`: a null pointer is `none`.  The conditional expression of the
source is written out for a null and for a non-null `parent_`. -/
def Class.GetMethod : Class → String → Option Method
  | .mk name_ methods_ none, name =>
    match mapFind (Class.methods_by_name_ (.mk name_ methods_ none)) name with
    | some i => methods_.get? i
    | none => none
  | .mk name_ methods_ (some parent_), name =>
    match mapFind (Class.methods_by_name_ (.mk name_ methods_ (some parent_))) name with
    | some i => methods_.get? i
    | none => parent_.GetMethod name

/-- `ClassInstance::HasMethod` for an instance of class `cls`. -/
def HasMethod (cls : Class) (method : String) (argument_count : Nat) : Bool :=
  match cls.GetMethod method with
  | some p_method => p_method.formal_params.length == argument_count
  | none => false

/-- `holder.TryAs<ClassInstance>()` is not null. -/
def IsClassInstance : ObjectHolder → Bool
  | .ClassInstance _ _ => true
  | _ => false

/-- `ObjectHolder::operator bool`. -/
def NonEmpty : ObjectHolder → Bool
  | .None => false
  | _ => true

/-- `IsTrue`. -/
def IsTrue : ObjectHolder → Bool
  | .Bool value => value
  | .Number value => value != 0
  | .String value => !value.isEmpty
  | _ => false

/-- What lies outside the current closure: the fields of the class instances (by
address; an instance that was never written has no fields) and the text written to
the output stream of the `Context`. -/
structure World where
  fields : List (Nat × Closure)
  output : String

/-- `ClassInstance::Fields` of the instance at `addr`. -/
def World.Fields (w : World) (addr : Nat) : Closure :=
  match w.fields.lookup addr with
  | some c => c
  | none => []

def setFields : List (Nat × Closure) → Nat → Closure → List (Nat × Closure)
  | [], addr, c => [(addr, c)]
  | (a1, c1) :: rest, addr, c =>
    if a1 = addr then (addr, c) :: rest else (a1, c1) :: setFields rest addr c

/-- `Fields()[field_name] = value` on the instance at `addr`. -/
def World.setField (w : World) (addr : Nat) (field_name : String) (value : ObjectHolder) :
    World :=
  { w with fields := setFields w.fields addr (mapSet (w.Fields addr) field_name value) }

/-- `output << text`. -/
def World.write (w : World) (text : String) : World :=
  { w with output := w.output ++ text }

/-- What leaves a call other than by `return`: an `ObjectHolder` thrown by
`Return::Execute`, a `std::runtime_error`, a `std::out_of_range` of `vector::at`,
undefined behaviour of the C++ program (a null pointer dereferenced, an `int` division
by zero, an `int` overflow), and `fuel`, an exhausted bound of the embedding on the
depth of nested calls (a Mython program can recurse forever). -/
inductive Exception where
  | thrown_holder (result : ObjectHolder)
  | runtime_error (what : String)
  | out_of_range
  | undefined_behaviour
  | fuel

/-- Result of an `Execute`: value or exception, with the closure and the world as the
call leaves them. -/
abbrev Result := Except Exception ObjectHolder × Closure × World

/-- The type of `Statement::Execute`. -/
abbrev Executor := Statement → Closure → World → Result

/-- Modelled from the spec: `detail::BaseCompare` of `runtime.h` with `std::equal_to`;
operands that share a primitive type (Number, String, Bool) are compared by value,
other operands give no result. -/
def BaseCompareEqual : ObjectHolder → ObjectHolder → Option Bool
  | .Number a, .Number b => some (decide (a = b))
  | .String a, .String b => some (decide (a = b))
  | .Bool a, .Bool b => some (decide (a = b))
  | _, _ => none

/-- Modelled from the spec: `detail::BaseCompare` of `runtime.h` with `std::less`; the
natural order of the primitive type (bytewise lexicographic on strings, false before
true). -/
def BaseCompareLess : ObjectHolder → ObjectHolder → Option Bool
  | .Number a, .Number b => some (decide (a < b))
  | .String a, .String b => some (decide (a.data < b.data))
  | .Bool a, .Bool b => some (!a && b)
  | _, _ => none

/-- The loop of `ClassInstance::Call` that binds `formal_params` to `actual_args`. -/
def bindParams : List String → List ObjectHolder → Nat → Closure → Except Exception Closure
  | [], _, _, args => .ok args
  | param :: rest, actual_args, index, args =>
    match actual_args.get? index with
    | some a => bindParams rest actual_args (index + 1) (mapSet args param a)
    | none => .error .out_of_range

/-- `ClassInstance::Call` on the instance at `addr` of class `cls`; `exec` executes
the method body. -/
def ClassInstance.Call (exec : Executor) (addr : Nat) (cls : Class) (method : String)
    (actual_args : List ObjectHolder) (w : World) : Except Exception ObjectHolder × World :=
  if !HasMethod cls method actual_args.length then
    (.error (.runtime_error ("No method " ++ method ++ "(" ++ toString actual_args.length
      ++ ") in class " ++ cls.GetName)), w)
  else
    match cls.GetMethod method with
    | none => (.error .undefined_behaviour, w)
    | some method_ =>
      match bindParams method_.formal_params actual_args 0
          (mapSet [] "self" (.ClassInstance addr cls)) with
      | .error e => (.error e, w)
      | .ok args => ((exec method_.body args w).1, (exec method_.body args w).2.2)

/-- What `os << this` writes for the instance at `addr`. -/
def addressRepr (addr : Nat) : String := "0x" ++ toString addr

/-- Modelled from the spec: `Print` of a Number, declared in `runtime.h`, writes the
decimal representation. -/
def PrintNumber (value : Int) : String := toString value

/-- Modelled from the spec: `Print` of a String, declared in `runtime.h`, writes the raw
bytes without quotes. -/
def PrintString (value : String) : String := value

/-- The virtual `Object::Print(os, context)` called through a handle: the text written
to `os` and the world after the call.  `Bool::Print`, `Class::Print` and
`ClassInstance::Print` are those of `runtime.cpp`; calling through the empty handle
fails the assertion of `operator->`.  The bound counts the `__str__` results that are
class instances themselves. -/
def PrintObject : Nat → Executor → ObjectHolder → World → Except Exception String × World
  | 0, _, _, w => (.error .fuel, w)
  | n + 1, exec, h, w =>
    match h with
    | .None => (.error .undefined_behaviour, w)
    | .Number value => (.ok (PrintNumber value), w)
    | .String value => (.ok (PrintString value), w)
    | .Bool value => (.ok (if value then "True" else "False"), w)
    | .Class cls => (.ok ("Class " ++ cls.GetName), w)
    | .ClassInstance addr cls =>
      if HasMethod cls "__str__" 0 then
        match ClassInstance.Call exec addr cls "__str__" [] w with
        | (.ok r, w1) => PrintObject n exec r w1
        | (.error e, w1) => (.error e, w1)
      else (.ok (addressRepr addr), w)

/-- `Equal`. -/
def Equal (exec : Executor) (lhs rhs : ObjectHolder) (w : World) : Except Exception Bool × World :=
  match BaseCompareEqual lhs rhs with
  | some b => (.ok b, w)
  | none =>
    match lhs with
    | .ClassInstance addr cls =>
      if HasMethod cls "__eq__" 1 then
        match ClassInstance.Call exec addr cls "__eq__" [rhs] w with
        | (.ok (.Bool b), w1) => (.ok b, w1)
        | (.ok _, w1) => (.error .undefined_behaviour, w1)
        | (.error e, w1) => (.error e, w1)
      else (.error (.runtime_error "Cannot compare objects for equality"), w)
    | _ =>
      if !NonEmpty lhs && !NonEmpty rhs then (.ok true, w)
      else (.error (.runtime_error "Cannot compare objects for equality"), w)

/-- `Less`. -/
def Less (exec : Executor) (lhs rhs : ObjectHolder) (w : World) : Except Exception Bool × World :=
  match BaseCompareLess lhs rhs with
  | some b => (.ok b, w)
  | none =>
    match lhs with
    | .ClassInstance addr cls =>
      if HasMethod cls "__lt__" 1 then
        match ClassInstance.Call exec addr cls "__lt__" [rhs] w with
        | (.ok (.Bool b), w1) => (.ok b, w1)
        | (.ok _, w1) => (.error .undefined_behaviour, w1)
        | (.error e, w1) => (.error e, w1)
      else (.error (.runtime_error "Cannot compare objects for less"), w)
    | _ => (.error (.runtime_error "Cannot compare objects for less"), w)

/-- `NotEqual`. -/
def NotEqual (exec : Executor) (lhs rhs : ObjectHolder) (w : World) :
    Except Exception Bool × World :=
  match Equal exec lhs rhs w with
  | (.ok b, w1) => (.ok (!b), w1)
  | (.error e, w1) => (.error e, w1)

/-- `Greater`: `!(Less(..) || Equal(..))`, where `||` calls `Equal` only when `Less`
is false. -/
def Greater (exec : Executor) (lhs rhs : ObjectHolder) (w : World) :
    Except Exception Bool × World :=
  match Less exec lhs rhs w with
  | (.ok true, w1) => (.ok false, w1)
  | (.ok false, w1) =>
    match Equal exec lhs rhs w1 with
    | (.ok b, w2) => (.ok (!b), w2)
    | (.error e, w2) => (.error e, w2)
  | (.error e, w1) => (.error e, w1)

/-- `LessOrEqual`. -/
def LessOrEqual (exec : Executor) (lhs rhs : ObjectHolder) (w : World) :
    Except Exception Bool × World :=
  match Greater exec lhs rhs w with
  | (.ok b, w1) => (.ok (!b), w1)
  | (.error e, w1) => (.error e, w1)

/-- `GreaterOrEqual`. -/
def GreaterOrEqual (exec : Executor) (lhs rhs : ObjectHolder) (w : World) :
    Except Exception Bool × World :=
  match Less exec lhs rhs w with
  | (.ok b, w1) => (.ok (!b), w1)
  | (.error e, w1) => (.error e, w1)

/-- The call `cmp_(lhs, rhs, context)` of a `Comparison` node. -/
def ApplyComparator (cmp : Comparator) (exec : Executor) (lhs rhs : ObjectHolder) (w : World) :
    Except Exception Bool × World :=
  match cmp with
  | .Equal => Equal exec lhs rhs w
  | .NotEqual => NotEqual exec lhs rhs w
  | .Less => Less exec lhs rhs w
  | .Greater => Greater exec lhs rhs w
  | .LessOrEqual => LessOrEqual exec lhs rhs w
  | .GreaterOrEqual => GreaterOrEqual exec lhs rhs w

/-- `std::transform` over the argument nodes (also the loop of `Compound::Execute`):
executes the statements in order and collects the results; the first exception stops
the loop. -/
def ExecuteArgs (exec : Executor) :
    List Statement → Closure → World → Except Exception (List ObjectHolder) × Closure × World
  | [], closure, w => (.ok [], closure, w)
  | arg :: rest, closure, w =>
    match exec arg closure w with
    | (.ok h, c1, w1) =>
      match ExecuteArgs exec rest c1 w1 with
      | (.ok hs, c2, w2) => (.ok (h :: hs), c2, w2)
      | (.error e, c2, w2) => (.error e, c2, w2)
    | (.error e, c1, w1) => (.error e, c1, w1)

/-- `VariableValue::GetStrDottedIds`: every id followed by `", "`. -/
def GetStrDottedIds (dotted_ids_ : List String) : String :=
  String.join (dotted_ids_.map (fun id => id ++ ", "))

/-- The loop of `VariableValue::Execute`: `scope` is `*p_closure`, `result` the handle
fetched last, `all_ids` the whole path (for the message). -/
def VariableValueLoop (all_ids : List String) (w : World) :
    List String → Closure → ObjectHolder → Except Exception ObjectHolder
  | [], _, result => .ok result
  | id :: rest, scope, _ =>
    match mapFind scope id with
    | none => .error (.runtime_error ("Uncknown : " ++ GetStrDottedIds all_ids))
    | some result =>
      match result with
      | .ClassInstance addr _ => VariableValueLoop all_ids w rest (w.Fields addr) result
      | _ => VariableValueLoop all_ids w rest scope result

/-- The loop of `Print::Execute`; `first` tells that `it == args_.cbegin()`. -/
def PrintArgs (n : Nat) (exec : Executor) :
    List Statement → Bool → Closure → World → Except Exception Unit × Closure × World
  | [], _, closure, w => (.ok (), closure, w)
  | arg :: rest, first, closure, w =>
    match exec arg closure w with
    | (.error e, c1, w1) => (.error e, c1, w1)
    | (.ok holder, c1, w1) =>
      if NonEmpty holder then
        match PrintObject n exec holder (if first then w1 else w1.write " ") with
        | (.ok text, w3) => PrintArgs n exec rest false c1 (w3.write text)
        | (.error e, w3) => (.error e, c1, w3)
      else PrintArgs n exec rest false c1 ((if first then w1 else w1.write " ").write "None")

/-- The value of an `int` expression: `none` when it overflows `int` (undefined
behaviour). -/
def intResult (v : Int) : Option Int :=
  if -2147483648 ≤ v ∧ v ≤ 2147483647 then some v else none

/-- `a / b` on `int`: undefined for `b = 0` and on overflow. -/
def intDiv (a b : Int) : Option Int :=
  if b = 0 then none else intResult (Int.tdiv a b)

/-- The macro `NUM_BINARY_OPERATION(lhs, rhs, runtime::Number, operation)`: `none` when
control falls through the macro.  For two numbers `a operation b` is evaluated on
`int`; `std::isfinite` of an `int` is true, so the result is returned. -/
def NUM_BINARY_OPERATION (operation : Int → Int → Option Int) (lhs rhs : ObjectHolder) :
    Option (Except Exception ObjectHolder) :=
  match lhs, rhs with
  | .Number a, .Number b =>
    match operation a b with
    | some v => some (.ok (.Number v))
    | none => some (.error .undefined_behaviour)
  | _, _ => none

/-- `lhs_->Execute(..)` then `rhs_->Execute(..)` of a binary node. -/
def ExecuteOperands (exec : Executor) (lhs_ rhs_ : Statement) (closure : Closure) (w : World) :
    Except Exception (ObjectHolder × ObjectHolder) × Closure × World :=
  match exec lhs_ closure w with
  | (.error e, c1, w1) => (.error e, c1, w1)
  | (.ok lhs, c1, w1) =>
    match exec rhs_ c1 w1 with
    | (.error e, c2, w2) => (.error e, c2, w2)
    | (.ok rhs, c2, w2) => (.ok (lhs, rhs), c2, w2)

/-- `Statement::Execute` for every node of `statement.cpp`.  The bound limits the depth
of nested `Execute` calls.  In `a = b` on handles the right side is evaluated before
the left (C++17). -/
def Execute : Nat → Statement → Closure → World → Result
  | 0, _, closure, w => (.error .fuel, closure, w)
  | fuel + 1, stmt, closure, w =>
    match stmt with
    | .Const value => (.ok value, closure, w)
    | .Assignment var_ rv_ =>
      match Execute fuel rv_ closure w with
      | (.error e, c1, w1) => (.error e, c1, w1)
      | (.ok h, c1, w1) =>
        match mapFind (mapSet c1 var_ h) var_ with
        | some r => (.ok r, mapSet c1 var_ h, w1)
        | none => (.error .out_of_range, mapSet c1 var_ h, w1)
    | .VariableValue dotted_ids_ =>
      (VariableValueLoop dotted_ids_ w dotted_ids_ closure .None, closure, w)
    | .Print args_ =>
      match PrintArgs fuel (Execute fuel) args_ true closure w with
      | (.error e, c1, w1) => (.error e, c1, w1)
      | (.ok _, c1, w1) => (.ok .None, c1, w1.write "\n")
    | .MethodCall object_ method_ args_ =>
      match Execute fuel object_ closure w with
      | (.error e, c1, w1) => (.error e, c1, w1)
      | (.ok (.ClassInstance addr cls), c1, w1) =>
        if HasMethod cls method_ args_.length then
          match ExecuteArgs (Execute fuel) args_ c1 w1 with
          | (.error e, c2, w2) => (.error e, c2, w2)
          | (.ok args, c2, w2) =>
            ((ClassInstance.Call (Execute fuel) addr cls method_ args w2).1, c2,
             (ClassInstance.Call (Execute fuel) addr cls method_ args w2).2)
        else (.ok .None, c1, w1)
      | (.ok _, c1, w1) => (.error .undefined_behaviour, c1, w1)
    | .Stringify argument_ =>
      match Execute fuel argument_ closure w with
      | (.error e, c1, w1) => (.error e, c1, w1)
      | (.ok holder, c1, w1) =>
        if NonEmpty holder then
          match PrintObject fuel (Execute fuel) holder w1 with
          | (.ok text, w2) => (.ok (.String text), c1, w2)
          | (.error e, w2) => (.error e, c1, w2)
        else (.ok (.String "None"), c1, w1)
    | .Add lhs_ rhs_ =>
      match ExecuteOperands (Execute fuel) lhs_ rhs_ closure w with
      | (.error e, c1, w1) => (.error e, c1, w1)
      | (.ok (lhs, rhs), c1, w1) =>
        match NUM_BINARY_OPERATION (fun a b => intResult (a + b)) lhs rhs with
        | some r => (r, c1, w1)
        | none =>
          match lhs, rhs with
          | .String a, .String b => (.ok (.String (a ++ b)), c1, w1)
          | .ClassInstance addr cls, _ =>
            ((ClassInstance.Call (Execute fuel) addr cls "__add__" [rhs] w1).1, c1,
             (ClassInstance.Call (Execute fuel) addr cls "__add__" [rhs] w1).2)
          | _, _ =>
            (.error (.runtime_error "Error: the operation cannot be performed: Add"), c1, w1)
    | .Sub lhs_ rhs_ =>
      match ExecuteOperands (Execute fuel) lhs_ rhs_ closure w with
      | (.error e, c1, w1) => (.error e, c1, w1)
      | (.ok (lhs, rhs), c1, w1) =>
        match NUM_BINARY_OPERATION (fun a b => intResult (a - b)) lhs rhs with
        | some r => (r, c1, w1)
        | none =>
          (.error (.runtime_error "Error: the operation cannot be performed: Substruct"), c1, w1)
    | .Mult lhs_ rhs_ =>
      match ExecuteOperands (Execute fuel) lhs_ rhs_ closure w with
      | (.error e, c1, w1) => (.error e, c1, w1)
      | (.ok (lhs, rhs), c1, w1) =>
        match NUM_BINARY_OPERATION (fun a b => intResult (a * b)) lhs rhs with
        | some r => (r, c1, w1)
        | none =>
          (.error (.runtime_error "Error: the operation cannot be performed: Multiply"), c1, w1)
    | .Div lhs_ rhs_ =>
      match ExecuteOperands (Execute fuel) lhs_ rhs_ closure w with
      | (.error e, c1, w1) => (.error e, c1, w1)
      | (.ok (lhs, rhs), c1, w1) =>
        match NUM_BINARY_OPERATION intDiv lhs rhs with
        | some r => (r, c1, w1)
        | none =>
          (.error (.runtime_error "Error: the operation cannot be performed: Division"), c1, w1)
    | .Compound args_ =>
      match ExecuteArgs (Execute fuel) args_ closure w with
      | (.error e, c1, w1) => (.error e, c1, w1)
      | (.ok _, c1, w1) => (.ok .None, c1, w1)
    | .Return statement_ =>
      match Execute fuel statement_ closure w with
      | (.error e, c1, w1) => (.error e, c1, w1)
      | (.ok h, c1, w1) => (.error (.thrown_holder h), c1, w1)
    | .ClassDefinition cls_ =>
      match cls_ with
      | .Class cls => (.ok .None, mapSet closure cls.GetName cls_, w)
      | _ => (.error .undefined_behaviour, closure, w)
    | .FieldAssignment object_ field_name_ rv_ =>
      match VariableValueLoop object_ w object_ closure .None with
      | .error e => (.error e, closure, w)
      | .ok (.ClassInstance addr _) =>
        match Execute fuel rv_ closure w with
        | (.error e, c1, w1) => (.error e, c1, w1)
        | (.ok value, c1, w1) => (.ok value, c1, w1.setField addr field_name_ value)
      | .ok _ => (.error (.runtime_error "Error: is not class"), closure, w)
    | .IfElse condition_ if_body_ else_body_ =>
      match Execute fuel condition_ closure w with
      | (.error e, c1, w1) => (.error e, c1, w1)
      | (.ok cond, c1, w1) =>
        if IsTrue cond then Execute fuel if_body_ c1 w1
        else
          match else_body_ with
          | some else_body => Execute fuel else_body c1 w1
          | none => (.ok .None, c1, w1)
    | .Or lhs_ rhs_ =>
      match ExecuteOperands (Execute fuel) lhs_ rhs_ closure w with
      | (.error e, c1, w1) => (.error e, c1, w1)
      | (.ok (lhs, rhs), c1, w1) =>
        if NonEmpty lhs && NonEmpty rhs then (.ok (.Bool (IsTrue lhs || IsTrue rhs)), c1, w1)
        else (.error (.runtime_error "Invalid arguments"), c1, w1)
    | .And lhs_ rhs_ =>
      match ExecuteOperands (Execute fuel) lhs_ rhs_ closure w with
      | (.error e, c1, w1) => (.error e, c1, w1)
      | (.ok (lhs, rhs), c1, w1) =>
        if NonEmpty lhs && NonEmpty rhs then (.ok (.Bool (IsTrue lhs && IsTrue rhs)), c1, w1)
        else (.error (.runtime_error "Invalid arguments"), c1, w1)
    | .Not argument_ =>
      match Execute fuel argument_ closure w with
      | (.error e, c1, w1) => (.error e, c1, w1)
      | (.ok arg, c1, w1) =>
        if NonEmpty arg then (.ok (.Bool (!IsTrue arg)), c1, w1)
        else (.error (.runtime_error "Invalid arguments"), c1, w1)
    | .Comparison cmp_ lhs_ rhs_ =>
      match ExecuteOperands (Execute fuel) lhs_ rhs_ closure w with
      | (.error e, c1, w1) => (.error e, c1, w1)
      | (.ok (lhs, rhs), c1, w1) =>
        match ApplyComparator cmp_ (Execute fuel) lhs rhs w1 with
        | (.ok b, w2) => (.ok (.Bool b), c1, w2)
        | (.error e, w2) => (.error e, c1, w2)
    | .NewInstance addr cls args_ =>
      if HasMethod cls "__init__" args_.length then
        match ExecuteArgs (Execute fuel) args_ closure w with
        | (.error e, c1, w1) => (.error e, c1, w1)
        | (.ok actual_args, c1, w1) =>
          match ClassInstance.Call (Execute fuel) addr cls "__init__" actual_args w1 with
          | (.error e, w2) => (.error e, c1, w2)
          | (.ok _, w2) => (.ok (.ClassInstance addr cls), c1, w2)
      else (.ok (.ClassInstance addr cls), closure, w)
    | .MethodBody body_ =>
      match Execute fuel body_ closure w with
      | (.ok _, c1, w1) => (.ok .None, c1, w1)
      | (.error (.thrown_holder result), c1, w1) => (.ok result, c1, w1)
      | (.error e, c1, w1) => (.error e, c1, w1)

end runtime

/-! ## Notions used to state the properties -/

namespace parse

/-- A substantive token: one that `ReadLine` makes from the characters of a line, as
opposed to `Newline`, `Eof` and the virtual `Indent` and `Dedent`. -/
def Token.isSubstantive : Token → Bool
  | .Newline => false
  | .Eof => false
  | .Indent => false
  | .Dedent => false
  | _ => true

end parse

namespace runtime

/-- The chain `C, parent(C), parent(parent(C)), ...` of a class. -/
def Class.chain : Class → List Class
  | .mk name_ methods_ parent_ =>
    .mk name_ methods_ parent_ ::
      (match parent_ with
       | some p => p.chain
       | none => [])

/-- The class declares a method called `name`. -/
def Class.declares (cls : Class) (name : String) : Prop :=
  ∃ m ∈ cls.methods_, m.name = name

/-- The method `m` is the last one called `name` in the list `methods`. -/
def IsLastNamed (methods : List Method) (name : String) (m : Method) : Prop :=
  ∃ j, methods.get? j = some m ∧ m.name = name ∧
    ∀ j2 m2, j < j2 → methods.get? j2 = some m2 → m2.name ≠ name

/-- The index, counted from `i`, of the last method called `name`. -/
def lastIndexNamed : List Method → String → Nat → Option Nat
  | [], _, _ => none
  | m :: rest, name, i =>
    match lastIndexNamed rest name (i + 1) with
    | some j => some j
    | none => if m.name = name then some i else none


/-- Class `A` of scenario 5: its method `f()` returns `Number(1)`. -/
def scenarioA : Class :=
  .mk "A" [.mk "f" [] (.MethodBody (.Return (.Const (.Number 1))))] none

/-- Class `B` of scenario 5: parent `A`, no method of its own. -/
def scenarioB : Class := .mk "B" [] (some scenarioA)

/-- Execution of `stmt` reaches a `Return` statement nested inside `Compound` and
`IfElse` nodes: `Return(e)` itself where `e` evaluates to `h`; a `Compound` whose
statements before `s` complete and whose statement `s` reaches the `Return`; an `IfElse`
whose condition is evaluated and whose chosen branch reaches the `Return`.  The closure
and world are those right after `e` was evaluated. -/
inductive ReachesReturn :
    Nat → Statement → Closure → World → ObjectHolder → Closure → World → Prop where
  | ret (fuel : Nat) (e : Statement) (closure : Closure) (w : World) (h : ObjectHolder)
      (c1 : Closure) (w1 : World) :
      Execute fuel e closure w = (.ok h, c1, w1) →
      ReachesReturn (fuel + 1) (.Return e) closure w h c1 w1
  | compound (fuel : Nat) (before after : List Statement) (s : Statement)
      (closure : Closure) (w : World) (values : List ObjectHolder) (c1 : Closure) (w1 : World)
      (h : ObjectHolder) (c2 : Closure) (w2 : World) :
      ExecuteArgs (Execute fuel) before closure w = (.ok values, c1, w1) →
      ReachesReturn fuel s c1 w1 h c2 w2 →
      ReachesReturn (fuel + 1) (.Compound (before ++ s :: after)) closure w h c2 w2
  | if_body (fuel : Nat) (condition_ if_body_ : Statement) (else_body_ : Option Statement)
      (closure : Closure) (w : World) (cond : ObjectHolder) (c1 : Closure) (w1 : World)
      (h : ObjectHolder) (c2 : Closure) (w2 : World) :
      Execute fuel condition_ closure w = (.ok cond, c1, w1) →
      IsTrue cond = true →
      ReachesReturn fuel if_body_ c1 w1 h c2 w2 →
      ReachesReturn (fuel + 1) (.IfElse condition_ if_body_ else_body_) closure w h c2 w2
  | else_body (fuel : Nat) (condition_ if_body_ else_body : Statement)
      (closure : Closure) (w : World) (cond : ObjectHolder) (c1 : Closure) (w1 : World)
      (h : ObjectHolder) (c2 : Closure) (w2 : World) :
      Execute fuel condition_ closure w = (.ok cond, c1, w1) →
      IsTrue cond = false →
      ReachesReturn fuel else_body c1 w1 h c2 w2 →
      ReachesReturn (fuel + 1) (.IfElse condition_ if_body_ (some else_body)) closure w h c2 w2

/-- A body that prints `a`, then returns 1 from inside an `if`, with statements that
follow the `Return` in both enclosing `Compound` nodes. -/
def returnInsideIf : Statement :=
  .Compound
    [.Print [.Const (.String "a")],
     .IfElse (.Const (.Bool true))
       (.Compound [.Return (.Const (.Number 1)), .Print [.Const (.String "b")]]) none,
     .Print [.Const (.String "c")]]

/-- A class whose method `f` has the formal parameters `x, x`; the body returns `x`. -/
def twiceX : Class :=
  .mk "T" [.mk "f" ["x", "x"] (.MethodBody (.Return (.VariableValue ["x"])))] none

/-- A class whose method `f` has a formal parameter called `self`; the body returns
`self`. -/
def selfParam : Class :=
  .mk "S" [.mk "f" ["self"] (.MethodBody (.Return (.VariableValue ["self"])))] none

/-- A class without methods. -/
def plainC : Class := .mk "C" [] none

/-- A class whose method `make()` returns `C()`: its body holds one `NewInstance` node,
with its instance at address 1. -/
def makerClass : Class :=
  .mk "Maker" [.mk "make" [] (.MethodBody (.Return (.NewInstance 1 plainC [])))] none

/-- The program `m = Maker(); a = m.make(); a.x = 1; b = m.make(); print b.x`: the
`NewInstance` node in `make` is executed twice. -/
def makeTwice : Statement :=
  .Compound
    [.Assignment "m" (.NewInstance 0 makerClass []),
     .Assignment "a" (.MethodCall (.VariableValue ["m"]) "make" []),
     .FieldAssignment ["a"] "x" (.Const (.Number 1)),
     .Assignment "b" (.MethodCall (.VariableValue ["m"]) "make" []),
     .Print [.VariableValue ["b", "x"]]]

/-- Class `A` with `f()` returning 1. -/
def arityA : Class :=
  .mk "A" [.mk "f" [] (.MethodBody (.Return (.Const (.Number 1))))] none

/-- Class `B` with parent `A` and its own `f(x)` returning 2. -/
def arityB : Class :=
  .mk "B" [.mk "f" ["x"] (.MethodBody (.Return (.Const (.Number 2))))] (some arityA)

end runtime

namespace runtime

/-- Both handles hold a value of the same primitive type: two Numbers, two Strings or
two Bools. -/
def SamePrimitiveType : ObjectHolder → ObjectHolder → Prop
  | .Number _, .Number _ => True
  | .String _, .String _ => True
  | .Bool _, .Bool _ => True
  | _, _ => False

/-- Exactly one of three truth values is true. -/
def ExactlyOne (x y z : Bool) : Prop :=
  (x = true ∧ y = false ∧ z = false) ∨ (x = false ∧ y = true ∧ z = false) ∨
    (x = false ∧ y = false ∧ z = true)

/-- A class whose `__eq__(other)` returns `True` whatever the argument is. -/
def alwaysEqual : Class :=
  .mk "E" [.mk "__eq__" ["other"] (.MethodBody (.Return (.Const (.Bool true))))] none

end runtime

namespace parse

/-- The reserved words and their tokens. -/
def keywords : List (String × Token) :=
  [("class", Token.Class), ("return", Token.Return), ("if", Token.If),
   ("else", Token.Else), ("def", Token.Def), ("print", Token.Print),
   ("and", Token.And), ("or", Token.Or), ("not", Token.Not),
   ("None", Token.None), ("True", Token.True), ("False", Token.False)]

/-- A character of a word: an ASCII letter, a digit or the underscore. -/
def isWordChar (c : Char) : Bool := c.isAlphanum || c = '_'

/-- The token of the word `w`: its keyword token when `w` is a reserved word, `Id{w}`
otherwise. -/
def wordToken (w : List Char) : Token :=
  match keywords.lookup (String.mk w) with
  | some t => t
  | none => Token.Id (String.mk w)

end parse

namespace parse

/-- The escape codes of a string literal and the characters they stand for. -/
def escapeCodes : List (Char × Char) :=
  [('n', '\n'), ('t', '\t'), ('r', '\r'), ('"', '"'), ('\'', '\''), ('\\', '\\')]

/-- The escaped form of a character: newline, tab, carriage return, both quotes and the
backslash become a backslash and their code, every other character stays. -/
def escChar (c : Char) : List Char :=
  if c = '\n' then ['\\', 'n']
  else if c = '\t' then ['\\', 't']
  else if c = '\r' then ['\\', 'r']
  else if c = '"' then ['\\', '"']
  else if c = '\'' then ['\\', '\'']
  else if c = '\\' then ['\\', '\\']
  else [c]

/-- The escaped form `esc(s)` of a string. -/
def esc : List Char → List Char
  | [] => []
  | c :: s => escChar c ++ esc s

/-- `LiteralBody q text value`: `text` is a well-formed body of a string literal with the
quote `q`, and `value` is what it stands for.  The body is a sequence of plain
characters (not the quote `q`, not a backslash, not a newline or carriage return) and
of escapes (a backslash and one of the codes `n t r " ' \`). -/
inductive LiteralBody (q : Char) : List Char → List Char → Prop where
  | done : LiteralBody q [] []
  | plain (c : Char) (text value : List Char) :
      c ≠ q → c ≠ '\\' → c ≠ '\n' → c ≠ '\r' → LiteralBody q text value →
      LiteralBody q (c :: text) (c :: value)
  | escape (x d : Char) (text value : List Char) :
      (x, d) ∈ escapeCodes → LiteralBody q text value →
      LiteralBody q ('\\' :: x :: text) (d :: value)

/-- The input ends inside the literal: after a well-formed body, or after a backslash
that follows one. -/
def Unterminated (q : Char) (text : List Char) : Prop :=
  ∃ body value, LiteralBody q body value ∧ (text = body ∨ text = body ++ ['\\'])

/-- After a well-formed body comes a backslash and a character `x` that is not an escape
code. -/
def BadEscape (q : Char) (text : List Char) (x : Char) : Prop :=
  ∃ body value rest, LiteralBody q body value ∧ text = body ++ '\\' :: x :: rest ∧
    ∀ d, (x, d) ∉ escapeCodes

/-- After a well-formed body comes a raw newline or a raw carriage return. -/
def RawLineEnd (q : Char) (text : List Char) : Prop :=
  ∃ body value c rest, LiteralBody q body value ∧ text = body ++ c :: rest ∧
    (c = '\n' ∨ c = '\r')

end parse

namespace parse

/-- What follows the text of a line: the end of the input in both of two inputs, or a
newline (and any further text) in both. -/
def SameLineEnd (T1 T2 : List Char) : Prop :=
  (T1 = [] ∧ T2 = []) ∨ (∃ X Y, T1 = NEW_LINE_SIGN :: X ∧ T2 = NEW_LINE_SIGN :: Y)

/-- The `Indent` and `Dedent` tokens that `ParseTokens` puts in front of the tokens of
a line, for the current indent `current`. -/
def indentTokens (current : Nat) (line : LineTokenizer) : List Token :=
  if line.IsEofOnly then List.replicate (current / 2) Token.Dedent
  else if line.indent_ > current then
    List.replicate ((line.indent_ - current) / 2) Token.Indent
  else List.replicate ((current - line.indent_) / 2) Token.Dedent

/-- The current indent after `ParseTokens` has processed a line. -/
def nextIndent (current : Nat) (line : LineTokenizer) : Nat :=
  if line.IsEofOnly then (if current > 0 then line.indent_ else current) else line.indent_

end parse

namespace parse

/-- Two runs of `ReadLineLoop`, on the same line text followed by `T1` and by `T2`, agree:
both raise the same exception, or both return the same tokens and leave what follows
the line end (nothing, or the text after the newline); the tokens end in `Eof` when the
input ended and in `Newline` when the line ended in a newline. -/
def SameLineResult (T1 T2 : List Char)
    (a b : Except LexException (List Token × List Char)) : Prop :=
  (∃ e, a = .error e ∧ b = .error e) ∨
  (∃ toks, a = .ok (toks, T1.tail) ∧ b = .ok (toks, T2.tail) ∧
    (T1 = [] → toks.getLast? = some Token.Eof) ∧
    (T1 ≠ [] → toks.getLast? = some Token.Newline))

end parse

namespace parse

/-- A blank or comment-only line with its newline: any number of spaces, optionally a
`#` and comment text, then the newline. -/
def IsBlankLine (B : List Char) : Prop :=
  ∃ (k : Nat) (comment : List Char), NEW_LINE_SIGN ∉ comment ∧
    (B = List.replicate k SPACE_SIGN ++ [NEW_LINE_SIGN] ∨
     B = List.replicate k SPACE_SIGN ++ COMMENT_SIGN :: (comment ++ [NEW_LINE_SIGN]))

/-- The text `a2` is the text `a` itself, or `a` with the line `B` inserted at its start
or right after one of its newlines. -/
def InsertedLine (B a a2 : List Char) : Prop :=
  a2 = a ∨ a2 = B ++ a ∨
    ∃ S1 S2, a = S1 ++ NEW_LINE_SIGN :: S2 ∧ a2 = S1 ++ NEW_LINE_SIGN :: (B ++ S2)

/-- Two lexer states that differ at most by a line `B` inserted in the input still to be
read. -/
def InsertedLineState (B : List Char) (lx lx2 : Lexer) : Prop :=
  lx2.tokens_ = lx.tokens_ ∧ lx2.current_indent_ = lx.current_indent_ ∧
    lx2.index_current_token_ = lx.index_current_token_ ∧ InsertedLine B lx.input_ lx2.input_

end parse

namespace parse

/-- The lines of a source text: the pieces between its newline characters.  A newline at
the very end closes the last line and starts no further one. -/
def sourceLines : List Char → List (List Char)
  | [] => []
  | c :: rest =>
    if c = NEW_LINE_SIGN then [] :: sourceLines rest
    else
      match sourceLines rest with
      | [] => [[c]]
      | l :: ls => (c :: l) :: ls

/-- The text of a blank or comment-only line: after its leading spaces the line ends or a
`#` follows. -/
def isBlankText (l : List Char) : Bool :=
  match l.dropWhile (fun c => c == SPACE_SIGN) with
  | [] => true
  | c :: _ => c == COMMENT_SIGN

/-- The tokens of the buffer that `NextToken` has not returned yet. -/
def Lexer.pending (lx : Lexer) : List Token :=
  lx.tokens_.drop (lx.index_current_token_ + 1).toNat

/-- The index of the current token lies in the buffer, or is `-1` before the first
token. -/
def Lexer.IndexInRange (lx : Lexer) : Prop :=
  -1 ≤ lx.index_current_token_ ∧ lx.index_current_token_ < (lx.tokens_.length : Int)

/-- The tokens the lexer hands out up to and including the first `Eof`, from the tokens
`pending` in the buffer, the input still to be read and the current indent: pending
tokens come first; when none is pending `ParseTokens` reads the next non-empty line. -/
inductive StreamToEof : List Token → List Char → Nat → List Token → Prop
  | eof (r : List Token) (input : List Char) (indent : Nat) :
      StreamToEof (Token.Eof :: r) input indent [Token.Eof]
  | tok (t : Token) (r : List Token) (input : List Char) (indent : Nat) (out : List Token) :
      t ≠ Token.Eof → StreamToEof r input indent out →
      StreamToEof (t :: r) input indent (t :: out)
  | line (input : List Char) (indent : Nat) (line : LineTokenizer) (rest : List Char)
      (out : List Token) :
      ReadNonEmptyLine (input.length + 1) input = .ok (line, rest) →
      line.indent_ % 2 = 0 →
      StreamToEof (indentTokens indent line ++ line.tokens_) rest (nextIndent indent line) out →
      StreamToEof [] input indent out

/-- The token sequence of `k` logical lines: for each line optional `Indent` or `Dedent`
tokens, the substantive tokens of the line (at least one) and exactly one `Newline`; at
the end optional `Dedent` tokens and `Eof`. -/
inductive LineTokens : Nat → List Token → Prop
  | last (closing : List Token) :
      (∀ t ∈ closing, t = Token.Dedent) → LineTokens 0 (closing ++ [Token.Eof])
  | line (k : Nat) (ind sub rest : List Token) :
      (∀ t ∈ ind, t = Token.Indent ∨ t = Token.Dedent) → sub ≠ [] →
      (∀ t ∈ sub, t.isSubstantive = true) → LineTokens k rest →
      LineTokens (k + 1) (ind ++ sub ++ Token.Newline :: rest)

end parse

namespace runtime

/-- Class `B` with parent `A` that declares `f` twice: first `f(x)` returning 2, then
`f()` returning 3. -/
def twiceF : Class :=
  .mk "B" [.mk "f" ["x"] (.MethodBody (.Return (.Const (.Number 2)))),
           .mk "f" [] (.MethodBody (.Return (.Const (.Number 3))))] (some arityA)

end runtime

namespace parse

/-- No exception before `Eof`: among the results of `NextToken` calls from a state, an
exception comes only after an `Eof` was returned. -/
def Lexer.NoErrorBeforeEof (lx : Lexer) : Prop :=
  ∀ (n : Nat) (e : LexException),
    Except.error e ∈ nextTokens n lx → Except.ok Token.Eof ∈ nextTokens n lx

/-- The source tokenizes without error: among the results of the constructor and any
number of `NextToken` calls, an exception comes only after an `Eof` was returned (the
results stop at the first exception). -/
def TokenizesWithoutError (source : String) : Prop :=
  ∀ (n : Nat) (e : LexException),
    Except.error e ∈ tokenStream n source → Except.ok Token.Eof ∈ tokenStream n source

end parse

namespace runtime

/-- A class whose method `sub(x, y)` returns `x - y`. -/
def subtractXY : Class :=
  .mk "P" [.mk "sub" ["x", "y"]
    (.MethodBody (.Return (.Sub (.VariableValue ["x"]) (.VariableValue ["y"]))))] none

end runtime

/-! ## Lexer: theorems -/

namespace parse

theorem lookup_mem_values {β : Type} (k : String) (l : List (String × β)) (v : β)
    (h : l.lookup k = some v) : v ∈ l.map Prod.snd := by
  induction l with
  | nil => simp [List.lookup] at h
  | cons p rest ih =>
    obtain ⟨k1, v1⟩ := p
    simp only [List.lookup] at h
    split at h
    · simp only [Option.some.injEq] at h
      simp [h]
    · simp [ih h]

theorem lexemes_substantive (s : String) (t : Token) (h : lexemes.lookup s = some t) :
    t.isSubstantive = true := by
  have hmem := lookup_mem_values s lexemes t h
  have hall : ∀ v ∈ lexemes.map Prod.snd, Token.isSubstantive v = true := by decide
  exact hall t hmem

theorem ParseNameOrToken_substantive (first : Char) (rest : List Char) :
    (ParseNameOrToken first rest).1.isSubstantive = true := by
  unfold ParseNameOrToken
  simp only
  split
  · next t h => exact lexemes_substantive _ t h
  · rfl

theorem ParseComparisonOrChar_substantive (first : Char) (rest : List Char) :
    (ParseComparisonOrChar first rest).1.isSubstantive = true := by
  unfold ParseComparisonOrChar
  simp only
  split
  · next t h => exact lexemes_substantive _ t h
  · rfl

theorem ParseString_substantive (q : Char) (rest : List Char) (t : Token) (rest2 : List Char)
    (h : ParseString q rest = .ok (t, rest2)) : t.isSubstantive = true := by
  unfold ParseString at h
  split at h
  · simp only [Except.ok.injEq, Prod.mk.injEq] at h
    rw [← h.1]; rfl
  · simp at h

theorem ParseNumber_substantive (first : Char) (rest : List Char) (t : Token) (rest2 : List Char)
    (h : ParseNumber first rest = .ok (t, rest2)) : t.isSubstantive = true := by
  unfold ParseNumber at h
  simp only at h
  split at h
  · simp only [Except.ok.injEq, Prod.mk.injEq] at h
    rw [← h.1]; rfl
  · simp at h

theorem eof_case_tokens (acc : List Token) (hacc : ∀ t ∈ acc, t.isSubstantive = true) :
    (acc = [] ∧
      (if !(LineTokenizer.IsEmpty ⟨0, acc⟩) && !(acc.getLast? == some Token.Newline)
        then acc ++ [Token.Newline] else acc) = []) ∨
    (acc ≠ [] ∧
      (if !(LineTokenizer.IsEmpty ⟨0, acc⟩) && !(acc.getLast? == some Token.Newline)
        then acc ++ [Token.Newline] else acc) = acc ++ [Token.Newline]) := by
  rcases List.eq_nil_or_concat acc with h | ⟨front, last, h⟩
  · left
    subst h
    exact ⟨rfl, rfl⟩
  · right
    rw [List.concat_eq_append] at h
    subst h
    refine ⟨by simp, ?_⟩
    have hlast : last.isSubstantive = true := hacc last (by simp)
    have hne : last ≠ Token.Newline := by
      intro hc; rw [hc] at hlast; exact absurd hlast (by decide)
    have h1 : LineTokenizer.IsEmpty ⟨0, front ++ [last]⟩ = false := by
      simp [LineTokenizer.IsEmpty, hne]
    have h2 : ((front ++ [last]).getLast? == some Token.Newline) = false := by
      simp [hne]
    rw [h1, h2]
    rfl

/-- A line read by `ReadLineLoop` is a run of substantive tokens that extends the tokens
collected so far, closed by `Newline`, by `Newline Eof`, or it is the single `Eof`. -/
theorem ReadLineLoop_shape (fuel : Nat) :
    ∀ (input : List Char) (acc out : List Token) (rest : List Char),
      (∀ t ∈ acc, t.isSubstantive = true) →
      ReadLineLoop fuel input acc = .ok (out, rest) →
      ∃ sub : List Token, (∀ t ∈ sub, t.isSubstantive = true) ∧ (∃ more, sub = acc ++ more) ∧
        (out = sub ++ [Token.Newline] ∨ (sub ≠ [] ∧ out = sub ++ [Token.Newline, Token.Eof]) ∨
          (sub = [] ∧ out = [Token.Eof])) := by
  induction fuel with
  | zero => intro input acc out rest _ h; simp [ReadLineLoop] at h
  | succ fuel ih =>
    intro input acc out rest hacc h
    have step : ∀ (t : Token) (input2 : List Char), t.isSubstantive = true →
        ReadLineLoop fuel input2 (acc ++ [t]) = .ok (out, rest) →
        ∃ sub : List Token, (∀ t ∈ sub, t.isSubstantive = true) ∧ (∃ more, sub = acc ++ more) ∧
          (out = sub ++ [Token.Newline] ∨ (sub ≠ [] ∧ out = sub ++ [Token.Newline, Token.Eof]) ∨
            (sub = [] ∧ out = [Token.Eof])) := by
      intro t input2 ht h2
      have hacc2 : ∀ u ∈ acc ++ [t], u.isSubstantive = true := by
        intro u hu
        rcases List.mem_append.1 hu with hu | hu
        · exact hacc u hu
        · simp only [List.mem_singleton] at hu; rw [hu]; exact ht
      obtain ⟨sub, hsub, ⟨more, hmore⟩, hout⟩ := ih input2 (acc ++ [t]) out rest hacc2 h2
      exact ⟨sub, hsub, ⟨[t] ++ more, by rw [hmore, List.append_assoc]⟩, hout⟩
    cases input with
    | nil =>
      simp only [ReadLineLoop, Except.ok.injEq, Prod.mk.injEq] at h
      rcases eof_case_tokens acc hacc with ⟨hnil, heq⟩ | ⟨hne, heq⟩
      · rw [heq] at h
        exact ⟨[], by simp, ⟨[], by simp [hnil]⟩, Or.inr (Or.inr ⟨rfl, by simpa using h.1.symm⟩)⟩
      · rw [heq] at h
        exact ⟨acc, hacc, ⟨[], by simp⟩, Or.inr (Or.inl ⟨hne, by simpa using h.1.symm⟩)⟩
    | cons ch rest0 =>
      simp only [ReadLineLoop] at h
      split at h
      · exact ih _ acc out rest hacc h
      · split at h
        · exact ih _ acc out rest hacc h
        · split at h
          · simp only [Except.ok.injEq, Prod.mk.injEq] at h
            exact ⟨acc, hacc, ⟨[], by simp⟩, Or.inl h.1.symm⟩
          · split at h
            · split at h
              · next t rest2 hp => exact step t rest2 (ParseString_substantive _ _ _ _ hp) h
              · simp at h
            · split at h
              · split at h
                · next t rest2 hp => exact step t rest2 (ParseNumber_substantive _ _ _ _ hp) h
                · simp at h
              · split at h
                · exact step _ _ (ParseNameOrToken_substantive _ _) h
                · exact step _ _ (ParseComparisonOrChar_substantive _ _) h

theorem ReadLine_shape (input : List Char) (line : LineTokenizer) (rest : List Char)
    (h : ReadLine input = .ok (line, rest)) :
    ∃ sub : List Token, (∀ t ∈ sub, t.isSubstantive = true) ∧
      (line.tokens_ = sub ++ [Token.Newline] ∨
        (sub ≠ [] ∧ line.tokens_ = sub ++ [Token.Newline, Token.Eof]) ∨
        (sub = [] ∧ line.tokens_ = [Token.Eof])) := by
  unfold ReadLine at h
  split at h
  · next tokens rest1 hloop =>
    simp only [Except.ok.injEq, Prod.mk.injEq] at h
    obtain ⟨sub, hsub, _, hout⟩ := ReadLineLoop_shape _ _ [] tokens rest1 (by simp) hloop
    refine ⟨sub, hsub, ?_⟩
    rw [← h.1]
    exact hout
  · simp at h

theorem ReadNonEmptyLine_shape (fuel : Nat) :
    ∀ (input : List Char) (line : LineTokenizer) (rest : List Char),
      ReadNonEmptyLine fuel input = .ok (line, rest) →
      line.IsEmpty = false ∧
      ∃ sub : List Token, (∀ t ∈ sub, t.isSubstantive = true) ∧
        (line.tokens_ = sub ++ [Token.Newline] ∨
          (sub ≠ [] ∧ line.tokens_ = sub ++ [Token.Newline, Token.Eof]) ∨
          (sub = [] ∧ line.tokens_ = [Token.Eof])) := by
  induction fuel with
  | zero => intro input line rest h; simp [ReadNonEmptyLine] at h
  | succ fuel ih =>
    intro input line rest h
    simp only [ReadNonEmptyLine] at h
    split at h
    · next line1 rest1 hread =>
      split at h
      · exact ih _ _ _ h
      · next hne =>
        simp only [Except.ok.injEq, Prod.mk.injEq] at h
        rw [← h.1]
        exact ⟨by simpa using hne, ReadLine_shape _ _ _ hread⟩
    · simp at h

/-- A line that `ParseTokens` accepts and that is not `IsEofOnly` starts with a
substantive token: it is a non-empty run of substantive tokens closed by `Newline`
(and `Eof` when the input ends on that line). -/
theorem substantive_line_shape (fuel : Nat) (input : List Char) (line : LineTokenizer)
    (rest : List Char) (h : ReadNonEmptyLine fuel input = .ok (line, rest))
    (heof : line.IsEofOnly = false) :
    ∃ sub ending : List Token, sub ≠ [] ∧ (∀ t ∈ sub, t.isSubstantive = true) ∧
      (ending = [Token.Newline] ∨ ending = [Token.Newline, Token.Eof]) ∧
      line.tokens_ = sub ++ ending := by
  obtain ⟨hne, sub, hsub, hshape⟩ := ReadNonEmptyLine_shape fuel input line rest h
  rcases hshape with h1 | ⟨hsne, h2⟩ | ⟨_, h3⟩
  · refine ⟨sub, [Token.Newline], ?_, hsub, Or.inl rfl, h1⟩
    intro hnil
    rw [hnil] at h1
    simp [LineTokenizer.IsEmpty, h1] at hne
  · exact ⟨sub, [Token.Newline, Token.Eof], hsne, hsub, Or.inr rfl, h2⟩
  · simp [LineTokenizer.IsEofOnly, h3] at heof

theorem ParseTokens_indent (lx : Lexer) (line : LineTokenizer) (rest : List Char) (k : Nat)
    (h : ReadNonEmptyLine (lx.input_.length + 1) lx.input_ = .ok (line, rest))
    (heof : line.IsEofOnly = false) (heven : line.indent_ % 2 = 0)
    (hk : 0 < k) (hn : line.indent_ = lx.current_indent_ + 2 * k) :
    lx.ParseTokens = .ok { lx with
      input_ := rest
      tokens_ := lx.tokens_ ++ (List.replicate k Token.Indent ++ line.tokens_)
      current_indent_ := line.indent_ } := by
  have h1 : line.indent_ > lx.current_indent_ := by omega
  have h2 : (line.indent_ - lx.current_indent_) / 2 = k := by omega
  simp [Lexer.ParseTokens, h, heof, heven, h1, h2]

theorem ParseTokens_dedent (lx : Lexer) (line : LineTokenizer) (rest : List Char) (k : Nat)
    (h : ReadNonEmptyLine (lx.input_.length + 1) lx.input_ = .ok (line, rest))
    (heof : line.IsEofOnly = false) (heven : line.indent_ % 2 = 0)
    (hk : 0 < k) (hn : lx.current_indent_ = line.indent_ + 2 * k) :
    lx.ParseTokens = .ok { lx with
      input_ := rest
      tokens_ := lx.tokens_ ++ (List.replicate k Token.Dedent ++ line.tokens_)
      current_indent_ := line.indent_ } := by
  have h1 : ¬ line.indent_ > lx.current_indent_ := by omega
  have h3 : line.indent_ < lx.current_indent_ := by omega
  have h2 : (lx.current_indent_ - line.indent_) / 2 = k := by omega
  simp [Lexer.ParseTokens, h, heof, heven, h1, h2, h3]

theorem ParseTokens_same_indent (lx : Lexer) (line : LineTokenizer) (rest : List Char)
    (h : ReadNonEmptyLine (lx.input_.length + 1) lx.input_ = .ok (line, rest))
    (heof : line.IsEofOnly = false) (heven : line.indent_ % 2 = 0)
    (hn : line.indent_ = lx.current_indent_) :
    lx.ParseTokens = .ok { lx with
      input_ := rest
      tokens_ := lx.tokens_ ++ line.tokens_
      current_indent_ := line.indent_ } := by
  have h1 : ¬ line.indent_ > lx.current_indent_ := by omega
  have h3 : ¬ line.indent_ < lx.current_indent_ := by omega
  simp only [Lexer.ParseTokens, h, heof, heven]
  simp [h1, h3, hn.symm]

theorem SkipSpaces_length (input : List Char) : (SkipSpaces input).2.length ≤ input.length := by
  induction input with
  | nil => simp [SkipSpaces]
  | cons c rest ih =>
    simp only [SkipSpaces]
    split
    · simp only [List.length_cons]; omega
    · simp

theorem SkipComment_length (input : List Char) : (SkipComment input).length ≤ input.length := by
  induction input with
  | nil => simp [SkipComment]
  | cons c rest ih =>
    simp only [SkipComment]
    split
    · simp
    · simp only [List.length_cons]; omega

theorem takeWhileRest_length (p : Char → Bool) (input : List Char) :
    (takeWhileRest p input).2.length ≤ input.length := by
  induction input with
  | nil => simp [takeWhileRest]
  | cons c rest ih =>
    simp only [takeWhileRest]
    split
    · simp only [List.length_cons]; omega
    · simp

theorem ParseStringLoop_length (q : Char) :
    ∀ (fuel : Nat) (input str out rest2 : List Char), input.length ≤ fuel →
      ParseStringLoop q input str = .ok (out, rest2) → rest2.length < input.length := by
  intro fuel
  induction fuel with
  | zero =>
    intro input str out rest2 hlen h
    cases input with
    | nil => simp [ParseStringLoop] at h
    | cons c rest => simp at hlen
  | succ fuel ih =>
    intro input str out rest2 hlen h
    cases input with
    | nil => simp [ParseStringLoop] at h
    | cons ch rest =>
      simp only [List.length_cons] at hlen
      cases rest with
      | nil =>
        simp only [ParseStringLoop] at h
        split at h
        · simp only [Except.ok.injEq, Prod.mk.injEq] at h
          rw [← h.2]; simp
        · split at h
          · simp at h
          · split at h <;> simp at h
      | cons e rest3 =>
        simp only [List.length_cons] at hlen ⊢
        simp only [ParseStringLoop] at h
        have key : ∀ s, ParseStringLoop q rest3 s = .ok (out, rest2) →
            rest2.length < rest3.length + 1 + 1 := by
          intro s hs
          have := ih rest3 s out rest2 (by omega) hs
          omega
        split at h
        · simp only [Except.ok.injEq, Prod.mk.injEq] at h
          rw [← h.2]; simp
        · split at h
          · split at h
            · exact key _ h
            · split at h
              · exact key _ h
              · split at h
                · exact key _ h
                · split at h
                  · exact key _ h
                  · split at h
                    · exact key _ h
                    · split at h
                      · exact key _ h
                      · simp at h
          · split at h
            · simp at h
            · have := ih (e :: rest3) _ out rest2 (by simp only [List.length_cons]; omega) h
              simp only [List.length_cons] at this
              omega

theorem ParseString_length (q : Char) (rest : List Char) (t : Token) (rest2 : List Char)
    (h : ParseString q rest = .ok (t, rest2)) : rest2.length < rest.length := by
  unfold ParseString at h
  split at h
  · next str r2 hloop =>
    simp only [Except.ok.injEq, Prod.mk.injEq] at h
    rw [← h.2]
    exact ParseStringLoop_length q rest.length rest [] str r2 (le_refl _) hloop
  · simp at h

theorem ParseNumber_length (first : Char) (rest : List Char) (t : Token) (rest2 : List Char)
    (h : ParseNumber first rest = .ok (t, rest2)) : rest2.length ≤ rest.length := by
  unfold ParseNumber at h
  simp only at h
  split at h
  · simp only [Except.ok.injEq, Prod.mk.injEq] at h
    rw [← h.2]
    exact takeWhileRest_length _ _
  · simp at h

theorem ParseNameOrToken_length (first : Char) (rest : List Char) :
    (ParseNameOrToken first rest).2.length ≤ rest.length := by
  unfold ParseNameOrToken
  simp only
  split <;> exact takeWhileRest_length _ _

theorem ParseComparisonOrChar_length (first : Char) (rest : List Char) :
    (ParseComparisonOrChar first rest).2.length ≤ rest.length := by
  unfold ParseComparisonOrChar
  simp only
  split
  · simp
  · exact le_refl _

theorem ParseStringLoop_ne_fuel (q : Char) :
    ∀ (n : Nat) (input str : List Char), input.length ≤ n →
      ParseStringLoop q input str ≠ .error .fuel := by
  intro n
  induction n with
  | zero =>
    intro input str hn
    cases input with
    | nil => simp [ParseStringLoop]
    | cons c r => simp at hn
  | succ n ih =>
    intro input str hn
    cases input with
    | nil => simp [ParseStringLoop]
    | cons c r =>
      simp only [List.length_cons] at hn
      cases r with
      | nil =>
        simp only [ParseStringLoop]
        split
        · simp
        · split
          · simp
          · split
            · simp
            · simp [ParseStringLoop]
      | cons c2 r2 =>
        simp only [List.length_cons] at hn
        simp only [ParseStringLoop]
        have k : ∀ s, ParseStringLoop q r2 s ≠ .error .fuel := fun s => ih r2 s (by omega)
        split
        · simp
        · split
          · split
            · exact k _
            · split
              · exact k _
              · split
                · exact k _
                · split
                  · exact k _
                  · split
                    · exact k _
                    · split
                      · exact k _
                      · simp
          · split
            · simp
            · exact ih (c2 :: r2) _ (by simp only [List.length_cons]; omega)

theorem ParseString_ne_fuel (q : Char) (rest : List Char)
    (h : ParseString q rest = .error .fuel) : False := by
  unfold ParseString at h
  split at h
  · simp at h
  · next e hloop =>
    simp only [Except.error.injEq] at h
    subst h
    exact ParseStringLoop_ne_fuel q rest.length rest [] (le_refl _) hloop

/-- The bound of `ReadLineLoop` is not exhausted when it exceeds the length of the
input. -/
theorem ReadLineLoop_ne_fuel (fuel : Nat) :
    ∀ (input : List Char) (acc : List Token), input.length < fuel →
      ReadLineLoop fuel input acc ≠ .error .fuel := by
  induction fuel with
  | zero => intro input acc h; omega
  | succ fuel ih =>
    intro input acc hlen
    cases input with
    | nil => simp [ReadLineLoop]
    | cons ch rest =>
      simp only [List.length_cons] at hlen
      simp only [ReadLineLoop]
      split
      · next hsp =>
        apply ih
        have := SkipSpaces_length rest
        simp only [SkipSpaces, hsp, if_true]
        omega
      · split
        · next hnsp hc =>
          apply ih
          have := SkipComment_length rest
          have hne : ¬ ch = NEW_LINE_SIGN := by rw [hc]; decide
          simp only [SkipComment, hne, if_false]
          omega
        · split
          · simp
          · split
            · split
              · next t rest2 hp =>
                apply ih
                have := ParseString_length _ _ _ _ hp
                omega
              · next e hp =>
                intro hc
                simp only [Except.error.injEq] at hc
                subst hc
                exact ParseString_ne_fuel _ _ hp
            · split
              · split
                · next t rest2 hp =>
                  apply ih
                  have := ParseNumber_length _ _ _ _ hp
                  omega
                · next e hp =>
                  intro hc
                  simp only [Except.error.injEq] at hc
                  subst hc
                  unfold ParseNumber at hp
                  simp only at hp
                  split at hp <;> simp at hp
              · split
                · apply ih
                  have := ParseNameOrToken_length ch rest
                  omega
                · apply ih
                  have := ParseComparisonOrChar_length ch rest
                  omega

/-- A line that `ReadLineLoop` returns either ends the input with `Eof` or leaves less
input than it was given. -/
theorem ReadLineLoop_rest (fuel : Nat) :
    ∀ (input : List Char) (acc out : List Token) (rest : List Char),
      ReadLineLoop fuel input acc = .ok (out, rest) →
      (Token.Eof ∈ out ∧ rest = []) ∨ rest.length < input.length := by
  induction fuel with
  | zero => intro input acc out rest h; simp [ReadLineLoop] at h
  | succ fuel ih =>
    intro input acc out rest h
    cases input with
    | nil =>
      simp only [ReadLineLoop, Except.ok.injEq, Prod.mk.injEq] at h
      left
      exact ⟨by rw [← h.1]; simp, h.2.symm⟩
    | cons ch rest0 =>
      have step : ∀ (input2 : List Char) (acc2 : List Token),
          input2.length ≤ (ch :: rest0).length →
          ReadLineLoop fuel input2 acc2 = .ok (out, rest) →
          (Token.Eof ∈ out ∧ rest = []) ∨ rest.length < (ch :: rest0).length := by
        intro input2 acc2 hle h2
        rcases ih input2 acc2 out rest h2 with h3 | h3
        · exact Or.inl h3
        · exact Or.inr (by omega)
      simp only [ReadLineLoop] at h
      split at h
      · exact step _ _ (SkipSpaces_length _) h
      · split at h
        · exact step _ _ (SkipComment_length _) h
        · split at h
          · simp only [Except.ok.injEq, Prod.mk.injEq] at h
            right
            rw [← h.2]; simp
          · split at h
            · split at h
              · next t rest2 hp =>
                have := ParseString_length _ _ _ _ hp
                exact step _ _ (by simp only [List.length_cons]; omega) h
              · simp at h
            · split at h
              · split at h
                · next t rest2 hp =>
                  have := ParseNumber_length _ _ _ _ hp
                  exact step _ _ (by simp only [List.length_cons]; omega) h
                · simp at h
              · split at h
                · have := ParseNameOrToken_length ch rest0
                  exact step _ _ (by simp only [List.length_cons]; omega) h
                · have := ParseComparisonOrChar_length ch rest0
                  exact step _ _ (by simp only [List.length_cons]; omega) h

theorem ReadLine_ne_fuel (input : List Char) : ReadLine input ≠ .error .fuel := by
  unfold ReadLine
  split
  · simp
  · next e hloop =>
    intro hc
    simp only [Except.error.injEq] at hc
    subst hc
    exact ReadLineLoop_ne_fuel _ _ [] (Nat.lt_succ_self _) hloop

theorem ReadLine_rest (input : List Char) (line : LineTokenizer) (rest : List Char)
    (h : ReadLine input = .ok (line, rest)) :
    (Token.Eof ∈ line.tokens_ ∧ rest = []) ∨ rest.length < input.length := by
  unfold ReadLine at h
  split at h
  · next tokens rest1 hloop =>
    simp only [Except.ok.injEq, Prod.mk.injEq] at h
    have hs := SkipSpaces_length input
    rcases ReadLineLoop_rest _ _ [] tokens rest1 hloop with h1 | h1
    · left
      rw [← h.1, ← h.2]
      exact h1
    · right
      rw [← h.2]
      omega
  · simp at h

/-- The loop at the head of `ParseTokens` ends: its bound is not exhausted when it
exceeds the length of the input. -/
theorem ReadNonEmptyLine_ne_fuel (fuel : Nat) :
    ∀ (input : List Char), input.length < fuel → ReadNonEmptyLine fuel input ≠ .error .fuel := by
  induction fuel with
  | zero => intro input h; omega
  | succ fuel ih =>
    intro input hlen
    simp only [ReadNonEmptyLine]
    split
    · next line rest hread =>
      split
      · next hempty =>
        apply ih
        rcases ReadLine_rest input line rest hread with ⟨heof, _⟩ | hlt
        · exfalso
          simp only [LineTokenizer.IsEmpty, Bool.or_eq_true, List.isEmpty_iff,
            List.all_eq_true, beq_iff_eq] at hempty
          rcases hempty with hnil | hall
          · rw [hnil] at heof; simp at heof
          · exact absurd (hall _ heof) (by decide)
        · omega
      · simp
    · next e hread =>
      intro hc
      simp only [Except.error.injEq] at hc
      subst hc
      exact ReadLine_ne_fuel input hread

/-- `ParseTokens` always ends: the iteration bounds of the embedding are never
exhausted. -/
theorem ParseTokens_ne_fuel (lx : Lexer) : lx.ParseTokens ≠ .error .fuel := by
  unfold Lexer.ParseTokens
  split
  · next e hread =>
    intro hc
    simp only [Except.error.injEq] at hc
    subst hc
    exact ReadNonEmptyLine_ne_fuel _ _ (Nat.lt_succ_self _) hread
  · split <;> simp

/-- `SkipSpaces` counts exactly the leading spaces of a text. -/
theorem SkipSpaces_leading (n : Nat) (c : Char) (rest : List Char) (hc : c ≠ SPACE_SIGN) :
    SkipSpaces (List.replicate n SPACE_SIGN ++ c :: rest) = (n, c :: rest) := by
  induction n with
  | zero => simp [SkipSpaces, hc]
  | succ n ih => simp [List.replicate_succ, SkipSpaces, ih]

/-- The line that the loop at the head of `ParseTokens` returns was read by `ReadLine`
from some text, and its indent is the number of leading spaces of that text. -/
theorem ReadNonEmptyLine_indent (fuel : Nat) :
    ∀ (input : List Char) (line : LineTokenizer) (rest : List Char),
      ReadNonEmptyLine fuel input = .ok (line, rest) →
      ∃ start : List Char, ReadLine start = .ok (line, rest) ∧
        line.indent_ = (SkipSpaces start).1 := by
  induction fuel with
  | zero => intro input line rest h; simp [ReadNonEmptyLine] at h
  | succ fuel ih =>
    intro input line rest h
    simp only [ReadNonEmptyLine] at h
    split at h
    · next line1 rest1 hread =>
      split at h
      · exact ih _ _ _ h
      · simp only [Except.ok.injEq, Prod.mk.injEq] at h
        obtain ⟨h1, h2⟩ := h
        subst h1; subst h2
        refine ⟨input, hread, ?_⟩
        unfold ReadLine at hread
        split at hread
        · simp only [Except.ok.injEq, Prod.mk.injEq] at hread
          rw [← hread.1]
        · simp at hread
    · simp at h

/-- C1: the token sequence of a source up to its first `Eof` should hold as many
`Indent` as `Dedent` tokens, also when the last line has no newline.  For the source
`"if x:\n  y"` the lexer gives `If Id{x} Char{:} Newline Indent Id{y} Newline Eof`: the
`Eof` comes in the buffer of the line `  y`, after one `Indent` and no `Dedent`. -/
theorem C1_indent_without_dedent_before_eof :
    tokensToEof "if x:\n  y" =
      some [Token.If, Token.Id "x", Token.Char ':', Token.Newline, Token.Indent,
            Token.Id "y", Token.Newline, Token.Eof] ∧
    (tokensToEof "if x:\n  y").map (fun ts => (ts.count Token.Indent, ts.count Token.Dedent))
      = some (1, 0) := by
  decide

/-- C2: when the next non-empty line has substantive tokens and an even indent `n` (the
number of its leading spaces), and the current indent (the indent of the previous such
line, 0 at the start) is `p`, then `ParseTokens` puts exactly `k` `Indent` tokens in
front of the tokens of the line if `n = p + 2k`, exactly `k` `Dedent` tokens if
`n = p - 2k`, and none if `n = p`; the tokens of the line start with a substantive token
and hold no `Indent` or `Dedent`, and the current indent becomes `n`.  The source of
scenario 1 gives the token sequence of scenario 1. -/
theorem C2_indent_dedent_per_line :
    (∀ (lx : Lexer) (line : LineTokenizer) (rest : List Char) (k : Nat),
      ReadNonEmptyLine (lx.input_.length + 1) lx.input_ = .ok (line, rest) →
      line.IsEofOnly = false →
      line.indent_ % 2 = 0 →
      (∃ start : List Char, ReadLine start = .ok (line, rest) ∧
        line.indent_ = (SkipSpaces start).1) ∧
      (∃ sub ending : List Token, sub ≠ [] ∧ (∀ t ∈ sub, t.isSubstantive = true) ∧
        (ending = [Token.Newline] ∨ ending = [Token.Newline, Token.Eof]) ∧
        line.tokens_ = sub ++ ending) ∧
      (0 < k → line.indent_ = lx.current_indent_ + 2 * k →
        lx.ParseTokens = .ok { lx with
          input_ := rest
          tokens_ := lx.tokens_ ++ (List.replicate k Token.Indent ++ line.tokens_)
          current_indent_ := line.indent_ }) ∧
      (0 < k → lx.current_indent_ = line.indent_ + 2 * k →
        lx.ParseTokens = .ok { lx with
          input_ := rest
          tokens_ := lx.tokens_ ++ (List.replicate k Token.Dedent ++ line.tokens_)
          current_indent_ := line.indent_ }) ∧
      (line.indent_ = lx.current_indent_ →
        lx.ParseTokens = .ok { lx with
          input_ := rest
          tokens_ := lx.tokens_ ++ line.tokens_
          current_indent_ := line.indent_ })) ∧
    tokensToEof "if x:\n  y = 1\n  if z:\n    w = 2\n  q = 3\n" =
      some [Token.If, Token.Id "x", Token.Char ':', Token.Newline,
            Token.Indent, Token.Id "y", Token.Char '=', Token.Number 1, Token.Newline,
            Token.If, Token.Id "z", Token.Char ':', Token.Newline,
            Token.Indent, Token.Id "w", Token.Char '=', Token.Number 2, Token.Newline,
            Token.Dedent, Token.Id "q", Token.Char '=', Token.Number 3, Token.Newline,
            Token.Dedent, Token.Eof] := by
  refine ⟨?_, by decide⟩
  intro lx line rest k h heof heven
  exact ⟨ReadNonEmptyLine_indent _ _ _ _ h, substantive_line_shape _ _ _ _ h heof,
    fun hk hn => ParseTokens_indent lx line rest k h heof heven hk hn,
    fun hk hn => ParseTokens_dedent lx line rest k h heof heven hk hn,
    fun hn => ParseTokens_same_indent lx line rest h heof heven hn⟩

/-- Witness of C2: with current indent 2, the line `      w = 2` (indent 6 = 2 + 2·2)
gets two `Indent` tokens in front of its tokens. -/
theorem C2_indent_dedent_per_line_witness :
    Lexer.ParseTokens ⟨"      w = 2\n".toList, [], 2, -1⟩ =
      .ok ⟨[], [Token.Indent, Token.Indent, Token.Id "w", Token.Char '=', Token.Number 2,
                Token.Newline], 6, -1⟩ :=
  (C2_indent_dedent_per_line.1 ⟨"      w = 2\n".toList, [], 2, -1⟩
    ⟨6, [Token.Id "w", Token.Char '=', Token.Number 2, Token.Newline]⟩ [] 2
    rfl (by decide) (by decide)).2.2.1 (by decide) (by decide)

/-- C3: once `NextToken` has returned `Eof` every later call should return `Eof`.  For
the source `"if x:\n  y"` the constructor and nine calls give
`If Id{x} Char{:} Newline Indent Id{y} Newline Eof Dedent Eof`: the call after the first
`Eof` returns a `Dedent`. -/
theorem C3_dedent_after_eof :
    tokenStream 9 "if x:\n  y" =
      [.ok Token.If, .ok (Token.Id "x"), .ok (Token.Char ':'), .ok Token.Newline,
       .ok Token.Indent, .ok (Token.Id "y"), .ok Token.Newline, .ok Token.Eof,
       .ok Token.Dedent, .ok Token.Eof] := by
  rfl

theorem alpha_not_digit (c : Char) (h : c.isAlpha = true) : c.isDigit = false := by
  simp only [Char.isAlpha, Char.isUpper, Char.isLower, Char.isDigit, Bool.or_eq_true,
    Bool.and_eq_true, decide_eq_true_eq, Bool.and_eq_false_imp] at *
  intro h1
  simp only [UInt32.le_def, BitVec.le_def, decide_eq_false_iff_not] at *
  have e1 : (UInt32.toBitVec 65).toNat = 65 := rfl
  have e2 : (UInt32.toBitVec 90).toNat = 90 := rfl
  have e3 : (UInt32.toBitVec 97).toNat = 97 := rfl
  have e4 : (UInt32.toBitVec 122).toNat = 122 := rfl
  have e5 : (UInt32.toBitVec 57).toNat = 57 := rfl
  rw [e1, e2, e3, e4] at h
  rw [e5]
  omega

theorem takeWhileRest_eq (p : Char → Bool) (input : List Char) :
    takeWhileRest p input = (input.takeWhile p, input.dropWhile p) := by
  induction input with
  | nil => rfl
  | cons c rest ih =>
    simp only [takeWhileRest, List.takeWhile, List.dropWhile]
    cases hp : p c
    · simp
    · simp [ih]

/-- A word that starts with a letter or an underscore is none of the operators of
`lexemes`, so `lexemes` and the reserved words agree on it. -/
theorem lexemes_lookup_word (first : Char) (more : List Char)
    (h : first.isAlpha = true ∨ first = '_') :
    lexemes.lookup (String.mk (first :: more)) = keywords.lookup (String.mk (first :: more)) := by
  have hne : ∀ op : String, op.data.head? = some '=' ∨ op.data.head? = some '!' ∨
      op.data.head? = some '<' ∨ op.data.head? = some '>' →
      (String.mk (first :: more) == op) = false := by
    intro op hop
    rw [beq_eq_false_iff_ne]
    intro hc
    rw [← hc] at hop
    simp only [List.head?_cons, Option.some.injEq] at hop
    rcases h with h | h
    · rcases hop with hop | hop | hop | hop <;> (rw [hop] at h; exact absurd h (by decide))
    · rcases hop with hop | hop | hop | hop <;> (rw [hop] at h; exact absurd h (by decide))
  have h1 := hne "==" (by decide)
  have h2 := hne "!=" (by decide)
  have h3 := hne "<=" (by decide)
  have h4 := hne ">=" (by decide)
  simp only [lexemes, keywords, List.lookup, h1, h2, h3, h4]

theorem ParseNameOrToken_word (first : Char) (rest : List Char)
    (h : first.isAlpha = true ∨ first = '_') :
    ParseNameOrToken first rest =
      (wordToken (first :: rest.takeWhile isWordChar), rest.dropWhile isWordChar) := by
  have htw : takeWhileRest (fun c => c.isAlphanum || decide (c = '_')) rest =
      (rest.takeWhile isWordChar, rest.dropWhile isWordChar) := takeWhileRest_eq _ rest
  unfold ParseNameOrToken wordToken
  simp only [htw]
  rw [lexemes_lookup_word first _ h]
  split <;> rfl

theorem ReadLineLoop_word (fuel : Nat) (first : Char) (rest : List Char) (acc : List Token)
    (h : first.isAlpha = true ∨ first = '_') :
    ReadLineLoop (fuel + 1) (first :: rest) acc =
      ReadLineLoop fuel (rest.dropWhile isWordChar)
        (acc ++ [wordToken (first :: rest.takeWhile isWordChar)]) := by
  have hsp : ¬ first = SPACE_SIGN := by
    rcases h with h | h
    · intro hc; rw [hc] at h; exact absurd h (by decide)
    · rw [h]; decide
  have hcm : ¬ first = COMMENT_SIGN := by
    rcases h with h | h
    · intro hc; rw [hc] at h; exact absurd h (by decide)
    · rw [h]; decide
  have hnl : ¬ first = NEW_LINE_SIGN := by
    rcases h with h | h
    · intro hc; rw [hc] at h; exact absurd h (by decide)
    · rw [h]; decide
  have hq : ¬ (first = '"' ∨ first = '\'') := by
    rcases h with h | h
    · rintro (hc | hc) <;> (rw [hc] at h; exact absurd h (by decide))
    · rw [h]; decide
  have hd : first.isDigit = false := by
    rcases h with h | h
    · exact alpha_not_digit first h
    · rw [h]; decide
  have hw : (first.isAlphanum || decide (first = '_')) = true := by
    rcases h with h | h
    · simp [Char.isAlphanum, h]
    · simp [h]
  rw [ReadLineLoop]
  simp only [hsp, hcm, hnl, hq, hd, hw, if_false, if_true, ParseNameOrToken_word first rest h]
  simp

theorem dropWhile_head_not (p : Char → Bool) (input : List Char) (c : Char)
    (h : (input.dropWhile p).head? = some c) : p c = false := by
  induction input with
  | nil => simp at h
  | cons d rest ih =>
    simp only [List.dropWhile] at h
    cases hp : p d
    · rw [hp] at h
      simp only [List.head?_cons, Option.some.injEq] at h
      rw [← h]; exact hp
    · rw [hp] at h
      exact ih h

theorem lookup_none_of_not_mem {β : Type} (k : String) (l : List (String × β))
    (h : k ∉ l.map Prod.fst) : l.lookup k = none := by
  induction l with
  | nil => rfl
  | cons p rest ih =>
    obtain ⟨k1, v1⟩ := p
    simp only [List.map_cons, List.mem_cons, not_or] at h
    simp only [List.lookup]
    have : (k == k1) = false := by
      rw [beq_eq_false_iff_ne]; exact h.1
    rw [this]
    exact ih h.2

/-- C17: a word that starts with an ASCII letter or an underscore is read greedily: it is
the first character followed by the longest run of characters of `[A-Za-z0-9_]`, the
character after it, if any, is not one of those, and the token appended to the line is
the keyword token when the word is exactly one of `class`, `return`, `if`, `else`,
`def`, `print`, `and`, `or`, `not`, `None`, `True`, `False`, and `Id{word}` otherwise.
So `classes`, `if_`, `Class` and `none` are identifiers. -/
theorem C17_keyword_or_identifier :
    (∀ (fuel : Nat) (first : Char) (rest : List Char) (acc : List Token),
      first.isAlpha = true ∨ first = '_' →
      ParseNameOrToken first rest =
        (wordToken (first :: rest.takeWhile isWordChar), rest.dropWhile isWordChar) ∧
      (∀ c, (rest.dropWhile isWordChar).head? = some c → isWordChar c = false) ∧
      ReadLineLoop (fuel + 1) (first :: rest) acc =
        ReadLineLoop fuel (rest.dropWhile isWordChar)
          (acc ++ [wordToken (first :: rest.takeWhile isWordChar)])) ∧
    keywords.map (fun p => wordToken p.1.data) =
      [Token.Class, Token.Return, Token.If, Token.Else, Token.Def, Token.Print, Token.And,
       Token.Or, Token.Not, Token.None, Token.True, Token.False] ∧
    (∀ w : List Char,
      String.mk w ∉ ["class", "return", "if", "else", "def", "print", "and", "or", "not",
        "None", "True", "False"] →
      wordToken w = Token.Id (String.mk w)) ∧
    tokensToEof "classes if_ class Class if None none _x1" =
      some [Token.Id "classes", Token.Id "if_", Token.Class, Token.Id "Class", Token.If,
            Token.None, Token.Id "none", Token.Id "_x1", Token.Newline, Token.Eof] := by
  refine ⟨?_, by decide, ?_, by decide⟩
  · intro fuel first rest acc h
    exact ⟨ParseNameOrToken_word first rest h, dropWhile_head_not _ _,
      ReadLineLoop_word fuel first rest acc h⟩
  · intro w hw
    unfold wordToken
    rw [lookup_none_of_not_mem (String.mk w) keywords (by simpa [keywords] using hw)]

/-- Witness of C17: the word `if_` followed by a space is read as `Id{if_}` and the space
is left in the input. -/
theorem C17_keyword_or_identifier_witness :
    ParseNameOrToken 'i' ['f', '_', ' ', 'x'] = (Token.Id "if_", [' ', 'x']) :=
  (C17_keyword_or_identifier.1 0 'i' ['f', '_', ' ', 'x'] [] (Or.inl (by decide))).1

theorem ParseStringLoop_close (q : Char) (tail acc : List Char) :
    ParseStringLoop q (q :: tail) acc = .ok (acc, tail) := by
  rw [ParseStringLoop.eq_def]
  simp

theorem ParseStringLoop_plain (q c : Char) (tail acc : List Char)
    (hq : c ≠ q) (hb : c ≠ '\\') (hn : c ≠ '\n') (hr : c ≠ '\r') :
    ParseStringLoop q (c :: tail) acc = ParseStringLoop q tail (acc ++ [c]) := by
  rw [ParseStringLoop.eq_def]
  simp [hq, hb, hn, hr]

theorem ParseStringLoop_escape (q x d : Char) (tail acc : List Char)
    (hq : q ≠ '\\') (hx : (x, d) ∈ escapeCodes) :
    ParseStringLoop q ('\\' :: x :: tail) acc = ParseStringLoop q tail (acc ++ [d]) := by
  rw [ParseStringLoop.eq_def]
  have hq2 : ¬ '\\' = q := fun h => hq h.symm
  simp only [escapeCodes, List.mem_cons, Prod.mk.injEq, List.mem_singleton, List.not_mem_nil,
    or_false] at hx
  rcases hx with ⟨h1, h2⟩ | ⟨h1, h2⟩ | ⟨h1, h2⟩ | ⟨h1, h2⟩ | ⟨h1, h2⟩ | ⟨h1, h2⟩ <;>
    (subst h1; subst h2; simp [hq2])

theorem ParseStringLoop_bad_escape (q x : Char) (tail acc : List Char)
    (hq : q ≠ '\\') (hx : ∀ d, (x, d) ∉ escapeCodes) :
    ParseStringLoop q ('\\' :: x :: tail) acc =
      .error (.LexerError ("Unrecognized escape sequence \\" ++ String.mk [x])) := by
  rw [ParseStringLoop.eq_def]
  have hq2 : ¬ '\\' = q := fun h => hq h.symm
  have h1 : ¬ x = 'n' := fun h => hx '\n' (by simp [escapeCodes, h])
  have h2 : ¬ x = 't' := fun h => hx '\t' (by simp [escapeCodes, h])
  have h3 : ¬ x = 'r' := fun h => hx '\r' (by simp [escapeCodes, h])
  have h4 : ¬ x = '"' := fun h => hx '"' (by simp [escapeCodes, h])
  have h5 : ¬ x = '\'' := fun h => hx '\'' (by simp [escapeCodes, h])
  have h6 : ¬ x = '\\' := fun h => hx '\\' (by simp [escapeCodes, h])
  simp [hq2, h1, h2, h3, h4, h5, h6]

theorem ParseStringLoop_backslash_end (q : Char) (acc : List Char) (hq : q ≠ '\\') :
    ParseStringLoop q ['\\'] acc = .error (.LexerError "String parsing error") := by
  rw [ParseStringLoop.eq_def]
  have hq2 : ¬ '\\' = q := fun h => hq h.symm
  simp [hq2]

theorem ParseStringLoop_line_end (q c : Char) (tail acc : List Char)
    (hq : q ≠ '\n' ∧ q ≠ '\r') (hc : c = '\n' ∨ c = '\r') :
    ParseStringLoop q (c :: tail) acc = .error (.LexerError "Unexpected end of line") := by
  rw [ParseStringLoop.eq_def]
  rcases hc with hc | hc
  · subst hc
    have : ¬ '\n' = q := fun h => hq.1 h.symm
    simp [this]
  · subst hc
    have : ¬ '\r' = q := fun h => hq.2 h.symm
    simp [this]

/-- Scanning a well-formed body appends its value to the text collected so far and
goes on with what follows the body. -/
theorem ParseStringLoop_body (q : Char) (hq : q ≠ '\\') (text value : List Char)
    (h : LiteralBody q text value) :
    ∀ (tail acc : List Char),
      ParseStringLoop q (text ++ tail) acc = ParseStringLoop q tail (acc ++ value) := by
  induction h with
  | done => intro tail acc; simp
  | plain c text value h1 h2 h3 h4 _ ih =>
    intro tail acc
    rw [List.cons_append, ParseStringLoop_plain q c _ acc h1 h2 h3 h4, ih]
    simp
  | escape x d text value hx _ ih =>
    intro tail acc
    rw [List.cons_append, List.cons_append, ParseStringLoop_escape q x d _ acc hq hx, ih]
    simp

theorem esc_body (q : Char) (hq : q = '"' ∨ q = '\'') (s : List Char) :
    LiteralBody q (esc s) s := by
  induction s with
  | nil => exact LiteralBody.done
  | cons c s ih =>
    simp only [esc, escChar]
    split
    · next h => subst h; exact LiteralBody.escape 'n' '\n' _ _ (by simp [escapeCodes]) ih
    · split
      · next h => subst h; exact LiteralBody.escape 't' '\t' _ _ (by simp [escapeCodes]) ih
      · split
        · next h => subst h; exact LiteralBody.escape 'r' '\r' _ _ (by simp [escapeCodes]) ih
        · split
          · next h => subst h; exact LiteralBody.escape '"' '"' _ _ (by simp [escapeCodes]) ih
          · split
            · next h =>
              subst h; exact LiteralBody.escape '\'' '\'' _ _ (by simp [escapeCodes]) ih
            · split
              · next h =>
                subst h; exact LiteralBody.escape '\\' '\\' _ _ (by simp [escapeCodes]) ih
              · next h1 h2 h3 h4 h5 h6 =>
                refine LiteralBody.plain c _ _ ?_ h6 h1 h3 ih
                rcases hq with hq | hq <;> (rw [hq]; assumption)

theorem quote_ne (q : Char) (hq : q = '"' ∨ q = '\'') :
    q ≠ '\\' ∧ q ≠ '\n' ∧ q ≠ '\r' ∧ q ≠ SPACE_SIGN ∧ q ≠ COMMENT_SIGN := by
  rcases hq with hq | hq <;> (rw [hq]; decide)

theorem ParseString_well_formed (q : Char) (hq : q = '"' ∨ q = '\'')
    (body value rest : List Char) (h : LiteralBody q body value) :
    ParseString q (body ++ q :: rest) = .ok (Token.String (String.mk value), rest) := by
  unfold ParseString
  rw [ParseStringLoop_body q (quote_ne q hq).1 body value h, ParseStringLoop_close]
  simp

theorem ParseString_unterminated (q : Char) (hq : q = '"' ∨ q = '\'') (text : List Char)
    (h : Unterminated q text) :
    ParseString q text = .error (.LexerError "String parsing error") := by
  obtain ⟨body, value, hb, ht | ht⟩ := h
  · rw [ht]
    unfold ParseString
    have := ParseStringLoop_body q (quote_ne q hq).1 body value hb [] []
    rw [List.append_nil] at this
    rw [this]
    simp [ParseStringLoop]
  · rw [ht]
    unfold ParseString
    rw [ParseStringLoop_body q (quote_ne q hq).1 body value hb,
      ParseStringLoop_backslash_end q _ (quote_ne q hq).1]

theorem ParseString_bad_escape (q : Char) (hq : q = '"' ∨ q = '\'') (text : List Char)
    (x : Char) (h : BadEscape q text x) :
    ParseString q text =
      .error (.LexerError ("Unrecognized escape sequence \\" ++ String.mk [x])) := by
  obtain ⟨body, value, rest, hb, ht, hx⟩ := h
  rw [ht]
  unfold ParseString
  rw [ParseStringLoop_body q (quote_ne q hq).1 body value hb,
    ParseStringLoop_bad_escape q x rest _ (quote_ne q hq).1 hx]

theorem ParseString_raw_line_end (q : Char) (hq : q = '"' ∨ q = '\'') (text : List Char)
    (h : RawLineEnd q text) :
    ParseString q text = .error (.LexerError "Unexpected end of line") := by
  obtain ⟨body, value, c, rest, hb, ht, hc⟩ := h
  rw [ht]
  unfold ParseString
  rw [ParseStringLoop_body q (quote_ne q hq).1 body value hb,
    ParseStringLoop_line_end q c rest _ ⟨(quote_ne q hq).2.1, (quote_ne q hq).2.2.1⟩ hc]

/-- Every text after an opening quote is a well-formed body closed by the quote, or has
one of the three defects. -/
theorem literal_classification (q : Char) :
    ∀ (n : Nat) (text : List Char), text.length ≤ n →
      (∃ body value rest, LiteralBody q body value ∧ text = body ++ q :: rest) ∨
      Unterminated q text ∨ (∃ x, BadEscape q text x) ∨ RawLineEnd q text := by
  intro n
  induction n with
  | zero =>
    intro text hlen
    have : text = [] := List.length_eq_zero.1 (Nat.le_zero.1 hlen)
    subst this
    exact Or.inr (Or.inl ⟨[], [], LiteralBody.done, Or.inl rfl⟩)
  | succ n ih =>
    intro text hlen
    cases text with
    | nil => exact Or.inr (Or.inl ⟨[], [], LiteralBody.done, Or.inl rfl⟩)
    | cons c t =>
      simp only [List.length_cons] at hlen
      by_cases hq : c = q
      · subst hq
        exact Or.inl ⟨[], [], t, LiteralBody.done, rfl⟩
      · by_cases hb : c = '\\'
        · subst hb
          cases t with
          | nil => exact Or.inr (Or.inl ⟨[], [], LiteralBody.done, Or.inr rfl⟩)
          | cons x t2 =>
            simp only [List.length_cons] at hlen
            by_cases hx : ∃ d, (x, d) ∈ escapeCodes
            · obtain ⟨d, hd⟩ := hx
              rcases ih t2 (by omega) with ⟨body, value, rest, hbody, ht⟩ |
                  ⟨body, value, hbody, ht⟩ | ⟨y, body, value, rest, hbody, ht, hy⟩ |
                  ⟨body, value, e, rest, hbody, ht, he⟩
              · exact Or.inl ⟨'\\' :: x :: body, d :: value, rest,
                  LiteralBody.escape x d _ _ hd hbody, by rw [ht]; rfl⟩
              · refine Or.inr (Or.inl ⟨'\\' :: x :: body, d :: value,
                  LiteralBody.escape x d _ _ hd hbody, ?_⟩)
                rcases ht with ht | ht
                · exact Or.inl (by rw [ht])
                · exact Or.inr (by rw [ht]; rfl)
              · exact Or.inr (Or.inr (Or.inl ⟨y, '\\' :: x :: body, d :: value, rest,
                  LiteralBody.escape x d _ _ hd hbody, by rw [ht]; rfl, hy⟩))
              · exact Or.inr (Or.inr (Or.inr ⟨'\\' :: x :: body, d :: value, e, rest,
                  LiteralBody.escape x d _ _ hd hbody, by rw [ht]; rfl, he⟩))
            · exact Or.inr (Or.inr (Or.inl ⟨x, [], [], t2, LiteralBody.done, rfl,
                fun d hd => hx ⟨d, hd⟩⟩))
        · by_cases hn : c = '\n' ∨ c = '\r'
          · exact Or.inr (Or.inr (Or.inr ⟨[], [], c, t, LiteralBody.done, rfl, hn⟩))
          · have hn1 : c ≠ '\n' := fun h => hn (Or.inl h)
            have hn2 : c ≠ '\r' := fun h => hn (Or.inr h)
            rcases ih t (by omega) with ⟨body, value, rest, hbody, ht⟩ |
                ⟨body, value, hbody, ht⟩ | ⟨y, body, value, rest, hbody, ht, hy⟩ |
                ⟨body, value, e, rest, hbody, ht, he⟩
            · exact Or.inl ⟨c :: body, c :: value, rest,
                LiteralBody.plain c _ _ hq hb hn1 hn2 hbody, by rw [ht]; rfl⟩
            · refine Or.inr (Or.inl ⟨c :: body, c :: value,
                LiteralBody.plain c _ _ hq hb hn1 hn2 hbody, ?_⟩)
              rcases ht with ht | ht
              · exact Or.inl (by rw [ht])
              · exact Or.inr (by rw [ht]; rfl)
            · exact Or.inr (Or.inr (Or.inl ⟨y, c :: body, c :: value, rest,
                LiteralBody.plain c _ _ hq hb hn1 hn2 hbody, by rw [ht]; rfl, hy⟩))
            · exact Or.inr (Or.inr (Or.inr ⟨c :: body, c :: value, e, rest,
                LiteralBody.plain c _ _ hq hb hn1 hn2 hbody, by rw [ht]; rfl, he⟩))

/-- Counterexample to C16 as stated: the literal `"a<CR>b"` is closed by an unescaped
quote, holds no backslash and no newline, and `ParseString` raises `LexerError` on it:
a raw carriage return is rejected like a raw newline. -/
theorem C16_counterexample_carriage_return :
    ParseString '"' ['a', '\r', 'b', '"'] = .error (.LexerError "Unexpected end of line") ∧
    '"' ∉ ['a', '\r', 'b'] ∧ '\\' ∉ ['a', '\r', 'b', '"'] ∧ '\n' ∉ ['a', '\r', 'b', '"'] := by
  refine ⟨rfl, by decide, by decide, by decide⟩

/-- C16 (amended): for a quote `q` and the text that follows the opening quote:
`ParseString` raises `LexerError` when the input ends before an unescaped `q`, when a
backslash is followed by a character other than `n t r " ' \`, and when a raw newline or
a raw carriage return comes before the closing `q`; on a well-formed body closed by `q`
it returns the String token of the decoded body and the rest of the input.  Every text
falls in one of these cases, so a literal with none of the three defects never raises. -/
theorem C16_malformed_literal_rejected (q : Char) (hq : q = '"' ∨ q = '\'')
    (text : List Char) :
    (Unterminated q text →
      ParseString q text = .error (.LexerError "String parsing error")) ∧
    (∀ x, BadEscape q text x →
      ParseString q text =
        .error (.LexerError ("Unrecognized escape sequence \\" ++ String.mk [x]))) ∧
    (RawLineEnd q text →
      ParseString q text = .error (.LexerError "Unexpected end of line")) ∧
    (∀ body value rest, LiteralBody q body value → text = body ++ q :: rest →
      ParseString q text = .ok (Token.String (String.mk value), rest)) ∧
    (¬ Unterminated q text → (¬ ∃ x, BadEscape q text x) → ¬ RawLineEnd q text →
      ∃ value rest, ParseString q text = .ok (Token.String (String.mk value), rest)) := by
  refine ⟨ParseString_unterminated q hq text, ParseString_bad_escape q hq text,
    ParseString_raw_line_end q hq text, ?_, ?_⟩
  · intro body value rest hb ht
    rw [ht]
    exact ParseString_well_formed q hq body value rest hb
  · intro h1 h2 h3
    rcases literal_classification q text.length text (le_refl _) with
      ⟨body, value, rest, hb, ht⟩ | h | h | h
    · exact ⟨value, rest, by rw [ht]; exact ParseString_well_formed q hq body value rest hb⟩
    · exact absurd h h1
    · exact absurd h h2
    · exact absurd h h3

/-- Witness of C16: the text `ab` after an opening double quote ends before a closing
quote. -/
theorem C16_malformed_literal_rejected_witness :
    ParseString '"' ['a', 'b'] = .error (.LexerError "String parsing error") :=
  (C16_malformed_literal_rejected '"' (Or.inl rfl) ['a', 'b']).1
    ⟨['a', 'b'], ['a', 'b'],
      LiteralBody.plain 'a' _ _ (by decide) (by decide) (by decide) (by decide)
        (LiteralBody.plain 'b' _ _ (by decide) (by decide) (by decide) (by decide)
          LiteralBody.done),
      Or.inl rfl⟩

theorem ReadLineLoop_quote (fuel : Nat) (q : Char) (hq : q = '"' ∨ q = '\'')
    (rest : List Char) (acc : List Token) :
    ReadLineLoop (fuel + 1) (q :: rest) acc =
      match ParseString q rest with
      | .ok (t, rest2) => ReadLineLoop fuel rest2 (acc ++ [t])
      | .error e => .error e := by
  have h := quote_ne q hq
  have hnl : ¬ q = NEW_LINE_SIGN := h.2.1
  rw [ReadLineLoop]
  simp only [h.2.2.2.1, h.2.2.2.2, hnl, hq, if_false, if_true]

theorem lex_single_literal (q : Char) (hq : q = '"' ∨ q = '\'') (s : List Char) :
    tokensToEof (String.mk (q :: esc s ++ [q])) =
      some [Token.String (String.mk s), Token.Newline, Token.Eof] := by
  have hsp : SkipSpaces (q :: (esc s ++ [q])) = (0, q :: (esc s ++ [q])) := by
    simp [SkipSpaces, (quote_ne q hq).2.2.2.1]
  have hps : ParseString q (esc s ++ [q]) = .ok (Token.String (String.mk s), []) :=
    ParseString_well_formed q hq (esc s) s [] (esc_body q hq s)
  have hline : ReadLine (q :: (esc s ++ [q])) =
      .ok (⟨0, [Token.String (String.mk s), Token.Newline, Token.Eof]⟩, []) := by
    unfold ReadLine
    rw [hsp]
    simp only [List.length_cons, List.length_append, List.length_singleton]
    rw [ReadLineLoop_quote _ q hq, hps]
    simp only [List.nil_append]
    rfl
  have hne : ReadNonEmptyLine ((q :: (esc s ++ [q])).length + 1) (q :: (esc s ++ [q])) =
      .ok (⟨0, [Token.String (String.mk s), Token.Newline, Token.Eof]⟩, []) := by
    rw [ReadNonEmptyLine, hline]
    rfl
  have hnew : Lexer.new (q :: (esc s ++ [q])) =
      .ok (Token.String (String.mk s),
        ⟨[], [Token.String (String.mk s), Token.Newline, Token.Eof], 0, 0⟩) := by
    simp only [Lexer.new, Lexer.NextToken, Lexer.ParseTokens, hne]
    rfl
  unfold tokensToEof
  simp only [String.toList, List.cons_append, hnew]
  have hlen : 2 * String.length ⟨q :: (esc s ++ [q])⟩ + 2 =
      (2 * String.length ⟨q :: (esc s ++ [q])⟩) + 1 + 1 := rfl
  rw [hlen]
  rfl

/-- C15: string literal decoding inverts escaping.  For every string `s` and each quote
`q`, `ParseString` on `esc(s)` followed by `q` returns the token `String{s}` and the
rest of the input, and the lexer turns the text `q esc(s) q` into the token sequence
`String{s} Newline Eof`.  The source of scenario 2 gives the String token with the
6-character payload `a`, newline, `b`, tab, `'`, `c`. -/
theorem C15_decoding_inverts_escaping :
    (∀ (q : Char) (s rest : List Char), q = '"' ∨ q = '\'' →
      ParseString q (esc s ++ q :: rest) = .ok (Token.String (String.mk s), rest)) ∧
    (∀ (q : Char) (s : List Char), q = '"' ∨ q = '\'' →
      tokensToEof (String.mk (q :: esc s ++ [q])) =
        some [Token.String (String.mk s), Token.Newline, Token.Eof]) ∧
    tokensToEof "s = 'a\\nb\\t\\'c'\n" =
      some [Token.Id "s", Token.Char '=', Token.String (String.mk ['a', '\n', 'b', '\t', '\'', 'c']),
            Token.Newline, Token.Eof] :=
  ⟨fun q s rest hq => ParseString_well_formed q hq (esc s) s rest (esc_body q hq s),
    fun q s hq => lex_single_literal q hq s, by decide⟩

/-- Witness of C15: the string `a"b\` in single quotes. -/
theorem C15_decoding_inverts_escaping_witness :
    tokensToEof (String.mk ('\'' :: esc ['a', '"', 'b', '\\'] ++ ['\''])) =
      some [Token.String (String.mk ['a', '"', 'b', '\\']), Token.Newline, Token.Eof] :=
  C15_decoding_inverts_escaping.2.1 '\'' ['a', '"', 'b', '\\'] (Or.inr rfl)

/-- `ParseTokens` in one step: the buffer is extended by the indent tokens and the tokens
of the line, when the line read has an even indent. -/
theorem ParseTokens_eq (lx : Lexer) (line : LineTokenizer) (rest : List Char)
    (h : ReadNonEmptyLine (lx.input_.length + 1) lx.input_ = .ok (line, rest))
    (heven : line.indent_ % 2 = 0) :
    lx.ParseTokens = .ok
      { input_ := rest
        tokens_ := lx.tokens_ ++ (indentTokens lx.current_indent_ line ++ line.tokens_)
        current_indent_ := nextIndent lx.current_indent_ line
        index_current_token_ := lx.index_current_token_ } := by
  simp only [Lexer.ParseTokens, h, heven, indentTokens, nextIndent]
  cases heof : line.IsEofOnly
  · rcases Nat.lt_trichotomy line.indent_ lx.current_indent_ with hlt | heq | hgt
    · have h1 : ¬ line.indent_ > lx.current_indent_ := by omega
      simp [h1, hlt]
    · have h1 : ¬ line.indent_ > lx.current_indent_ := by omega
      have h2 : ¬ line.indent_ < lx.current_indent_ := by omega
      simp [h1, h2, heq]
    · have h2 : ¬ line.indent_ < lx.current_indent_ := by omega
      simp [hgt, h2]
  · by_cases hpos : lx.current_indent_ > 0
    · simp [hpos]
    · have : lx.current_indent_ = 0 := by omega
      simp [this]

theorem ParseTokens_odd (lx : Lexer) (line : LineTokenizer) (rest : List Char)
    (h : ReadNonEmptyLine (lx.input_.length + 1) lx.input_ = .ok (line, rest))
    (hodd : line.indent_ % 2 = 1) :
    lx.ParseTokens = .error (.LexerError "Parsing error: indentation") := by
  simp [Lexer.ParseTokens, h, hodd]

theorem ParseTokens_error (lx : Lexer) (e : LexException)
    (h : ReadNonEmptyLine (lx.input_.length + 1) lx.input_ = .error e) :
    lx.ParseTokens = .error e := by
  simp [Lexer.ParseTokens, h]

theorem SkipSpaces_append (pre T : List Char)
    (hT : T = [] ∨ ∃ c X, T = c :: X ∧ c ≠ SPACE_SIGN) :
    SkipSpaces (pre ++ T) = ((SkipSpaces pre).1, (SkipSpaces pre).2 ++ T) := by
  induction pre with
  | nil =>
    rcases hT with hT | ⟨c, X, hT, hc⟩
    · subst hT; simp [SkipSpaces]
    · subst hT; simp [SkipSpaces, hc]
  | cons d rest ih =>
    simp only [List.cons_append, SkipSpaces]
    by_cases hd : d = SPACE_SIGN
    · simp [hd, ih]
    · simp [hd]

theorem takeWhileRest_append (p : Char → Bool) (pre T : List Char)
    (hT : T = [] ∨ ∃ c X, T = c :: X ∧ p c = false) :
    takeWhileRest p (pre ++ T) = ((takeWhileRest p pre).1, (takeWhileRest p pre).2 ++ T) := by
  induction pre with
  | nil =>
    rcases hT with hT | ⟨c, X, hT, hc⟩
    · subst hT; simp [takeWhileRest]
    · subst hT; simp [takeWhileRest, hc]
  | cons d rest ih =>
    simp only [List.cons_append, takeWhileRest]
    cases hd : p d
    · simp
    · simp [ih]

theorem SkipComment_append (pre T : List Char) (hpre : NEW_LINE_SIGN ∉ pre)
    (hT : T = [] ∨ ∃ X, T = NEW_LINE_SIGN :: X) :
    SkipComment (pre ++ T) = T := by
  induction pre with
  | nil =>
    rcases hT with hT | ⟨X, hT⟩
    · subst hT; rfl
    · subst hT; simp [SkipComment]
  | cons d rest ih =>
    simp only [List.mem_cons, not_or] at hpre
    have hd : ¬ d = NEW_LINE_SIGN := fun h => hpre.1 h.symm
    simp only [List.cons_append, SkipComment, hd, if_false]
    exact ih hpre.2

theorem SkipSpaces_suffix (input : List Char) : (SkipSpaces input).2 <:+ input := by
  induction input with
  | nil => simp [SkipSpaces]
  | cons c rest ih =>
    simp only [SkipSpaces]
    split
    · exact List.IsSuffix.trans ih (List.suffix_cons _ _)
    · exact List.suffix_refl _

theorem takeWhileRest_suffix (p : Char → Bool) (input : List Char) :
    (takeWhileRest p input).2 <:+ input := by
  induction input with
  | nil => simp [takeWhileRest]
  | cons c rest ih =>
    simp only [takeWhileRest]
    split
    · exact List.IsSuffix.trans ih (List.suffix_cons _ _)
    · exact List.suffix_refl _

theorem suffix_no_newline (a b : List Char) (h : a <:+ b) (hb : NEW_LINE_SIGN ∉ b) :
    NEW_LINE_SIGN ∉ a ∧ a.length ≤ b.length :=
  ⟨fun hc => hb (h.subset hc), h.length_le⟩

/-- No operator of `lexemes` ends in a newline or in the byte 255. -/
theorem lexemes_pair_none (a b : Char) (hb : b = NEW_LINE_SIGN ∨ b = Char.ofNat 255) :
    lexemes.lookup (String.mk [a, b]) = none := by
  apply lookup_none_of_not_mem
  intro hmem
  have hkeys : ∀ k ∈ lexemes.map Prod.fst, k.data.length = 2 →
      k.data.get? 1 ≠ some NEW_LINE_SIGN ∧ k.data.get? 1 ≠ some (Char.ofNat 255) := by decide
  have := hkeys _ hmem rfl
  simp only [List.get?_cons_succ, List.get?_cons_zero, ne_eq, Option.some.injEq] at this
  rcases hb with hb | hb
  · exact this.1 hb
  · exact this.2 hb

theorem SameLineEnd_cases (T1 T2 : List Char) (h : SameLineEnd T1 T2) :
    (T1 = [] ∨ ∃ X, T1 = NEW_LINE_SIGN :: X) ∧ (T2 = [] ∨ ∃ X, T2 = NEW_LINE_SIGN :: X) := by
  rcases h with ⟨h1, h2⟩ | ⟨X, Y, h1, h2⟩
  · exact ⟨Or.inl h1, Or.inl h2⟩
  · exact ⟨Or.inr ⟨X, h1⟩, Or.inr ⟨Y, h2⟩⟩

theorem lineEnd_not (p : Char → Bool) (hp : p NEW_LINE_SIGN = false) (T : List Char)
    (h : T = [] ∨ ∃ X, T = NEW_LINE_SIGN :: X) :
    T = [] ∨ ∃ c X, T = c :: X ∧ p c = false := by
  rcases h with h | ⟨X, h⟩
  · exact Or.inl h
  · exact Or.inr ⟨NEW_LINE_SIGN, X, h, hp⟩

theorem ParseString_local (q : Char) (hq : q = '"' ∨ q = '\'') (pre T1 T2 : List Char)
    (hT : SameLineEnd T1 T2) :
    (∃ e, ParseString q (pre ++ T1) = .error e ∧ ParseString q (pre ++ T2) = .error e) ∨
    (∃ t pre2, pre2 <:+ pre ∧ pre2.length < pre.length ∧
      ParseString q (pre ++ T1) = .ok (t, pre2 ++ T1) ∧
      ParseString q (pre ++ T2) = .ok (t, pre2 ++ T2)) := by
  rcases literal_classification q pre.length pre (le_refl _) with
    ⟨body, value, rest, hb, ht⟩ | ⟨body, value, hb, ht⟩ | ⟨x, body, value, rest, hb, ht, hx⟩ |
    ⟨body, value, c, rest, hb, ht, hc⟩
  · right
    refine ⟨Token.String (String.mk value), rest, ?_, ?_, ?_, ?_⟩
    · rw [ht]
      exact ⟨body ++ [q], by simp⟩
    · rw [ht]; simp; omega
    · rw [ht]
      have := ParseString_well_formed q hq body value (rest ++ T1) hb
      simpa using this
    · rw [ht]
      have := ParseString_well_formed q hq body value (rest ++ T2) hb
      simpa using this
  · left
    rcases hT with ⟨h1, h2⟩ | ⟨X, Y, h1, h2⟩
    · subst h1; subst h2
      simp only [List.append_nil]
      exact ⟨_, ParseString_unterminated q hq pre ⟨body, value, hb, ht⟩,
        ParseString_unterminated q hq pre ⟨body, value, hb, ht⟩⟩
    · subst h1; subst h2
      rcases ht with ht | ht
      · rw [ht]
        exact ⟨_, ParseString_raw_line_end q hq _ ⟨body, value, _, X, hb, rfl, Or.inl rfl⟩,
          ParseString_raw_line_end q hq _ ⟨body, value, _, Y, hb, rfl, Or.inl rfl⟩⟩
      · rw [ht]
        have hbad : ∀ d, (NEW_LINE_SIGN, d) ∉ escapeCodes := by
          intro d hd
          have hall : ∀ p ∈ escapeCodes, p.1 ≠ NEW_LINE_SIGN := by decide
          exact hall _ hd rfl
        exact ⟨_, ParseString_bad_escape q hq _ NEW_LINE_SIGN
            ⟨body, value, X, hb, by simp, hbad⟩,
          ParseString_bad_escape q hq _ NEW_LINE_SIGN ⟨body, value, Y, hb, by simp, hbad⟩⟩
  · left
    rw [ht]
    exact ⟨_, ParseString_bad_escape q hq _ x ⟨body, value, rest ++ T1, hb, by simp, hx⟩,
      ParseString_bad_escape q hq _ x ⟨body, value, rest ++ T2, hb, by simp, hx⟩⟩
  · left
    rw [ht]
    exact ⟨_, ParseString_raw_line_end q hq _ ⟨body, value, c, rest ++ T1, hb, by simp, hc⟩,
      ParseString_raw_line_end q hq _ ⟨body, value, c, rest ++ T2, hb, by simp, hc⟩⟩

theorem ParseNumber_local (first : Char) (pre T1 T2 : List Char) (hT : SameLineEnd T1 T2) :
    (∃ e, ParseNumber first (pre ++ T1) = .error e ∧ ParseNumber first (pre ++ T2) = .error e) ∨
    (∃ t pre2, pre2 <:+ pre ∧
      ParseNumber first (pre ++ T1) = .ok (t, pre2 ++ T1) ∧
      ParseNumber first (pre ++ T2) = .ok (t, pre2 ++ T2)) := by
  have hc := SameLineEnd_cases T1 T2 hT
  have h1 := takeWhileRest_append Char.isDigit pre T1 (lineEnd_not _ (by decide) T1 hc.1)
  have h2 := takeWhileRest_append Char.isDigit pre T2 (lineEnd_not _ (by decide) T2 hc.2)
  unfold ParseNumber
  simp only [h1, h2]
  split
  · exact Or.inr ⟨_, _, takeWhileRest_suffix _ _, rfl, rfl⟩
  · exact Or.inl ⟨_, rfl, rfl⟩

theorem ParseNameOrToken_local (first : Char) (pre T : List Char)
    (hT : T = [] ∨ ∃ X, T = NEW_LINE_SIGN :: X) :
    ParseNameOrToken first (pre ++ T) =
      ((ParseNameOrToken first pre).1, (ParseNameOrToken first pre).2 ++ T) := by
  have h1 := takeWhileRest_append (fun c => c.isAlphanum || decide (c = '_')) pre T
    (lineEnd_not _ (by decide) T hT)
  unfold ParseNameOrToken
  simp only [h1]
  split <;> rfl

theorem ParseNameOrToken_suffix (first : Char) (pre : List Char) :
    (ParseNameOrToken first pre).2 <:+ pre := by
  unfold ParseNameOrToken
  simp only
  split <;> exact takeWhileRest_suffix _ _

theorem ParseComparisonOrChar_local (first : Char) (pre : List Char) :
    ∃ t pre2, pre2 <:+ pre ∧ ∀ T, (T = [] ∨ ∃ X, T = NEW_LINE_SIGN :: X) →
      ParseComparisonOrChar first (pre ++ T) = (t, pre2 ++ T) := by
  cases pre with
  | nil =>
    refine ⟨Token.Char first, [], List.suffix_refl _, ?_⟩
    intro T hT
    rcases hT with hT | ⟨X, hT⟩
    · subst hT
      simp only [ParseComparisonOrChar, List.append_nil,
        lexemes_pair_none first (Char.ofNat 255) (Or.inr rfl)]
    · subst hT
      simp only [ParseComparisonOrChar, List.nil_append,
        lexemes_pair_none first NEW_LINE_SIGN (Or.inl rfl)]
  | cons c pre2 =>
    cases hl : lexemes.lookup (String.mk [first, c]) with
    | none =>
      refine ⟨Token.Char first, c :: pre2, List.suffix_refl _, ?_⟩
      intro T _
      simp only [ParseComparisonOrChar, List.cons_append, hl]
    | some t =>
      refine ⟨t, pre2, List.suffix_cons _ _, ?_⟩
      intro T _
      simp only [ParseComparisonOrChar, List.cons_append, hl, List.tail_cons]

/-- Reading a line is local: `ReadLineLoop` on a line text without newline, followed by
the end of the input or by a newline and further text, does not depend on the further
text nor on the bound, once the bound exceeds the length of the line text. -/
theorem ReadLineLoop_local (fuel1 : Nat) :
    ∀ (fuel2 : Nat) (pre T1 T2 : List Char) (acc : List Token),
      NEW_LINE_SIGN ∉ pre → pre.length < fuel1 → pre.length < fuel2 → SameLineEnd T1 T2 →
      SameLineResult T1 T2 (ReadLineLoop fuel1 (pre ++ T1) acc)
        (ReadLineLoop fuel2 (pre ++ T2) acc) := by
  induction fuel1 with
  | zero => intro fuel2 pre T1 T2 acc _ h; omega
  | succ f1 ih =>
    intro fuel2 pre T1 T2 acc hpre hf1 hf2 hT
    cases fuel2 with
    | zero => omega
    | succ f2 =>
      have hc := SameLineEnd_cases T1 T2 hT
      cases pre with
      | nil =>
        rcases hT with ⟨h1, h2⟩ | ⟨X, Y, h1, h2⟩
        · subst h1; subst h2
          right
          refine ⟨_, rfl, rfl, ?_, ?_⟩
          · intro _; simp
          · intro h; exact absurd rfl h
        · subst h1; subst h2
          right
          refine ⟨acc ++ [Token.Newline], ?_, ?_, ?_, ?_⟩
          · simp [ReadLineLoop, NEW_LINE_SIGN, SPACE_SIGN, COMMENT_SIGN]
          · simp [ReadLineLoop, NEW_LINE_SIGN, SPACE_SIGN, COMMENT_SIGN]
          · intro h; simp at h
          · intro _; simp
      | cons ch pre2 =>
        simp only [List.mem_cons, not_or] at hpre
        have hnl : ¬ ch = NEW_LINE_SIGN := fun h => hpre.1 h.symm
        simp only [List.length_cons] at hf1 hf2
        simp only [List.cons_append, ReadLineLoop]
        have next : ∀ (pre3 : List Char) (acc2 : List Token), pre3 <:+ pre2 →
            SameLineResult T1 T2 (ReadLineLoop f1 (pre3 ++ T1) acc2)
              (ReadLineLoop f2 (pre3 ++ T2) acc2) := by
          intro pre3 acc2 hs
          have := suffix_no_newline pre3 pre2 hs hpre.2
          exact ih f2 pre3 T1 T2 acc2 this.1 (by omega) (by omega) hT
        by_cases hsp : ch = SPACE_SIGN
        · simp only [hsp, if_true]
          have e1 := SkipSpaces_append (SPACE_SIGN :: pre2) T1
            (lineEnd_not (fun c => decide (c = SPACE_SIGN)) (by decide) T1 hc.1 |>.imp id
              (fun ⟨c, X, h, hcx⟩ => ⟨c, X, h, by simpa using hcx⟩))
          have e2 := SkipSpaces_append (SPACE_SIGN :: pre2) T2
            (lineEnd_not (fun c => decide (c = SPACE_SIGN)) (by decide) T2 hc.2 |>.imp id
              (fun ⟨c, X, h, hcx⟩ => ⟨c, X, h, by simpa using hcx⟩))
          simp only [List.cons_append] at e1 e2
          rw [e1, e2]
          apply next
          simp only [SkipSpaces, if_true]
          exact SkipSpaces_suffix pre2
        · simp only [hsp, if_false]
          by_cases hcm : ch = COMMENT_SIGN
          · simp only [hcm, if_true]
            have hpre3 : NEW_LINE_SIGN ∉ COMMENT_SIGN :: pre2 := by
              simp only [List.mem_cons, not_or]
              exact ⟨by decide, hpre.2⟩
            have e1 := SkipComment_append (COMMENT_SIGN :: pre2) T1 hpre3 hc.1
            have e2 := SkipComment_append (COMMENT_SIGN :: pre2) T2 hpre3 hc.2
            simp only [List.cons_append] at e1 e2
            rw [e1, e2]
            have := ih f2 [] T1 T2 acc (by simp) (by simp only [List.length_nil]; omega)
              (by simp only [List.length_nil]; omega) hT
            simpa using this
          · simp only [hcm, hnl, if_false]
            by_cases hq : ch = '"' ∨ ch = '\''
            · simp only [hq, if_true]
              rcases ParseString_local ch hq pre2 T1 T2 hT with ⟨e, h1, h2⟩ |
                ⟨t, pre3, hs, _, h1, h2⟩
              · rw [h1, h2]
                exact Or.inl ⟨e, rfl, rfl⟩
              · rw [h1, h2]
                exact next pre3 _ hs
            · simp only [hq, if_false]
              by_cases hd : ch.isDigit = true
              · simp only [hd, if_true]
                rcases ParseNumber_local ch pre2 T1 T2 hT with ⟨e, h1, h2⟩ |
                  ⟨t, pre3, hs, h1, h2⟩
                · rw [h1, h2]
                  exact Or.inl ⟨e, rfl, rfl⟩
                · rw [h1, h2]
                  exact next pre3 _ hs
              · simp only [hd]
                by_cases hw : (ch.isAlphanum || decide (ch = '_')) = true
                · simp only [hw, if_true]
                  rw [ParseNameOrToken_local ch pre2 T1 hc.1,
                    ParseNameOrToken_local ch pre2 T2 hc.2]
                  exact next _ _ (ParseNameOrToken_suffix ch pre2)
                · simp only [hw]
                  obtain ⟨t, pre3, hs, hall⟩ := ParseComparisonOrChar_local ch pre2
                  rw [hall T1 hc.1, hall T2 hc.2]
                  exact next pre3 _ hs

theorem ReadLine_local (pre T1 T2 : List Char) (hpre : NEW_LINE_SIGN ∉ pre)
    (hT : SameLineEnd T1 T2) :
    (∃ e, ReadLine (pre ++ T1) = .error e ∧ ReadLine (pre ++ T2) = .error e) ∨
    (∃ toks, ReadLine (pre ++ T1) = .ok (⟨(SkipSpaces pre).1, toks⟩, T1.tail) ∧
      ReadLine (pre ++ T2) = .ok (⟨(SkipSpaces pre).1, toks⟩, T2.tail) ∧
      (T1 = [] → toks.getLast? = some Token.Eof) ∧
      (T1 ≠ [] → toks.getLast? = some Token.Newline)) := by
  have hc := SameLineEnd_cases T1 T2 hT
  have hns : ∀ T, (T = [] ∨ ∃ X, T = NEW_LINE_SIGN :: X) →
      (T = [] ∨ ∃ c X, T = c :: X ∧ c ≠ SPACE_SIGN) := by
    intro T h
    rcases h with h | ⟨X, h⟩
    · exact Or.inl h
    · exact Or.inr ⟨NEW_LINE_SIGN, X, h, by decide⟩
  have e1 := SkipSpaces_append pre T1 (hns T1 hc.1)
  have e2 := SkipSpaces_append pre T2 (hns T2 hc.2)
  have hs := suffix_no_newline _ _ (SkipSpaces_suffix pre) hpre
  have key := ReadLineLoop_local (((SkipSpaces pre).2 ++ T1).length + 1)
    (((SkipSpaces pre).2 ++ T2).length + 1) (SkipSpaces pre).2 T1 T2 [] hs.1
    (by simp only [List.length_append]; omega) (by simp only [List.length_append]; omega) hT
  unfold ReadLine
  rw [e1, e2]
  rcases key with ⟨e, h1, h2⟩ | ⟨toks, h1, h2, h3, h4⟩
  · left
    exact ⟨e, by simp only [h1], by simp only [h2]⟩
  · right
    exact ⟨toks, by simp only [h1], by simp only [h2], h3, h4⟩

/-- Every input is a line text without newline followed by the end of the input or by a
newline and further text. -/
theorem split_first_newline (input : List Char) :
    ∃ pre T, input = pre ++ T ∧ NEW_LINE_SIGN ∉ pre ∧ (T = [] ∨ ∃ X, T = NEW_LINE_SIGN :: X) := by
  induction input with
  | nil => exact ⟨[], [], rfl, by simp, Or.inl rfl⟩
  | cons c rest ih =>
    by_cases hc : c = NEW_LINE_SIGN
    · exact ⟨[], c :: rest, rfl, by simp, Or.inr ⟨rest, by rw [hc]⟩⟩
    · obtain ⟨pre, T, h1, h2, h3⟩ := ih
      refine ⟨c :: pre, T, by rw [h1]; rfl, ?_, h3⟩
      simp only [List.mem_cons, not_or]
      exact ⟨fun h => hc h.symm, h2⟩

theorem IsEmpty_no_eof (line : LineTokenizer) (h : line.IsEmpty = true) :
    Token.Eof ∉ line.tokens_ := by
  intro heof
  simp only [LineTokenizer.IsEmpty, Bool.or_eq_true, List.isEmpty_iff, List.all_eq_true,
    beq_iff_eq] at h
  rcases h with hnil | hall
  · rw [hnil] at heof; simp at heof
  · exact absurd (hall _ heof) (by decide)

/-- The result of the loop at the head of `ParseTokens` does not depend on its bound, once
the bound exceeds the length of the input. -/
theorem ReadNonEmptyLine_fuel (fuel1 : Nat) :
    ∀ (fuel2 : Nat) (input : List Char), input.length < fuel1 → input.length < fuel2 →
      ReadNonEmptyLine fuel1 input = ReadNonEmptyLine fuel2 input := by
  induction fuel1 with
  | zero => intro fuel2 input h; omega
  | succ f1 ih =>
    intro fuel2 input h1 h2
    cases fuel2 with
    | zero => omega
    | succ f2 =>
      simp only [ReadNonEmptyLine]
      cases hread : ReadLine input with
      | error e => rfl
      | ok p =>
        obtain ⟨line, rest⟩ := p
        simp only
        cases hempty : line.IsEmpty
        · simp
        · simp only [if_true]
          rcases ReadLine_rest input line rest hread with ⟨heof, _⟩ | hlt
          · exact absurd heof (IsEmpty_no_eof line hempty)
          · exact ih f2 rest (by omega) (by omega)

/-- C11: a source of blank and comment-only lines should give the token stream `[Eof]`
without error, whatever the leading spaces and also when the last line has no newline.
For the source of one space, and for ` # c` without newline, the constructor raises
`LexerError`: the last line holds only `Eof`, it is not skipped as an empty line, and the
parity test of `ParseTokens` is applied to its indent 1. -/
theorem C11_blank_last_line_with_odd_indent :
    tokenStream 3 " " = [.error (.LexerError "Parsing error: indentation")] ∧
    tokenStream 3 " # c" = [.error (.LexerError "Parsing error: indentation")] ∧
    tokenStream 3 "\n   \n # c\n" = [.ok Token.Eof, .ok Token.Eof, .ok Token.Eof, .ok Token.Eof] ∧
    tokenStream 3 "  # c" = [.ok Token.Eof, .ok Token.Eof, .ok Token.Eof, .ok Token.Eof] :=
  ⟨rfl, rfl, rfl, rfl⟩

/-- Counterexample to C13 as stated: the second line of the source has three leading
spaces and is neither blank nor comment-only, no error occurs before it, and tokenizing
fails with `std::out_of_range`, not with `LexerError`: `ReadLine` tokenizes the whole
line, and with it the number 2147483648, before `ParseTokens` tests the indent. -/
theorem C13_counterexample_number_out_of_range :
    sourceLines "x = 1\n   y = 2147483648\n".toList =
      ["x = 1".toList, "   y = 2147483648".toList] ∧
    (SkipSpaces "   y = 2147483648".toList).1 = 3 ∧
    isBlankText "   y = 2147483648".toList = false ∧
    tokenStream 6 "x = 1\n   y = 2147483648\n" =
      [.ok (Token.Id "x"), .ok (Token.Char '='), .ok (Token.Number 1), .ok Token.Newline,
       .error (.out_of_range "stoi")] := by
  refine ⟨by decide, by decide, by decide, rfl⟩

/-- C13 (amended): when the next non-empty line that the lexer reads has an odd number of
leading spaces and was tokenized without error, `ParseTokens` raises `LexerError` and
puts no token of that line in the buffer; `NextToken` raises it when the buffer is used
up, and until then it returns the buffered tokens of the preceding line without reading
the input.  An exception raised while the line is tokenized is the one that
`ParseTokens` raises.  For `x = 1` followed by the line `   y = 2` the tokens of the
first line are returned and then the error. -/
theorem C13_odd_indent_rejected :
    (∀ (lx : Lexer) (line : LineTokenizer) (rest : List Char),
      ReadNonEmptyLine (lx.input_.length + 1) lx.input_ = .ok (line, rest) →
      line.indent_ % 2 = 1 →
      (∃ start : List Char, ReadLine start = .ok (line, rest) ∧
        line.indent_ = (SkipSpaces start).1) ∧
      lx.ParseTokens = .error (.LexerError "Parsing error: indentation") ∧
      ((lx.tokens_.isEmpty || lx.index_current_token_ = (lx.tokens_.length : Int) - 1) = true →
        lx.NextToken = .error (.LexerError "Parsing error: indentation"))) ∧
    (∀ (lx : Lexer),
      (lx.tokens_.isEmpty || lx.index_current_token_ = (lx.tokens_.length : Int) - 1) = false →
      lx.NextToken =
        match lx.tokens_.get? (lx.index_current_token_ + 1).toNat with
        | some t => .ok (t, { lx with index_current_token_ := lx.index_current_token_ + 1 })
        | none => .error (.out_of_range "vector::at")) ∧
    tokenStream 6 "x = 1\n   y = 2\n" =
      [.ok (Token.Id "x"), .ok (Token.Char '='), .ok (Token.Number 1), .ok Token.Newline,
       .error (.LexerError "Parsing error: indentation")] ∧
    (∀ (lx : Lexer) (e : LexException),
      ReadNonEmptyLine (lx.input_.length + 1) lx.input_ = .error e →
      lx.ParseTokens = .error e) ∧
    tokenStream 6 "x = 1\n   y = 'a\n" =
      [.ok (Token.Id "x"), .ok (Token.Char '='), .ok (Token.Number 1), .ok Token.Newline,
       .error (.LexerError "Unexpected end of line")] := by
  refine ⟨?_, ?_, rfl, fun lx e h => ParseTokens_error lx e h, rfl⟩
  · intro lx line rest h hodd
    have hall : ∀ toks idx,
        Lexer.ParseTokens { lx with tokens_ := toks, index_current_token_ := idx } =
          .error (.LexerError "Parsing error: indentation") :=
      fun toks idx => ParseTokens_odd _ line rest h hodd
    refine ⟨ReadNonEmptyLine_indent _ _ _ _ h, ParseTokens_odd lx line rest h hodd, ?_⟩
    intro hex
    simp only [Lexer.NextToken, hex, if_true, hall]
  · intro lx hnot
    simp only [Lexer.NextToken, hnot]
    rfl

/-- Witness of C13: in the state reached after the line `x = 1`, with its four tokens
served, the line `   y = 2` makes `NextToken` raise `LexerError`. -/
theorem C13_odd_indent_rejected_witness :
    Lexer.NextToken
      ⟨"   y = 2\n".toList, [Token.Id "x", Token.Char '=', Token.Number 1, Token.Newline], 0, 3⟩
      = .error (.LexerError "Parsing error: indentation") :=
  ((C13_odd_indent_rejected.1
      ⟨"   y = 2\n".toList, [Token.Id "x", Token.Char '=', Token.Number 1, Token.Newline], 0, 3⟩
      ⟨3, [Token.Id "y", Token.Char '=', Token.Number 2, Token.Newline]⟩ [] rfl
      (by decide)).2.2 (by decide))

/-- `ReadLine` on a blank or comment-only line reads the line as the single token
`Newline` and leaves what follows it. -/
theorem ReadLine_blank (B : List Char) (hB : IsBlankLine B) (X : List Char) :
    ∃ k, ReadLine (B ++ X) = .ok (⟨k, [Token.Newline]⟩, X) := by
  obtain ⟨k, comment, hc, hB | hB⟩ := hB
  · refine ⟨k, ?_⟩
    subst hB
    have hs := SkipSpaces_leading k NEW_LINE_SIGN X (by decide)
    unfold ReadLine
    simp only [List.append_assoc, List.singleton_append, hs, List.length_cons, ReadLineLoop]
    simp [NEW_LINE_SIGN, SPACE_SIGN, COMMENT_SIGN]
  · refine ⟨k, ?_⟩
    subst hB
    have hs := SkipSpaces_leading k COMMENT_SIGN (comment ++ [NEW_LINE_SIGN] ++ X) (by decide)
    have hcm : SkipComment (COMMENT_SIGN :: (comment ++ NEW_LINE_SIGN :: X)) =
        NEW_LINE_SIGN :: X := by
      have := SkipComment_append (COMMENT_SIGN :: comment) (NEW_LINE_SIGN :: X)
        (by
          simp only [List.mem_cons, not_or]
          exact ⟨by decide, hc⟩)
        (Or.inr ⟨X, rfl⟩)
      simpa using this
    unfold ReadLine
    simp only [List.append_assoc, List.cons_append, List.nil_append] at hs ⊢
    simp only [hs, List.length_cons, List.length_append, ReadLineLoop]
    have h1 : ¬ COMMENT_SIGN = SPACE_SIGN := by decide
    simp only [h1, if_false, if_true, hcm]
    simp [ReadLineLoop, NEW_LINE_SIGN, SPACE_SIGN, COMMENT_SIGN]

theorem IsBlankLine_length (B : List Char) (hB : IsBlankLine B) : 0 < B.length := by
  obtain ⟨k, comment, _, hB | hB⟩ := hB <;> (subst hB; simp)

/-- Reading the next non-empty line from a text and from the same text with a blank line
inserted gives the same line (or the same exception), and the texts left are again
related in the same way. -/
theorem ReadNonEmptyLine_inserted (B : List Char) (hB : IsBlankLine B) (f : Nat) :
    ∀ (f2 : Nat) (a a2 : List Char), a.length < f → a2.length < f2 → InsertedLine B a a2 →
      (∃ e, ReadNonEmptyLine f a = .error e ∧ ReadNonEmptyLine f2 a2 = .error e) ∨
      (∃ line x x2, ReadNonEmptyLine f a = .ok (line, x) ∧
        ReadNonEmptyLine f2 a2 = .ok (line, x2) ∧ InsertedLine B x x2) := by
  have same : ∀ (f f2 : Nat) (a : List Char), a.length < f → a.length < f2 →
      (∃ e, ReadNonEmptyLine f a = .error e ∧ ReadNonEmptyLine f2 a = .error e) ∨
      (∃ line x x2, ReadNonEmptyLine f a = .ok (line, x) ∧
        ReadNonEmptyLine f2 a = .ok (line, x2) ∧ InsertedLine B x x2) := by
    intro f f2 a h1 h2
    rw [ReadNonEmptyLine_fuel f f2 a h1 h2]
    cases hr : ReadNonEmptyLine f2 a with
    | error e => exact Or.inl ⟨e, rfl, rfl⟩
    | ok p => exact Or.inr ⟨p.1, p.2, p.2, rfl, rfl, Or.inl rfl⟩
  have front : ∀ (f f2 : Nat) (a : List Char), a.length < f → (B ++ a).length < f2 →
      (∃ e, ReadNonEmptyLine f a = .error e ∧ ReadNonEmptyLine f2 (B ++ a) = .error e) ∨
      (∃ line x x2, ReadNonEmptyLine f a = .ok (line, x) ∧
        ReadNonEmptyLine f2 (B ++ a) = .ok (line, x2) ∧ InsertedLine B x x2) := by
    intro f f2 a h1 h2
    obtain ⟨k, hk⟩ := ReadLine_blank B hB a
    have hlen := IsBlankLine_length B hB
    simp only [List.length_append] at h2
    cases f2 with
    | zero => omega
    | succ f3 =>
      have : ReadNonEmptyLine (f3 + 1) (B ++ a) = ReadNonEmptyLine f3 a := by
        simp only [ReadNonEmptyLine, hk]
        simp [LineTokenizer.IsEmpty]
      rw [this]
      exact same f f3 a h1 (by omega)
  induction f with
  | zero => intro f2 a a2 h; omega
  | succ f ih =>
    intro f2 a a2 h1 h2 hins
    rcases hins with hins | hins | ⟨S1, S2, ha, ha2⟩
    · subst hins
      exact same _ _ _ h1 h2
    · subst hins
      exact front _ _ _ h1 h2
    · obtain ⟨pre, T, hS1, hpre, hT⟩ := split_first_newline S1
      cases f2 with
      | zero => omega
      | succ f3 =>
        rcases hT with hT | ⟨X, hT⟩
        · subst hT
          simp only [List.append_nil] at hS1
          subst hS1
          subst ha
          subst ha2
          simp only [List.length_append, List.length_cons] at h1 h2
          rcases ReadLine_local S1 (NEW_LINE_SIGN :: S2) (NEW_LINE_SIGN :: (B ++ S2)) hpre
            (Or.inr ⟨S2, B ++ S2, rfl, rfl⟩) with ⟨e, he1, he2⟩ | ⟨toks, hr1, hr2, _, _⟩
          · exact Or.inl ⟨e, by simp only [ReadNonEmptyLine, he1],
              by simp only [ReadNonEmptyLine, he2]⟩
          · simp only [ReadNonEmptyLine, hr1, hr2, List.tail_cons]
            by_cases hemp : LineTokenizer.IsEmpty ⟨(SkipSpaces S1).1, toks⟩ = true
            · simp only [hemp, if_true]
              exact ih f3 S2 (B ++ S2) (by omega) (by simp only [List.length_append]; omega)
                (Or.inr (Or.inl rfl))
            · simp only [hemp]
              exact Or.inr ⟨_, _, _, rfl, rfl, Or.inr (Or.inl rfl)⟩
        · subst hT
          subst hS1
          subst ha
          subst ha2
          simp only [List.length_append, List.length_cons] at h1 h2
          have e1 : pre ++ NEW_LINE_SIGN :: X ++ NEW_LINE_SIGN :: S2 =
              pre ++ NEW_LINE_SIGN :: (X ++ NEW_LINE_SIGN :: S2) := by simp
          have e2 : pre ++ NEW_LINE_SIGN :: X ++ NEW_LINE_SIGN :: (B ++ S2) =
              pre ++ NEW_LINE_SIGN :: (X ++ NEW_LINE_SIGN :: (B ++ S2)) := by simp
          rw [e1, e2]
          rcases ReadLine_local pre (NEW_LINE_SIGN :: (X ++ NEW_LINE_SIGN :: S2))
            (NEW_LINE_SIGN :: (X ++ NEW_LINE_SIGN :: (B ++ S2))) hpre
            (Or.inr ⟨_, _, rfl, rfl⟩) with ⟨e, he1, he2⟩ | ⟨toks, hr1, hr2, _, _⟩
          · exact Or.inl ⟨e, by simp only [ReadNonEmptyLine, he1],
              by simp only [ReadNonEmptyLine, he2]⟩
          · simp only [ReadNonEmptyLine, hr1, hr2, List.tail_cons]
            by_cases hemp : LineTokenizer.IsEmpty ⟨(SkipSpaces pre).1, toks⟩ = true
            · simp only [hemp, if_true]
              exact ih f3 _ _ (by simp only [List.length_append, List.length_cons]; omega)
                (by simp only [List.length_append, List.length_cons]; omega)
                (Or.inr (Or.inr ⟨X, S2, rfl, rfl⟩))
            · simp only [hemp]
              exact Or.inr ⟨_, _, _, rfl, rfl, Or.inr (Or.inr ⟨X, S2, rfl, rfl⟩)⟩

/-- `ParseTokens` from two states that differ by an inserted blank line: the same
exception, or new states that again differ at most by that line in the input. -/
theorem ParseTokens_inserted (B : List Char) (hB : IsBlankLine B) (lx lx2 : Lexer)
    (h : InsertedLineState B lx lx2) :
    (∃ e, lx.ParseTokens = .error e ∧ lx2.ParseTokens = .error e) ∨
    (∃ r r2, lx.ParseTokens = .ok r ∧ lx2.ParseTokens = .ok r2 ∧ InsertedLineState B r r2) := by
  obtain ⟨ht, hc, hi, hin⟩ := h
  rcases ReadNonEmptyLine_inserted B hB (lx.input_.length + 1) (lx2.input_.length + 1)
    lx.input_ lx2.input_ (Nat.lt_succ_self _) (Nat.lt_succ_self _) hin with
    ⟨e, h1, h2⟩ | ⟨line, x, x2, h1, h2, hx⟩
  · exact Or.inl ⟨e, ParseTokens_error lx e h1, ParseTokens_error lx2 e h2⟩
  · rcases Nat.mod_two_eq_zero_or_one line.indent_ with hp | hp
    · refine Or.inr ⟨_, _, ParseTokens_eq lx line x h1 hp, ParseTokens_eq lx2 line x2 h2 hp, ?_⟩
      exact ⟨by simp only [ht, hc], by simp only [hc], hi, hx⟩
    · exact Or.inl ⟨_, ParseTokens_odd lx line x h1 hp, ParseTokens_odd lx2 line x2 h2 hp⟩

/-- `NextToken` from two states that differ by an inserted blank line: the same exception,
or the same token and new states that again differ at most by that line. -/
theorem NextToken_inserted (B : List Char) (hB : IsBlankLine B) (lx lx2 : Lexer)
    (h : InsertedLineState B lx lx2) :
    (∃ e, lx.NextToken = .error e ∧ lx2.NextToken = .error e) ∨
    (∃ t r r2, lx.NextToken = .ok (t, r) ∧ lx2.NextToken = .ok (t, r2) ∧
      InsertedLineState B r r2) := by
  obtain ⟨ht, hc, hi, hin⟩ := h
  have step : ∀ (r r2 : Lexer), InsertedLineState B r r2 →
      (∃ e,
        (match ({ r with index_current_token_ := r.index_current_token_ + 1 } : Lexer).tokens_.get?
            (r.index_current_token_ + 1).toNat with
          | some t => (Except.ok (t, ({ r with index_current_token_ :=
              r.index_current_token_ + 1 } : Lexer)) : Except LexException (Token × Lexer))
          | none => .error (.out_of_range "vector::at")) = .error e ∧
        (match ({ r2 with index_current_token_ := r2.index_current_token_ + 1 } : Lexer).tokens_.get?
            (r2.index_current_token_ + 1).toNat with
          | some t => (Except.ok (t, ({ r2 with index_current_token_ :=
              r2.index_current_token_ + 1 } : Lexer)) : Except LexException (Token × Lexer))
          | none => .error (.out_of_range "vector::at")) = .error e) ∨
      (∃ t q q2,
        (match ({ r with index_current_token_ := r.index_current_token_ + 1 } : Lexer).tokens_.get?
            (r.index_current_token_ + 1).toNat with
          | some t => (Except.ok (t, ({ r with index_current_token_ :=
              r.index_current_token_ + 1 } : Lexer)) : Except LexException (Token × Lexer))
          | none => .error (.out_of_range "vector::at")) = .ok (t, q) ∧
        (match ({ r2 with index_current_token_ := r2.index_current_token_ + 1 } : Lexer).tokens_.get?
            (r2.index_current_token_ + 1).toNat with
          | some t => (Except.ok (t, ({ r2 with index_current_token_ :=
              r2.index_current_token_ + 1 } : Lexer)) : Except LexException (Token × Lexer))
          | none => .error (.out_of_range "vector::at")) = .ok (t, q2) ∧
        InsertedLineState B q q2) := by
    intro r r2 ⟨rt, rc, ri, rin⟩
    simp only [rt, ri]
    cases hg : r.tokens_.get? (r.index_current_token_ + 1).toNat with
    | none => exact Or.inl ⟨_, rfl, rfl⟩
    | some t => exact Or.inr ⟨t, _, _, rfl, rfl, rfl, rc, rfl, rin⟩
  unfold Lexer.NextToken
  simp only [ht, hi]
  by_cases hcond : (lx.tokens_.isEmpty ||
      decide (lx.index_current_token_ = (lx.tokens_.length : Int) - 1)) = true
  · simp only [hcond, if_true]
    rcases ParseTokens_inserted B hB { lx with tokens_ := [], index_current_token_ := -1 }
      { lx2 with tokens_ := [], index_current_token_ := -1 } ⟨rfl, hc, rfl, hin⟩ with
      ⟨e, h1, h2⟩ | ⟨r, r2, h1, h2, hr⟩
    · exact Or.inl ⟨e, by simp only [h1], by simp only [h2]⟩
    · simp only [h1, h2]
      exact step r r2 hr
  · simp only [hcond]
    exact step lx lx2 ⟨ht, hc, hi, hin⟩

/-- The results of repeated `NextToken` calls do not depend on an inserted blank line. -/
theorem nextTokens_inserted (B : List Char) (hB : IsBlankLine B) (n : Nat) :
    ∀ (lx lx2 : Lexer), InsertedLineState B lx lx2 → nextTokens n lx2 = nextTokens n lx := by
  induction n with
  | zero => intro lx lx2 _; rfl
  | succ n ih =>
    intro lx lx2 h
    rcases NextToken_inserted B hB lx lx2 h with ⟨e, h1, h2⟩ | ⟨t, r, r2, h1, h2, hr⟩
    · simp only [nextTokens, h1, h2]
    · simp only [nextTokens, h1, h2, ih r r2 hr]

/-- The token stream of a source does not depend on an inserted blank line. -/
theorem tokenStream_inserted (B : List Char) (hB : IsBlankLine B) (n : Nat)
    (a a2 : String) (h : InsertedLine B a.toList a2.toList) :
    tokenStream n a2 = tokenStream n a := by
  unfold tokenStream Lexer.new
  rcases NextToken_inserted B hB ⟨a.toList, [], 0, -1⟩ ⟨a2.toList, [], 0, -1⟩
    ⟨rfl, rfl, rfl, h⟩ with ⟨e, h1, h2⟩ | ⟨t, r, r2, h1, h2, hr⟩
  · simp only [h1, h2]
  · simp only [h1, h2, nextTokens_inserted B hB n r r2 hr]

/-- C12: blank and comment-only lines are invisible to the lexer.  For a line `B` of any
number of spaces, optionally a `#` comment, and its newline, the source with `B` inserted
at its start, or right after any of its newlines, gives the same results as the source
itself for the constructor and any number `n` of `NextToken` calls: the same tokens and
the same exception at the same place. -/
theorem C12_blank_line_is_invisible (B S1 S2 : String) (n : Nat)
    (hB : IsBlankLine B.toList) :
    tokenStream n (B ++ S2) = tokenStream n S2 ∧
    tokenStream n (S1 ++ "\n" ++ B ++ S2) = tokenStream n (S1 ++ "\n" ++ S2) := by
  constructor
  · apply tokenStream_inserted B.toList hB
    exact Or.inr (Or.inl (by simp [String.toList]))
  · apply tokenStream_inserted B.toList hB
    refine Or.inr (Or.inr ⟨S1.toList, S2.toList, ?_, ?_⟩)
    · simp [String.toList, NEW_LINE_SIGN]
    · simp [String.toList, NEW_LINE_SIGN]

theorem C12_blank_line_is_invisible_witness :
    IsBlankLine "   # note\n".toList ∧
    tokenStream 9 ("   # note\n" ++ "  y = 2\n") = tokenStream 9 "  y = 2\n" ∧
    tokenStream 9 ("if x:" ++ "\n" ++ "   # note\n" ++ "  y = 2\n") =
      tokenStream 9 ("if x:" ++ "\n" ++ "  y = 2\n") :=
  have hB : IsBlankLine "   # note\n".toList :=
    ⟨3, " note".toList, by decide, Or.inr rfl⟩
  ⟨hB, C12_blank_line_is_invisible "   # note\n" "if x:" "  y = 2\n" 9 hB⟩

theorem sourceLines_first (pre X : List Char) (hpre : NEW_LINE_SIGN ∉ pre) :
    sourceLines (pre ++ NEW_LINE_SIGN :: X) = pre :: sourceLines X := by
  induction pre with
  | nil => simp [sourceLines]
  | cons c pre ih =>
    simp only [List.mem_cons, not_or] at hpre
    have hc : c ≠ NEW_LINE_SIGN := fun h => hpre.1 h.symm
    have e : sourceLines (c :: (pre ++ NEW_LINE_SIGN :: X)) =
        match sourceLines (pre ++ NEW_LINE_SIGN :: X) with
        | [] => [[c]]
        | l :: ls => (c :: l) :: ls := by
      simp only [sourceLines, hc, if_false]
    rw [List.cons_append, e, ih hpre.2]

theorem sourceLines_single (pre : List Char) (hpre : NEW_LINE_SIGN ∉ pre) (hne : pre ≠ []) :
    sourceLines pre = [pre] := by
  induction pre with
  | nil => exact absurd rfl hne
  | cons c pre ih =>
    simp only [List.mem_cons, not_or] at hpre
    have hc : c ≠ NEW_LINE_SIGN := fun h => hpre.1 h.symm
    cases pre with
    | nil => simp [sourceLines, hc]
    | cons d pre =>
      have e : sourceLines (c :: d :: pre) =
          match sourceLines (d :: pre) with
          | [] => [[c]]
          | l :: ls => (c :: l) :: ls := by
        simp only [sourceLines, hc, if_false]
      rw [e, ih hpre.2 (by simp)]

theorem SkipSpaces_dropWhile (l : List Char) :
    (SkipSpaces l).2 = l.dropWhile (fun c => c == SPACE_SIGN) := by
  induction l with
  | nil => rfl
  | cons c l ih =>
    simp only [SkipSpaces, List.dropWhile]
    by_cases h : c = SPACE_SIGN
    · simp [h, ih]
    · have hb : (c == SPACE_SIGN) = false := by simpa using h
      simp [h, hb]

/-- The count of `Newline` tokens in the token sequence of `k` logical lines is `k`. -/
theorem LineTokens_count (k : Nat) (ts : List Token) (h : LineTokens k ts) :
    ts.count Token.Newline = k := by
  induction h with
  | last closing hc =>
    simp only [List.count_append, List.count_cons, List.count_nil]
    have : closing.count Token.Newline = 0 := by
      rw [List.count_eq_zero]
      intro hm
      exact absurd (hc _ hm) (by decide)
    simp [this]
  | line k ind sub rest hind hne hsub _ ih =>
    have h1 : ind.count Token.Newline = 0 := by
      rw [List.count_eq_zero]
      intro hm
      rcases hind _ hm with h | h <;> exact absurd h (by decide)
    have h2 : sub.count Token.Newline = 0 := by
      rw [List.count_eq_zero]
      intro hm
      exact absurd (hsub _ hm) (by decide)
    simp only [List.count_append, List.count_cons, h1, h2, ih]
    simp

/-- Pending tokens that hold no `Eof` are handed out first, then the lexer goes on from
an empty buffer. -/
theorem StreamToEof_no_eof (p : List Token) : ∀ (input : List Char) (indent : Nat)
    (out : List Token), Token.Eof ∉ p → StreamToEof p input indent out →
    ∃ out2, out = p ++ out2 ∧ StreamToEof [] input indent out2 := by
  induction p with
  | nil => intro input indent out _ h; exact ⟨out, rfl, h⟩
  | cons t p ih =>
    intro input indent out hno h
    simp only [List.mem_cons, not_or] at hno
    cases h with
    | eof => exact absurd rfl hno.1
    | tok _ _ _ _ out1 hne hs =>
      obtain ⟨out2, ho, hs2⟩ := ih input indent out1 hno.2 hs
      exact ⟨out2, by rw [ho]; rfl, hs2⟩

/-- Pending tokens that hold an `Eof` are handed out up to that `Eof`. -/
theorem StreamToEof_eof (front : List Token) : ∀ (r : List Token) (input : List Char)
    (indent : Nat) (out : List Token), Token.Eof ∉ front →
    StreamToEof (front ++ Token.Eof :: r) input indent out → out = front ++ [Token.Eof] := by
  induction front with
  | nil =>
    intro r input indent out _ h
    cases h with
    | eof => rfl
    | tok _ _ _ _ _ hne _ => exact absurd rfl hne
  | cons t front ih =>
    intro r input indent out hno h
    simp only [List.mem_cons, not_or] at hno
    cases h with
    | eof => exact absurd rfl hno.1
    | tok _ _ _ _ out1 hne hs =>
      rw [ih r input indent out1 hno.2 hs]
      rfl

theorem not_all_of_substantive (sub ending : List Token) (t0 : Token) (hne : sub ≠ [])
    (hsub : ∀ t ∈ sub, t.isSubstantive = true) (ht0 : t0.isSubstantive = false) :
    ((sub ++ ending).isEmpty || (sub ++ ending).all (fun t => t == t0)) = false := by
  cases sub with
  | nil => exact absurd rfl hne
  | cons s sub =>
    have hs : s ≠ t0 := by
      intro hc
      have := hsub s (by simp)
      rw [hc, ht0] at this
      exact absurd this (by decide)
    simp [hs]

theorem ReadLineLoop_started (fuel : Nat) (input : List Char) (t : Token) (out : List Token)
    (rest : List Char) (ht : t.isSubstantive = true)
    (h : ReadLineLoop fuel input ([] ++ [t]) = .ok (out, rest)) :
    ∃ sub : List Token, sub ≠ [] ∧ (∀ u ∈ sub, u.isSubstantive = true) ∧
      (out = sub ++ [Token.Newline] ∨ out = sub ++ [Token.Newline, Token.Eof]) := by
  obtain ⟨sub, hsub, ⟨more, hmore⟩, hout⟩ := ReadLineLoop_shape fuel input ([] ++ [t]) out rest
    (by intro u hu; simp only [List.nil_append, List.mem_singleton] at hu; rw [hu]; exact ht) h
  have hne : sub ≠ [] := by rw [hmore]; simp
  rcases hout with ho | ⟨_, ho⟩ | ⟨hnil, _⟩
  · exact ⟨sub, hne, hsub, Or.inl ho⟩
  · exact ⟨sub, hne, hsub, Or.inr ho⟩
  · exact absurd hnil hne

/-- A line whose first character after the leading spaces is neither `#` nor the newline
gives at least one substantive token. -/
theorem ReadLine_nonblank (input : List Char) (line : LineTokenizer) (rest : List Char)
    (h : ReadLine input = .ok (line, rest)) (c : Char) (r : List Char)
    (hs : input.dropWhile (fun c => c == SPACE_SIGN) = c :: r)
    (h1 : c ≠ COMMENT_SIGN) (h2 : c ≠ NEW_LINE_SIGN) :
    ∃ sub : List Token, sub ≠ [] ∧ (∀ u ∈ sub, u.isSubstantive = true) ∧
      (line.tokens_ = sub ++ [Token.Newline] ∨
        line.tokens_ = sub ++ [Token.Newline, Token.Eof]) := by
  have hsp : (SkipSpaces input).2 = c :: r := by rw [SkipSpaces_dropWhile, hs]
  have hc : c ≠ SPACE_SIGN := by
    have := dropWhile_head_not (fun c => c == SPACE_SIGN) input c (by rw [hs]; rfl)
    simpa using this
  unfold ReadLine at h
  rw [hsp] at h
  cases hr : ReadLineLoop ((c :: r).length + 1) (c :: r) [] with
  | error e => rw [hr] at h; simp at h
  | ok p =>
    obtain ⟨toks, rest1⟩ := p
    rw [hr] at h
    simp only [Except.ok.injEq, Prod.mk.injEq] at h
    rw [← h.1]
    rw [ReadLineLoop] at hr
    simp only [hc, h1, h2, if_false] at hr
    split at hr
    · split at hr
      · next t rest2 hp =>
        exact ReadLineLoop_started _ _ t toks rest1 (ParseString_substantive _ _ _ _ hp) hr
      · simp at hr
    · split at hr
      · split at hr
        · next t rest2 hp =>
          exact ReadLineLoop_started _ _ t toks rest1 (ParseNumber_substantive _ _ _ _ hp) hr
        · simp at hr
      · split at hr
        · exact ReadLineLoop_started _ _ _ toks rest1 (ParseNameOrToken_substantive _ _) hr
        · exact ReadLineLoop_started _ _ _ toks rest1 (ParseComparisonOrChar_substantive _ _) hr

theorem dropWhile_append_cons (p : Char → Bool) (pre T : List Char) (c : Char) (r : List Char)
    (h : pre.dropWhile p = c :: r) : (pre ++ T).dropWhile p = c :: (r ++ T) := by
  induction pre with
  | nil => simp at h
  | cons d pre ih =>
    simp only [List.cons_append, List.dropWhile] at h ⊢
    cases hp : p d
    · rw [hp] at h
      simp only [List.cons.injEq] at h
      simp [h.1, h.2]
    · rw [hp] at h
      exact ih h

/-- The first line of a text, when it is not blank or comment-only: `ReadLine` leaves the
text after its newline and gives at least one substantive token followed by `Newline`,
and by `Eof` as well when the text ends with the line. -/
theorem first_line_nonblank (pre T : List Char) (hpre : NEW_LINE_SIGN ∉ pre)
    (hT : T = [] ∨ ∃ X, T = NEW_LINE_SIGN :: X) (hb : isBlankText pre = false)
    (line : LineTokenizer) (rest : List Char) (h : ReadLine (pre ++ T) = .ok (line, rest)) :
    rest = T.tail ∧ ∃ sub : List Token, sub ≠ [] ∧ (∀ u ∈ sub, u.isSubstantive = true) ∧
      (T = [] → line.tokens_ = sub ++ [Token.Newline, Token.Eof]) ∧
      (T ≠ [] → line.tokens_ = sub ++ [Token.Newline]) := by
  have hsame : SameLineEnd T T := by
    rcases hT with hT | ⟨X, hT⟩
    · exact Or.inl ⟨hT, hT⟩
    · exact Or.inr ⟨X, X, hT, hT⟩
  unfold isBlankText at hb
  cases hd : pre.dropWhile (fun c => c == SPACE_SIGN) with
  | nil => rw [hd] at hb; simp at hb
  | cons c r =>
    rw [hd] at hb
    have h1 : c ≠ COMMENT_SIGN := by simpa using hb
    have hmem : c ∈ pre := by
      have : c ∈ pre.dropWhile (fun c => c == SPACE_SIGN) := by rw [hd]; simp
      exact (List.dropWhile_suffix _).subset this
    have h2 : c ≠ NEW_LINE_SIGN := by
      intro hc; rw [hc] at hmem; exact hpre hmem
    obtain ⟨sub, hne, hsub, hshape⟩ := ReadLine_nonblank (pre ++ T) line rest h c (r ++ T)
      (dropWhile_append_cons _ pre T c r hd) h1 h2
    rcases ReadLine_local pre T T hpre hsame with ⟨e, he, _⟩ | ⟨toks, hr, _, hl1, hl2⟩
    · rw [he] at h; simp at h
    · rw [hr] at h
      simp only [Except.ok.injEq, Prod.mk.injEq] at h
      refine ⟨h.2.symm, sub, hne, hsub, ?_, ?_⟩
      · intro hnil
        have hlast := hl1 hnil
        rw [← h.1] at hshape
        simp only at hshape
        rcases hshape with hs | hs
        · rw [hs] at hlast; simp at hlast
        · rw [← h.1]; exact hs
      · intro hnn
        have hlast := hl2 hnn
        rw [← h.1] at hshape
        simp only at hshape
        rcases hshape with hs | hs
        · rw [← h.1]; exact hs
        · rw [hs] at hlast
          rw [show sub ++ [Token.Newline, Token.Eof] = (sub ++ [Token.Newline]) ++ [Token.Eof] by
            simp] at hlast
          rw [List.getLast?_append] at hlast
          simp at hlast

/-- One `NextToken` call in terms of the pending tokens: it hands out the first pending
token, or, when none is pending, reads the next non-empty line and hands out the first
token of the new buffer. -/
theorem NextToken_pending (lx : Lexer) (hr : lx.IndexInRange) (t1 : Token) (lx1 : Lexer)
    (h : lx.NextToken = .ok (t1, lx1)) :
    lx1.IndexInRange ∧
    ((lx.pending = t1 :: lx1.pending ∧ lx1.input_ = lx.input_ ∧
        lx1.current_indent_ = lx.current_indent_) ∨
     (lx.pending = [] ∧ ∃ line rest,
        ReadNonEmptyLine (lx.input_.length + 1) lx.input_ = .ok (line, rest) ∧
        line.indent_ % 2 = 0 ∧
        indentTokens lx.current_indent_ line ++ line.tokens_ = t1 :: lx1.pending ∧
        lx1.input_ = rest ∧ lx1.current_indent_ = nextIndent lx.current_indent_ line)) := by
  obtain ⟨input, toks, ind, idx⟩ := lx
  obtain ⟨hlo, hhi⟩ := hr
  simp only at hlo hhi
  unfold Lexer.NextToken at h
  by_cases hcond : (toks.isEmpty || decide (idx = (toks.length : Int) - 1)) = true
  · simp only [hcond, if_true] at h
    have hpend : Lexer.pending ⟨input, toks, ind, idx⟩ = [] := by
      simp only [Lexer.pending]
      simp only [Bool.or_eq_true, List.isEmpty_iff, decide_eq_true_eq] at hcond
      rcases hcond with hc | hc
      · subst hc; simp
      · apply List.drop_eq_nil_of_le
        omega
    cases hrn : ReadNonEmptyLine (input.length + 1) input with
    | error e =>
      rw [ParseTokens_error ⟨input, [], ind, -1⟩ e hrn] at h
      simp at h
    | ok p =>
      obtain ⟨line, rest⟩ := p
      rcases Nat.mod_two_eq_zero_or_one line.indent_ with hp | hp
      · rw [ParseTokens_eq ⟨input, [], ind, -1⟩ line rest hrn hp] at h
        simp only [List.nil_append] at h
        cases hb : indentTokens ind line ++ line.tokens_ with
        | nil =>
          rw [hb] at h
          simp at h
        | cons b bs =>
          rw [hb] at h
          simp only [Int.reduceNeg, neg_add_cancel, Int.toNat_zero, List.get?_cons_zero,
            Except.ok.injEq, Prod.mk.injEq] at h
          obtain ⟨ht, hlx⟩ := h
          subst ht
          subst hlx
          refine ⟨⟨by simp, by simp⟩, Or.inr ⟨hpend, line, rest, rfl, hp, ?_, rfl, rfl⟩⟩
          simp [Lexer.pending, hb]
      · rw [ParseTokens_odd ⟨input, [], ind, -1⟩ line rest hrn hp] at h
        simp at h
  · simp only [hcond, Bool.false_eq_true, if_false] at h
    simp only [Bool.or_eq_true, List.isEmpty_iff, decide_eq_true_eq, not_or] at hcond
    cases hg : toks.get? (idx + 1).toNat with
    | none =>
      simp only [hg] at h
      simp at h
    | some t =>
      simp only [hg, Except.ok.injEq, Prod.mk.injEq] at h
      obtain ⟨ht, hlx⟩ := h
      subst ht
      subst hlx
      have hlt : (idx + 1).toNat < toks.length := by
        rw [List.get?_eq_some] at hg
        exact hg.1
      refine ⟨⟨by simp only; omega, by simp only; omega⟩, Or.inl ⟨?_, rfl, rfl⟩⟩
      simp only [Lexer.pending]
      have e : (idx + 1 + 1).toNat = (idx + 1).toNat + 1 := by omega
      rw [e]
      rw [List.get?_eq_some] at hg
      obtain ⟨hl, hget⟩ := hg
      rw [← hget]
      exact List.drop_eq_getElem_cons hl

/-- The tokens read up to the first `Eof` are the stream of the pending tokens, the input
and the current indent. -/
theorem tokensToEofFrom_stream (n : Nat) : ∀ (t : Token) (lx : Lexer) (ts : List Token),
    lx.IndexInRange → tokensToEofFrom n t lx = some ts →
    StreamToEof (t :: lx.pending) lx.input_ lx.current_indent_ ts := by
  induction n with
  | zero =>
    intro t lx ts _ h
    simp only [tokensToEofFrom] at h
    split at h
    · next ht =>
      simp only [Option.some.injEq] at h
      subst ht
      rw [← h]
      exact StreamToEof.eof _ _ _
    · simp at h
  | succ n ih =>
    intro t lx ts hr h
    simp only [tokensToEofFrom] at h
    split at h
    · next ht =>
      simp only [Option.some.injEq] at h
      subst ht
      rw [← h]
      exact StreamToEof.eof _ _ _
    · next hne =>
      split at h
      · next t1 lx1 hnt =>
        cases hts1 : tokensToEofFrom n t1 lx1 with
        | none => rw [hts1] at h; simp at h
        | some ts1 =>
        rw [hts1] at h
        simp only [Option.map_some', Option.some.injEq] at h
        have hts := h
        obtain ⟨hr1, hcase⟩ := NextToken_pending lx hr t1 lx1 hnt
        have hs := ih t1 lx1 ts1 hr1 hts1
        rw [← hts]
        rcases hcase with ⟨hp, hi, hc⟩ | ⟨hp, line, rest, hrn, heven, hbuf, hi, hc⟩
        · rw [hp, ← hi, ← hc]
          exact StreamToEof.tok t _ _ _ _ hne hs
        · rw [hp]
          refine StreamToEof.tok t _ _ _ _ hne ?_
          refine StreamToEof.line _ _ line rest _ hrn heven ?_
          rw [hbuf, ← hi, ← hc]
          exact hs
      · simp at h

theorem indentTokens_kinds (current : Nat) (line : LineTokenizer) :
    ∀ t ∈ indentTokens current line, t = Token.Indent ∨ t = Token.Dedent := by
  intro t ht
  unfold indentTokens at ht
  split at ht
  · exact Or.inr (List.eq_of_mem_replicate ht)
  · split at ht
    · exact Or.inl (List.eq_of_mem_replicate ht)
    · exact Or.inr (List.eq_of_mem_replicate ht)

theorem no_eof_in_line (ind sub : List Token)
    (hind : ∀ t ∈ ind, t = Token.Indent ∨ t = Token.Dedent)
    (hsub : ∀ t ∈ sub, t.isSubstantive = true) :
    Token.Eof ∉ ind ++ sub ++ [Token.Newline] := by
  intro hm
  simp only [List.mem_append, List.mem_singleton] at hm
  rcases hm with (hm | hm) | hm
  · rcases hind _ hm with h | h <;> exact absurd h (by decide)
  · exact absurd (hsub _ hm) (by decide)
  · exact absurd hm (by decide)

/-- From an empty buffer and a text without blank or comment-only lines the lexer hands
out, up to `Eof`, the token sequence of as many logical lines as the text has lines; when
the text does not end in a newline the sequence ends in `Newline Eof`. -/
theorem StreamToEof_lines (n : Nat) : ∀ (input : List Char), input.length ≤ n →
    ∀ (indent : Nat) (out : List Token), StreamToEof [] input indent out →
    (∀ l ∈ sourceLines input, isBlankText l = false) →
    LineTokens (sourceLines input).length out ∧
    (input ≠ [] → input.getLast? ≠ some NEW_LINE_SIGN →
      ∃ front, out = front ++ [Token.Newline, Token.Eof]) := by
  induction n with
  | zero =>
    intro input hlen indent out hs _
    have hnil : input = [] := List.length_eq_zero.1 (Nat.le_zero.1 hlen)
    subst hnil
    cases hs with
    | line _ _ line rest _ hread heven hs1 =>
      have hl : line = ⟨0, [Token.Eof]⟩ ∧ rest = [] := by
        have : ReadNonEmptyLine ([] : List Char).length.succ [] =
            .ok (⟨0, [Token.Eof]⟩, []) := rfl
        rw [this] at hread
        simp only [Except.ok.injEq, Prod.mk.injEq] at hread
        exact ⟨hread.1.symm, hread.2.symm⟩
      obtain ⟨hl1, hl2⟩ := hl
      subst hl1
      subst hl2
      have hbuf : indentTokens indent ⟨0, [Token.Eof]⟩ ++ [Token.Eof] =
          List.replicate (indent / 2) Token.Dedent ++ Token.Eof :: [] := rfl
      simp only at hs1
      rw [hbuf] at hs1
      have hno : Token.Eof ∉ List.replicate (indent / 2) Token.Dedent := by
        intro hm
        exact absurd (List.eq_of_mem_replicate hm) (by decide)
      rw [StreamToEof_eof _ _ _ _ _ hno hs1]
      exact ⟨LineTokens.last _ (fun t ht => List.eq_of_mem_replicate ht),
        fun h => absurd rfl h⟩
  | succ n ih =>
    intro input hlen indent out hs hlines
    by_cases hnil : input = []
    · subst hnil
      cases hs with
      | line _ _ line rest _ hread heven hs1 =>
        have hl : line = ⟨0, [Token.Eof]⟩ ∧ rest = [] := by
          have : ReadNonEmptyLine ([] : List Char).length.succ [] =
              .ok (⟨0, [Token.Eof]⟩, []) := rfl
          rw [this] at hread
          simp only [Except.ok.injEq, Prod.mk.injEq] at hread
          exact ⟨hread.1.symm, hread.2.symm⟩
        obtain ⟨hl1, hl2⟩ := hl
        subst hl1
        subst hl2
        have hbuf : indentTokens indent ⟨0, [Token.Eof]⟩ ++ [Token.Eof] =
            List.replicate (indent / 2) Token.Dedent ++ Token.Eof :: [] := rfl
        simp only at hs1
        rw [hbuf] at hs1
        have hno : Token.Eof ∉ List.replicate (indent / 2) Token.Dedent := by
          intro hm
          exact absurd (List.eq_of_mem_replicate hm) (by decide)
        rw [StreamToEof_eof _ _ _ _ _ hno hs1]
        exact ⟨LineTokens.last _ (fun t ht => List.eq_of_mem_replicate ht),
          fun h => absurd rfl h⟩
    · obtain ⟨pre, T, hin, hpre, hT⟩ := split_first_newline input
      cases hs with
      | line _ _ line rest _ hread heven hs1 =>
        have hfirst : isBlankText pre = false ∧
            (∀ X, T = NEW_LINE_SIGN :: X → ∀ l ∈ sourceLines X, isBlankText l = false) := by
          rcases hT with hT | ⟨X, hT⟩
          · subst hT
            simp only [List.append_nil] at hin
            subst hin
            rw [sourceLines_single input hpre hnil] at hlines
            exact ⟨hlines _ (by simp), fun X hX => by simp at hX⟩
          · subst hT
            subst hin
            rw [sourceLines_first pre X hpre] at hlines
            refine ⟨hlines _ (by simp), fun Y hY l hl => ?_⟩
            simp only [List.cons.injEq, true_and] at hY
            subst hY
            exact hlines l (by simp [hl])
        obtain ⟨hb, hrestlines⟩ := hfirst
        simp only [ReadNonEmptyLine] at hread
        cases hrl : ReadLine input with
        | error e => rw [hrl] at hread; simp at hread
        | ok p =>
          obtain ⟨line0, rest0⟩ := p
          rw [hrl] at hread
          rw [hin] at hrl
          obtain ⟨hrest, sub, hne, hsub, hend1, hend2⟩ :=
            first_line_nonblank pre T hpre hT hb line0 rest0 hrl
          have hemp : line0.IsEmpty = false := by
            unfold LineTokenizer.IsEmpty
            by_cases hTn : T = []
            · rw [hend1 hTn]
              exact not_all_of_substantive sub _ Token.Newline hne hsub rfl
            · rw [hend2 hTn]
              exact not_all_of_substantive sub _ Token.Newline hne hsub rfl
          simp only [hemp, Bool.false_eq_true, if_false, Except.ok.injEq, Prod.mk.injEq] at hread
          obtain ⟨hl1, hl2⟩ := hread
          subst hl1
          subst hl2
          have hkinds := indentTokens_kinds indent line0
          rcases hT with hT | ⟨X, hT⟩
          · subst hT
            simp only [List.append_nil] at hin
            subst hin
            rw [hend1 rfl] at hs1
            have e : indentTokens indent line0 ++ (sub ++ [Token.Newline, Token.Eof]) =
                (indentTokens indent line0 ++ sub ++ [Token.Newline]) ++ Token.Eof :: [] := by
              simp
            rw [e] at hs1
            rw [StreamToEof_eof _ _ _ _ _ (no_eof_in_line _ _ hkinds hsub) hs1]
            rw [sourceLines_single input hpre hnil]
            refine ⟨?_, fun _ _ => ⟨indentTokens indent line0 ++ sub, by simp⟩⟩
            have := LineTokens.line 0 (indentTokens indent line0) sub ([] ++ [Token.Eof])
              hkinds hne hsub (LineTokens.last [] (by simp))
            simpa using this
          · subst hT
            subst hin
            rw [hend2 (by simp)] at hs1
            rw [← List.append_assoc] at hs1
            obtain ⟨out2, hout, hs2⟩ := StreamToEof_no_eof _ _ _ _
              (no_eof_in_line _ _ hkinds hsub) hs1
            simp only [List.tail_cons] at hrest
            rw [hrest] at hs2
            have hXlen : X.length ≤ n := by
              simp only [List.length_append, List.length_cons] at hlen
              omega
            obtain ⟨ih1, ih2⟩ := ih X hXlen _ out2 hs2 (hrestlines X rfl)
            rw [sourceLines_first pre X hpre, hout]
            refine ⟨?_, ?_⟩
            · have := LineTokens.line _ (indentTokens indent line0) sub out2 hkinds hne hsub ih1
              simpa using this
            · intro _ hlast
              have hXne : X ≠ [] := by
                intro hX
                subst hX
                simp at hlast
              have hXlast : X.getLast? ≠ some NEW_LINE_SIGN := by
                intro hX
                apply hlast
                rw [show pre ++ NEW_LINE_SIGN :: X = (pre ++ [NEW_LINE_SIGN]) ++ X by simp]
                rw [List.getLast?_append]
                rw [hX]
                rfl
              obtain ⟨front, hfront⟩ := ih2 hXne hXlast
              exact ⟨indentTokens indent line0 ++ sub ++ [Token.Newline] ++ front, by
                rw [hfront]; simp⟩

/-- For a source without blank or comment-only lines that the lexer reads to its
first `Eof` without an exception (the constructor and `n` calls of `NextToken`, for any
`n`), the tokens up to `Eof` hold as many `Newline` tokens as the source has lines; they
are, line by line, optional `Indent` or `Dedent` tokens, the substantive tokens of the
line (at least one) and exactly one `Newline`, closed by optional `Dedent` tokens and
`Eof`; and when the source does not end in a newline character the tokens still end in
`Newline Eof`. -/
theorem tokens_to_eof_by_line (source : String) (n : Nat) (t : Token) (lx : Lexer)
    (ts : List Token)
    (hlines : ∀ l ∈ sourceLines source.toList, isBlankText l = false)
    (hnew : Lexer.new source.toList = .ok (t, lx))
    (hok : tokensToEofFrom n t lx = some ts) :
    ts.count Token.Newline = (sourceLines source.toList).length ∧
    LineTokens (sourceLines source.toList).length ts ∧
    (source.toList ≠ [] → source.toList.getLast? ≠ some NEW_LINE_SIGN →
      ∃ front, ts = front ++ [Token.Newline, Token.Eof]) := by
  have hr0 : Lexer.IndexInRange ⟨source.toList, [], 0, -1⟩ := ⟨by simp, by simp⟩
  obtain ⟨hr, hcase⟩ := NextToken_pending _ hr0 t lx hnew
  have hs := tokensToEofFrom_stream n t lx ts hr hok
  have hs0 : StreamToEof [] source.toList 0 ts := by
    rcases hcase with ⟨hp, _, _⟩ | ⟨_, line, rest, hrn, heven, hbuf, hi, hc⟩
    · simp [Lexer.pending] at hp
    · refine StreamToEof.line _ _ line rest _ hrn heven ?_
      simp only at hbuf
      rw [hbuf, ← hi, ← hc]
      exact hs
  obtain ⟨h1, h2⟩ := StreamToEof_lines source.toList.length source.toList (Nat.le_refl _) 0 ts
    hs0 hlines
  exact ⟨LineTokens_count _ _ h1, h1, h2⟩

theorem ReadNonEmptyLine_rest (fuel : Nat) :
    ∀ (input : List Char) (line : LineTokenizer) (rest : List Char),
      ReadNonEmptyLine fuel input = .ok (line, rest) →
      (Token.Eof ∈ line.tokens_ ∧ rest = []) ∨ rest.length < input.length := by
  induction fuel with
  | zero => intro input line rest h; simp [ReadNonEmptyLine] at h
  | succ fuel ih =>
    intro input line rest h
    simp only [ReadNonEmptyLine] at h
    cases hr : ReadLine input with
    | error e => rw [hr] at h; simp at h
    | ok p =>
      obtain ⟨line1, rest1⟩ := p
      rw [hr] at h
      simp only at h
      by_cases hemp : line1.IsEmpty = true
      · simp only [hemp, if_true] at h
        rcases ReadLine_rest input line1 rest1 hr with ⟨heof, _⟩ | hlt
        · exact absurd heof (IsEmpty_no_eof line1 hemp)
        · rcases ih rest1 line rest h with h1 | h1
          · exact Or.inl h1
          · exact Or.inr (by omega)
      · simp only [hemp, Bool.false_eq_true, if_false, Except.ok.injEq, Prod.mk.injEq] at h
        rw [← h.1, ← h.2]
        exact ReadLine_rest input line1 rest1 hr

theorem NoErrorBeforeEof_next (lx : Lexer) (h : lx.NoErrorBeforeEof) :
    ∃ t1 lx1, lx.NextToken = .ok (t1, lx1) ∧ (t1 ≠ Token.Eof → lx1.NoErrorBeforeEof) := by
  cases hn : lx.NextToken with
  | error e =>
    have h1 := h 1 e (by simp [nextTokens, hn])
    simp [nextTokens, hn] at h1
  | ok p =>
    obtain ⟨t1, lx1⟩ := p
    refine ⟨t1, lx1, rfl, ?_⟩
    intro hne n e he
    have h1 := h (n + 1) e (by simp [nextTokens, hn, he])
    simp only [nextTokens, hn, List.mem_cons, Except.ok.injEq] at h1
    rcases h1 with h1 | h1
    · exact absurd h1.symm hne
    · exact h1

theorem tokensToEofFrom_step (n : Nat) (t t1 : Token) (lx lx1 : Lexer) (ts : List Token)
    (hne : t ≠ Token.Eof) (hn : lx.NextToken = .ok (t1, lx1))
    (h : tokensToEofFrom n t1 lx1 = some ts) :
    tokensToEofFrom (n + 1) t lx = some (t :: ts) := by
  simp only [tokensToEofFrom, hne, if_false, hn, h, Option.map_some']

theorem tokensToEofFrom_eof (n : Nat) (lx : Lexer) :
    tokensToEofFrom n Token.Eof lx = some [Token.Eof] := by
  cases n <;> simp [tokensToEofFrom]

/-- When an `Eof` is among the current and the pending tokens, it is reached. -/
theorem reaches_pending_eof (k : Nat) : ∀ (lx : Lexer) (t : Token), lx.IndexInRange →
    lx.pending.length ≤ k → lx.NoErrorBeforeEof → Token.Eof ∈ t :: lx.pending →
    ∃ n ts, tokensToEofFrom n t lx = some ts := by
  induction k with
  | zero =>
    intro lx t _ hk _ hmem
    have hnil : lx.pending = [] := List.length_eq_zero.1 (Nat.le_zero.1 hk)
    rw [hnil] at hmem
    simp only [List.mem_singleton] at hmem
    rw [← hmem]
    exact ⟨0, _, tokensToEofFrom_eof 0 lx⟩
  | succ k ih =>
    intro lx t hr hk hno hmem
    by_cases ht : t = Token.Eof
    · rw [ht]
      exact ⟨0, _, tokensToEofFrom_eof 0 lx⟩
    · obtain ⟨t1, lx1, hn, hno1⟩ := NoErrorBeforeEof_next lx hno
      by_cases ht1 : t1 = Token.Eof
      · subst ht1
        exact ⟨1, _, tokensToEofFrom_step 0 t _ lx lx1 _ ht hn (tokensToEofFrom_eof 0 lx1)⟩
      · obtain ⟨hr1, hcase⟩ := NextToken_pending lx hr t1 lx1 hn
        rcases hcase with ⟨hp, _, _⟩ | ⟨hp, _⟩
        · have hmem1 : Token.Eof ∈ t1 :: lx1.pending := by
            rw [← hp]
            rcases List.mem_cons.1 hmem with h | h
            · exact absurd h.symm ht
            · exact h
          have hk1 : lx1.pending.length ≤ k := by
            rw [hp] at hk
            simp only [List.length_cons] at hk
            omega
          obtain ⟨n, ts, hts⟩ := ih lx1 t1 hr1 hk1 (hno1 ht1) hmem1
          exact ⟨n + 1, _, tokensToEofFrom_step n t t1 lx lx1 ts ht hn hts⟩
        · rw [hp] at hmem
          simp only [List.mem_singleton] at hmem
          exact absurd hmem.symm ht

/-- A lexer that raises no exception before `Eof` returns `Eof` after finitely many
`NextToken` calls: every call hands out a pending token or reads at least one character
of the input, unless the new buffer holds the `Eof`. -/
theorem reaches_eof (m : Nat) : ∀ (k : Nat) (lx : Lexer) (t : Token), lx.IndexInRange →
    lx.input_.length < m → lx.pending.length < k → lx.NoErrorBeforeEof →
    ∃ n ts, tokensToEofFrom n t lx = some ts := by
  induction m with
  | zero => intro k lx t _ hm; omega
  | succ m ihm =>
    intro k
    induction k with
    | zero => intro lx t _ _ hk; omega
    | succ k ihk =>
      intro lx t hr hm hk hno
      by_cases ht : t = Token.Eof
      · rw [ht]
        exact ⟨0, _, tokensToEofFrom_eof 0 lx⟩
      · obtain ⟨t1, lx1, hn, hno1⟩ := NoErrorBeforeEof_next lx hno
        by_cases ht1 : t1 = Token.Eof
        · subst ht1
          exact ⟨1, _, tokensToEofFrom_step 0 t _ lx lx1 _ ht hn (tokensToEofFrom_eof 0 lx1)⟩
        · obtain ⟨hr1, hcase⟩ := NextToken_pending lx hr t1 lx1 hn
          rcases hcase with ⟨hp, hi, _⟩ | ⟨_, line, rest, hrn, _, hbuf, hi, _⟩
          · have hk1 : lx1.pending.length < k := by
              rw [hp] at hk
              simp only [List.length_cons] at hk
              omega
            obtain ⟨n, ts, hts⟩ := ihk lx1 t1 hr1 (by rw [hi]; exact hm) hk1 (hno1 ht1)
            exact ⟨n + 1, _, tokensToEofFrom_step n t t1 lx lx1 ts ht hn hts⟩
          · rcases ReadNonEmptyLine_rest _ _ line rest hrn with ⟨heof, _⟩ | hlt
            · have hmem1 : Token.Eof ∈ t1 :: lx1.pending := by
                rw [← hbuf]
                exact List.mem_append_right _ heof
              obtain ⟨n, ts, hts⟩ := reaches_pending_eof lx1.pending.length lx1 t1 hr1
                (Nat.le_refl _) (hno1 ht1) hmem1
              exact ⟨n + 1, _, tokensToEofFrom_step n t t1 lx lx1 ts ht hn hts⟩
            · obtain ⟨n, ts, hts⟩ := ihm (lx1.pending.length + 1) lx1 t1 hr1
                (by rw [hi]; omega) (Nat.lt_succ_self _) (hno1 ht1)
              exact ⟨n + 1, _, tokensToEofFrom_step n t t1 lx lx1 ts ht hn hts⟩

theorem nextTokens_initial (n : Nat) : ∀ (m : Nat) (lx : Lexer),
    nextTokens n lx <+: nextTokens (n + m) lx := by
  induction n with
  | zero => intro m lx; simp [nextTokens]
  | succ n ih =>
    intro m lx
    have e : n + 1 + m = (n + m) + 1 := by omega
    rw [e]
    simp only [nextTokens]
    cases hn : lx.NextToken with
    | error e => simp
    | ok p =>
      obtain ⟨t1, lx1⟩ := p
      simp only
      exact (List.prefix_cons_inj _).2 (ih m lx1)

theorem tokenStream_initial (n m : Nat) (source : String) :
    tokenStream n source <+: tokenStream (n + m) source := by
  unfold tokenStream
  cases hn : Lexer.new source.toList with
  | error e => simp
  | ok p =>
    obtain ⟨t, lx⟩ := p
    simp only
    exact (List.prefix_cons_inj _).2 (nextTokens_initial n m lx)

/-- A source whose first `k + 1` results are tokens, one of them `Eof`, tokenizes without
error. -/
theorem TokenizesWithoutError_of_stream (source : String) (k : Nat)
    (hok : ∀ r ∈ tokenStream k source, ∃ t, r = Except.ok t)
    (heof : Except.ok Token.Eof ∈ tokenStream k source) : TokenizesWithoutError source := by
  intro n e he
  rcases Nat.le_total n k with hle | hle
  · obtain ⟨d, hd⟩ := Nat.exists_eq_add_of_le hle
    have hp := tokenStream_initial n d source
    rw [← hd] at hp
    obtain ⟨t, ht⟩ := hok _ (hp.subset he)
    cases ht
  · obtain ⟨d, hd⟩ := Nat.exists_eq_add_of_le hle
    have hp := tokenStream_initial k d source
    rw [← hd] at hp
    exact hp.subset heof

theorem TokenizesWithoutError_start (source : String) (h : TokenizesWithoutError source) :
    ∃ t lx, Lexer.new source.toList = .ok (t, lx) ∧ (t ≠ Token.Eof → lx.NoErrorBeforeEof) := by
  cases hn : Lexer.new source.toList with
  | error e =>
    have e0 : tokenStream 0 source = [.error e] := by
      unfold tokenStream
      rw [hn]
    have h1 := h 0 e (by rw [e0]; exact List.mem_singleton.2 rfl)
    rw [e0] at h1
    simp at h1
  | ok p =>
    obtain ⟨t, lx⟩ := p
    refine ⟨t, lx, rfl, ?_⟩
    intro hne n e he
    have e0 : tokenStream n source = .ok t :: nextTokens n lx := by
      unfold tokenStream
      rw [hn]
    have h1 := h n e (by rw [e0]; exact List.mem_cons_of_mem _ he)
    rw [e0] at h1
    simp only [List.mem_cons, Except.ok.injEq] at h1
    rcases h1 with h1 | h1
    · exact absurd h1.symm hne
    · exact h1

/-- The tokens up to the first `Eof` do not depend on the bound on the number of calls. -/
theorem tokensToEofFrom_unique (n : Nat) : ∀ (t : Token) (lx : Lexer) (ts : List Token),
    tokensToEofFrom n t lx = some ts →
    ∀ n2 ts2, tokensToEofFrom n2 t lx = some ts2 → ts2 = ts := by
  induction n with
  | zero =>
    intro t lx ts h n2 ts2 h2
    simp only [tokensToEofFrom] at h
    split at h
    · next ht =>
      subst ht
      rw [tokensToEofFrom_eof] at h2
      simp only [Option.some.injEq] at h h2
      rw [← h, ← h2]
    · simp at h
  | succ n ih =>
    intro t lx ts h n2 ts2 h2
    by_cases ht : t = Token.Eof
    · subst ht
      rw [tokensToEofFrom_eof] at h h2
      simp only [Option.some.injEq] at h h2
      rw [← h, ← h2]
    · cases n2 with
      | zero => simp [tokensToEofFrom, ht] at h2
      | succ n2 =>
        simp only [tokensToEofFrom, ht, if_false] at h h2
        cases hn : lx.NextToken with
        | error e => rw [hn] at h; simp at h
        | ok p =>
          obtain ⟨t1, lx1⟩ := p
          rw [hn] at h h2
          simp only at h h2
          cases h1 : tokensToEofFrom n t1 lx1 with
          | none => rw [h1] at h; simp at h
          | some r =>
            cases h3 : tokensToEofFrom n2 t1 lx1 with
            | none => rw [h3] at h2; simp at h2
            | some r2 =>
              rw [h1] at h
              rw [h3] at h2
              simp only [Option.map_some', Option.some.injEq] at h h2
              rw [← h, ← h2, ih t1 lx1 r h1 n2 r2 h3]

/-- C14: a source without blank or comment-only lines that tokenizes without error is
read to its first `Eof` by the constructor and finitely many calls of `NextToken`, and
the tokens up to that `Eof` hold as many `Newline` tokens as the source has lines; they
are, line by line, optional `Indent` or `Dedent` tokens, the substantive tokens of the
line (at least one) and exactly one `Newline`, closed by optional `Dedent` tokens and
`Eof`; and when the source does not end in a newline character the tokens still end in
`Newline Eof`. -/
theorem C14_newline_per_logical_line (source : String)
    (hlines : ∀ l ∈ sourceLines source.toList, isBlankText l = false)
    (hok : TokenizesWithoutError source) :
    ∃ (t : Token) (lx : Lexer) (n : Nat) (ts : List Token),
      Lexer.new source.toList = .ok (t, lx) ∧
      tokensToEofFrom n t lx = some ts ∧
      (∀ n2 ts2, tokensToEofFrom n2 t lx = some ts2 → ts2 = ts) ∧
      ts.count Token.Newline = (sourceLines source.toList).length ∧
      LineTokens (sourceLines source.toList).length ts ∧
      (source.toList ≠ [] → source.toList.getLast? ≠ some NEW_LINE_SIGN →
        ∃ front, ts = front ++ [Token.Newline, Token.Eof]) := by
  obtain ⟨t, lx, hnew, hno⟩ := TokenizesWithoutError_start source hok
  have hr0 : Lexer.IndexInRange ⟨source.toList, [], 0, -1⟩ := ⟨by simp, by simp⟩
  obtain ⟨hr, _⟩ := NextToken_pending _ hr0 t lx hnew
  have hex : ∃ n ts, tokensToEofFrom n t lx = some ts := by
    by_cases ht : t = Token.Eof
    · rw [ht]
      exact ⟨0, _, tokensToEofFrom_eof 0 lx⟩
    · exact reaches_eof (lx.input_.length + 1) (lx.pending.length + 1) lx t hr
        (Nat.lt_succ_self _) (Nat.lt_succ_self _) (hno ht)
  obtain ⟨n, ts, hts⟩ := hex
  obtain ⟨h1, h2, h3⟩ := tokens_to_eof_by_line source n t lx ts hlines hnew hts
  exact ⟨t, lx, n, ts, hnew, hts, tokensToEofFrom_unique n t lx ts hts, h1, h2, h3⟩


/-- Witness of C14: the source `if x:` / `  y` without a final newline has two lines and
its tokens up to `Eof` hold two `Newline` tokens, the last one before `Eof`. -/
theorem C14_newline_per_logical_line_witness :
    (∃ (t : Token) (lx : Lexer) (n : Nat) (ts : List Token),
      Lexer.new "if x:\n  y".toList = .ok (t, lx) ∧
      tokensToEofFrom n t lx = some ts ∧
      (∀ n2 ts2, tokensToEofFrom n2 t lx = some ts2 → ts2 = ts) ∧
      ts.count Token.Newline = (sourceLines "if x:\n  y".toList).length ∧
      LineTokens (sourceLines "if x:\n  y".toList).length ts ∧
      ("if x:\n  y".toList ≠ [] → "if x:\n  y".toList.getLast? ≠ some NEW_LINE_SIGN →
        ∃ front, ts = front ++ [Token.Newline, Token.Eof])) ∧
    tokensToEof "if x:\n  y" =
      some [Token.If, Token.Id "x", Token.Char ':', Token.Newline, Token.Indent,
            Token.Id "y", Token.Newline, Token.Eof] :=
  ⟨C14_newline_per_logical_line "if x:\n  y" (by decide)
    (TokenizesWithoutError_of_stream "if x:\n  y" 7
      (by
        have e : tokenStream 7 "if x:\n  y" =
            [.ok Token.If, .ok (Token.Id "x"), .ok (Token.Char ':'), .ok Token.Newline,
             .ok Token.Indent, .ok (Token.Id "y"), .ok Token.Newline, .ok Token.Eof] := rfl
        rw [e]
        intro r hr
        simp only [List.mem_cons, List.mem_singleton, List.not_mem_nil, or_false] at hr
        rcases hr with h | h | h | h | h | h | h | h <;> exact ⟨_, h⟩)
      (by
        have e : tokenStream 7 "if x:\n  y" =
            [.ok Token.If, .ok (Token.Id "x"), .ok (Token.Char ':'), .ok Token.Newline,
             .ok Token.Indent, .ok (Token.Id "y"), .ok Token.Newline, .ok Token.Eof] := rfl
        rw [e]
        simp)), rfl⟩

end parse

/-! ## Runtime: theorems -/

namespace runtime

theorem mapFind_mapSet {α : Type} (l : List (String × α)) (k : String) (v : α) (k2 : String) :
    mapFind (mapSet l k v) k2 = if k = k2 then some v else mapFind l k2 := by
  induction l with
  | nil => simp [mapSet, mapFind]
  | cons p rest ih =>
    obtain ⟨k1, v1⟩ := p
    simp only [mapSet]
    by_cases h1 : k1 = k
    · simp only [h1, if_true, mapFind]
      by_cases h2 : k = k2 <;> simp [h2]
    · simp only [h1, if_false, mapFind, ih]
      by_cases h2 : k1 = k2
      · have h3 : ¬ k = k2 := fun h => h1 (h2.trans h.symm)
        simp [h2, h3]
      · simp [h2]

theorem buildIndex_find (methods : List Method) (name : String) :
    ∀ (i : Nat) (index : List (String × Nat)),
      mapFind (Class.buildIndex methods i index) name =
        match lastIndexNamed methods name i with
        | some j => some j
        | none => mapFind index name := by
  induction methods with
  | nil => intro i index; simp [Class.buildIndex, lastIndexNamed]
  | cons m rest ih =>
    intro i index
    simp only [Class.buildIndex, lastIndexNamed]
    rw [ih]
    cases h : lastIndexNamed rest name (i + 1) with
    | some j => simp
    | none =>
      simp only [mapFind_mapSet]
      by_cases hm : m.name = name <;> simp [hm]

theorem lastIndexNamed_none (methods : List Method) (name : String) :
    ∀ i, lastIndexNamed methods name i = none ↔ ∀ m ∈ methods, m.name ≠ name := by
  induction methods with
  | nil => intro i; simp [lastIndexNamed]
  | cons m rest ih =>
    intro i
    simp only [lastIndexNamed]
    cases h : lastIndexNamed rest name (i + 1) with
    | some j =>
      have hn : ¬ ∀ m ∈ rest, m.name ≠ name := by
        intro hall
        rw [(ih (i + 1)).2 hall] at h
        cases h
      simp only [reduceCtorEq, false_iff]
      intro hall
      exact hn (fun m2 hm2 => hall m2 (List.mem_cons_of_mem _ hm2))
    | none =>
      have hall := (ih (i + 1)).1 h
      by_cases hm : m.name = name
      · simp [hm]
      · simp only [hm, if_false, true_iff]
        intro m2 hm2
        rcases List.mem_cons.1 hm2 with h2 | h2
        · rw [h2]; exact hm
        · exact hall m2 h2

theorem lastIndexNamed_some (methods : List Method) (name : String) :
    ∀ i j, lastIndexNamed methods name i = some j →
      i ≤ j ∧ ∃ m, methods.get? (j - i) = some m ∧ m.name = name ∧
        ∀ j2 m2, j - i < j2 → methods.get? j2 = some m2 → m2.name ≠ name := by
  induction methods with
  | nil => intro i j h; simp [lastIndexNamed] at h
  | cons m rest ih =>
    intro i j h
    simp only [lastIndexNamed] at h
    cases h1 : lastIndexNamed rest name (i + 1) with
    | some j1 =>
      rw [h1] at h
      simp only [Option.some.injEq] at h
      subst h
      obtain ⟨hle, m1, hget, hname, hlast⟩ := ih (i + 1) j1 h1
      refine ⟨by omega, m1, ?_, hname, ?_⟩
      · have : j1 - i = (j1 - (i + 1)) + 1 := by omega
        rw [this]
        simpa using hget
      · intro j2 m2 hlt hget2
        cases j2 with
        | zero => omega
        | succ j3 =>
          simp only [List.get?_cons_succ] at hget2
          exact hlast j3 m2 (by omega) hget2
    | none =>
      rw [h1] at h
      by_cases hm : m.name = name
      · simp only [hm, if_true, Option.some.injEq] at h
        subst h
        refine ⟨le_refl _, m, by simp, hm, ?_⟩
        intro j2 m2 hlt hget2
        cases j2 with
        | zero => omega
        | succ j3 =>
          simp only [List.get?_cons_succ] at hget2
          have hmem : m2 ∈ rest := List.get?_mem hget2
          exact (lastIndexNamed_none rest name (i + 1)).1 h1 m2 hmem
      · simp [hm] at h

theorem GetMethod_unfold (name_ : String) (methods_ : List Method) (parent_ : Option Class)
    (name : String) :
    (Class.mk name_ methods_ parent_).GetMethod name =
      match lastIndexNamed methods_ name 0 with
      | some j => methods_.get? j
      | none =>
        match parent_ with
        | some p => p.GetMethod name
        | none => none := by
  cases parent_ with
  | none =>
    rw [Class.GetMethod]
    simp only [Class.methods_by_name_, Class.methods_]
    rw [buildIndex_find]
    cases h : lastIndexNamed methods_ name 0 <;> simp [mapFind]
  | some p =>
    rw [Class.GetMethod]
    simp only [Class.methods_by_name_, Class.methods_]
    rw [buildIndex_find]
    cases h : lastIndexNamed methods_ name 0 <;> simp [mapFind]

theorem declares_iff_lastIndexNamed (cls : Class) (name : String) :
    ¬ cls.declares name ↔ lastIndexNamed cls.methods_ name 0 = none := by
  rw [lastIndexNamed_none]
  unfold Class.declares
  constructor
  · intro h m hm hname; exact h ⟨m, hm, hname⟩
  · rintro h ⟨m, hm, hname⟩; exact h m hm hname

theorem own_method_of_declares (cls : Class) (name : String) (h : cls.declares name) :
    ∃ j m, lastIndexNamed cls.methods_ name 0 = some j ∧ cls.methods_.get? j = some m ∧
      IsLastNamed cls.methods_ name m := by
  cases hj : lastIndexNamed cls.methods_ name 0 with
  | none => exact absurd h ((declares_iff_lastIndexNamed cls name).2 hj)
  | some j =>
    obtain ⟨_, m, hget, hname, hlast⟩ := lastIndexNamed_some cls.methods_ name 0 j hj
    simp only [Nat.sub_zero] at hget hlast
    exact ⟨j, m, rfl, hget, ⟨j, hget, hname, hlast⟩⟩

/-- `GetMethod` on a class chain: nothing iff no class of the chain declares the name,
otherwise the last method of that name in the nearest class that declares it. -/
theorem GetMethod_chain : ∀ (C : Class) (name : String),
    (C.GetMethod name = none ↔ ∀ D ∈ C.chain, ¬ D.declares name) ∧
    (∀ (pre post : List Class) (D : Class), C.chain = pre ++ D :: post →
      (∀ E ∈ pre, ¬ E.declares name) → D.declares name →
      ∃ m, C.GetMethod name = some m ∧ IsLastNamed D.methods_ name m)
  | .mk name_ methods_ none, name => by
    have hchain : (Class.mk name_ methods_ none).chain = [Class.mk name_ methods_ none] := by
      simp [Class.chain]
    rw [GetMethod_unfold, hchain]
    constructor
    · cases hj : lastIndexNamed methods_ name 0 with
      | none =>
        simp only [List.mem_singleton, forall_eq, true_iff]
        exact (declares_iff_lastIndexNamed (Class.mk name_ methods_ none) name).2 hj
      | some j =>
        obtain ⟨_, m, hget, _, _⟩ := lastIndexNamed_some methods_ name 0 j hj
        simp only [Nat.sub_zero] at hget
        simp only [hget]
        constructor
        · intro h; cases h
        · intro h
          have hnd := (declares_iff_lastIndexNamed _ name).1 (h _ (List.mem_singleton.2 rfl))
          simp only [Class.methods_] at hnd
          rw [hnd] at hj
          cases hj
    · intro pre post D hpre hnot hdecl
      cases pre with
      | nil =>
        simp only [List.nil_append, List.cons.injEq] at hpre
        have hD := hpre.1
        subst hD
        obtain ⟨j, m, hj, hget, hlast⟩ := own_method_of_declares _ name hdecl
        simp only [Class.methods_] at hj hget
        rw [hj]
        exact ⟨m, hget, hlast⟩
      | cons E pre2 =>
        simp only [List.cons_append, List.cons.injEq] at hpre
        have := hpre.2
        simp at this
  | .mk name_ methods_ (some p), name => by
    have ih := GetMethod_chain p name
    have hchain : (Class.mk name_ methods_ (some p)).chain =
        Class.mk name_ methods_ (some p) :: p.chain := by
      simp [Class.chain]
    rw [GetMethod_unfold, hchain]
    constructor
    · cases hj : lastIndexNamed methods_ name 0 with
      | none =>
        simp only [List.mem_cons, forall_eq_or_imp]
        rw [ih.1]
        constructor
        · intro h
          exact ⟨(declares_iff_lastIndexNamed (Class.mk name_ methods_ (some p)) name).2 hj, h⟩
        · intro h; exact h.2
      | some j =>
        obtain ⟨_, m, hget, _, _⟩ := lastIndexNamed_some methods_ name 0 j hj
        simp only [Nat.sub_zero] at hget
        simp only [hget]
        constructor
        · intro h; cases h
        · intro h
          have hnd := (declares_iff_lastIndexNamed _ name).1 (h _ (List.mem_cons_self _ _))
          simp only [Class.methods_] at hnd
          rw [hnd] at hj
          cases hj
    · intro pre post D hpre hnot hdecl
      cases pre with
      | nil =>
        simp only [List.nil_append, List.cons.injEq] at hpre
        have hD := hpre.1
        subst hD
        obtain ⟨j, m, hj, hget, hlast⟩ := own_method_of_declares _ name hdecl
        simp only [Class.methods_] at hj hget
        rw [hj]
        exact ⟨m, hget, hlast⟩
      | cons E pre2 =>
        simp only [List.cons_append, List.cons.injEq] at hpre
        have hE : ¬ E.declares name := hnot E (List.mem_cons_self _ _)
        rw [← hpre.1] at hE
        have hj := (declares_iff_lastIndexNamed _ name).1 hE
        simp only [Class.methods_] at hj
        rw [hj]
        exact ih.2 pre2 post D hpre.2
          (fun E2 hE2 => hnot E2 (List.mem_cons_of_mem _ hE2)) hdecl

theorem IsLastNamed_mem (methods : List Method) (name : String) (m : Method)
    (h : IsLastNamed methods name m) : m ∈ methods ∧ m.name = name := by
  obtain ⟨j, hget, hname, _⟩ := h
  exact ⟨List.get?_mem hget, hname⟩

/-- A method that `GetMethod` returns is declared, under that name, by a class of the
chain. -/
theorem GetMethod_some_mem : ∀ (C : Class) (name : String) (m : Method),
    C.GetMethod name = some m → ∃ D ∈ C.chain, m ∈ D.methods_ ∧ m.name = name
  | .mk name_ methods_ none, name, m => by
    intro h
    rw [GetMethod_unfold] at h
    cases hj : lastIndexNamed methods_ name 0 with
    | none => rw [hj] at h; cases h
    | some j =>
      rw [hj] at h
      simp only at h
      obtain ⟨_, m1, hget, hname, _⟩ := lastIndexNamed_some methods_ name 0 j hj
      simp only [Nat.sub_zero] at hget
      rw [hget] at h
      simp only [Option.some.injEq] at h
      subst h
      exact ⟨Class.mk name_ methods_ none, by simp [Class.chain], List.get?_mem hget, hname⟩
  | .mk name_ methods_ (some p), name, m => by
    intro h
    rw [GetMethod_unfold] at h
    cases hj : lastIndexNamed methods_ name 0 with
    | none =>
      rw [hj] at h
      simp only at h
      obtain ⟨D, hD, hm⟩ := GetMethod_some_mem p name m h
      exact ⟨D, by simp [Class.chain, hD], hm⟩
    | some j =>
      rw [hj] at h
      simp only at h
      obtain ⟨_, m1, hget, hname, _⟩ := lastIndexNamed_some methods_ name 0 j hj
      simp only [Nat.sub_zero] at hget
      rw [hget] at h
      simp only [Option.some.injEq] at h
      subst h
      exact ⟨Class.mk name_ methods_ (some p), by simp [Class.chain], List.get?_mem hget,
        hname⟩

/-- `HasMethod` fails when no class of the chain declares a method of that name and
arity. -/
theorem HasMethod_false_of_none_in_chain (cls : Class) (method : String) (n : Nat)
    (h : ∀ D ∈ cls.chain, ∀ m ∈ D.methods_, ¬ (m.name = method ∧ m.formal_params.length = n)) :
    HasMethod cls method n = false := by
  unfold HasMethod
  cases hget : cls.GetMethod method with
  | none => rfl
  | some m =>
    obtain ⟨D, hD, hm, hname⟩ := GetMethod_some_mem cls method m hget
    have hne : m.formal_params.length ≠ n := fun hc => h D hD m hm ⟨hname, hc⟩
    simp [hne]

/-- When the statements `before` complete and the next statement `s` raises an exception,
the loop over `before ++ s :: after` stops with that exception in the state in which `s`
left it: no statement of `after` is executed. -/
theorem ExecuteArgs_stops (exec : Executor) (s : Statement) (after : List Statement)
    (e : Exception) (c2 : Closure) (w2 : World) :
    ∀ (before : List Statement) (closure : Closure) (w : World) (values : List ObjectHolder)
      (c1 : Closure) (w1 : World),
      ExecuteArgs exec before closure w = (.ok values, c1, w1) →
      exec s c1 w1 = (.error e, c2, w2) →
      ExecuteArgs exec (before ++ s :: after) closure w = (.error e, c2, w2) := by
  intro before
  induction before with
  | nil =>
    intro closure w values c1 w1 hb hs
    simp only [ExecuteArgs, Prod.mk.injEq] at hb
    obtain ⟨_, hc, hw⟩ := hb
    subst hc; subst hw
    simp only [List.nil_append, ExecuteArgs, hs]
  | cons b rest ih =>
    intro closure w values c1 w1 hb hs
    rw [List.cons_append]
    simp only [ExecuteArgs] at hb ⊢
    cases hexec : exec b closure w with
    | mk r cw =>
      obtain ⟨cb, wb⟩ := cw
      rw [hexec] at hb
      cases r with
      | error eb => simp at hb
      | ok hv =>
        simp only at hb ⊢
        cases hrest : ExecuteArgs exec rest cb wb with
        | mk r2 cw2 =>
          obtain ⟨cr, wr⟩ := cw2
          rw [hrest] at hb
          cases r2 with
          | error er => simp at hb
          | ok vs =>
            simp only [Prod.mk.injEq] at hb
            obtain ⟨_, hc, hw⟩ := hb
            subst hc; subst hw
            rw [ih cb wb vs cr wr hrest hs]

/-- A statement that reaches a `Return` raises the return signal with the value of the
returned expression, in the state right after that expression was evaluated. -/
theorem ReachesReturn_signal (fuel : Nat) (stmt : Statement) (closure : Closure) (w : World)
    (h : ObjectHolder) (c2 : Closure) (w2 : World)
    (hr : ReachesReturn fuel stmt closure w h c2 w2) :
    Execute fuel stmt closure w = (.error (.thrown_holder h), c2, w2) := by
  induction hr with
  | ret fuel e closure w h c1 w1 he =>
    simp only [Execute, he]
  | compound fuel before after s closure w values c1 w1 h c2 w2 hb _ ih =>
    simp only [Execute]
    rw [ExecuteArgs_stops (Execute fuel) s after _ c2 w2 before closure w values c1 w1 hb ih]
  | if_body fuel condition_ if_body_ else_body_ closure w cond c1 w1 h c2 w2 hc ht _ ih =>
    simp only [Execute, hc, ht, if_true]
    exact ih
  | else_body fuel condition_ if_body_ else_body closure w cond c1 w1 h c2 w2 hc ht _ ih =>
    simp only [Execute, hc, ht]
    exact ih

/-- The binding loop of `Call` on pairwise distinct parameter names: it succeeds when
there are enough arguments, binds the `i`-th parameter to the `i`-th argument (counted
from `index`) and leaves every other name as it was. -/
theorem bindParams_distinct : ∀ (params : List String) (actual_args : List ObjectHolder)
    (index : Nat) (args : Closure),
    params.Nodup → index + params.length ≤ actual_args.length →
    ∃ bound, bindParams params actual_args index args = .ok bound ∧
      (∀ k, k ∉ params → mapFind bound k = mapFind args k) ∧
      (∀ i p, params.get? i = some p → mapFind bound p = actual_args.get? (index + i)) := by
  intro params
  induction params with
  | nil =>
    intro actual_args index args _ _
    exact ⟨args, rfl, fun _ _ => rfl, fun i p h => by simp at h⟩
  | cons p rest ih =>
    intro actual_args index args hnd hlen
    simp only [List.length_cons] at hlen
    have hlt : index < actual_args.length := by omega
    obtain ⟨a, ha⟩ : ∃ a, actual_args.get? index = some a :=
      ⟨actual_args.get ⟨index, hlt⟩, List.get?_eq_get hlt⟩
    have hnd2 := List.nodup_cons.1 hnd
    obtain ⟨bound, hb, hother, hparam⟩ :=
      ih actual_args (index + 1) (mapSet args p a) hnd2.2 (by omega)
    refine ⟨bound, by simp only [bindParams, ha, hb], ?_, ?_⟩
    · intro k hk
      have hk1 : k ≠ p := fun hc => hk (hc ▸ List.mem_cons_self _ _)
      have hk2 : k ∉ rest := fun hc => hk (List.mem_cons_of_mem _ hc)
      rw [hother k hk2, mapFind_mapSet]
      simp [Ne.symm hk1]
    · intro i q hq
      cases i with
      | zero =>
        simp only [List.get?_cons_zero, Option.some.injEq] at hq
        subst hq
        rw [hother p hnd2.1, mapFind_mapSet]
        simp only [if_true, Nat.add_zero]
        exact ha.symm
      | succ j =>
        simp only [List.get?_cons_succ] at hq
        rw [hparam j q hq]
        congr 1
        omega

/-- Counterexample to C4 as stated: in `m = Maker(); a = m.make(); a.x = 1;
b = m.make(); print b.x` the `NewInstance` node of `make` is executed twice.  Both
executions return the handle of the same instance (the member of the node, at address
1), the field `x` assigned through the first handle is in the fields table of the
instance the second execution returns, and `print b.x` writes `1`. -/
theorem C4_counterexample_same_instance :
    (Execute 10 makeTwice [] ⟨[], ""⟩).1 = .ok .None ∧
    mapFind (Execute 10 makeTwice [] ⟨[], ""⟩).2.1 "a" = some (.ClassInstance 1 plainC) ∧
    mapFind (Execute 10 makeTwice [] ⟨[], ""⟩).2.1 "b" = some (.ClassInstance 1 plainC) ∧
    mapFind ((Execute 10 makeTwice [] ⟨[], ""⟩).2.2.Fields 1) "x" = some (.Number 1) ∧
    (Execute 10 makeTwice [] ⟨[], ""⟩).2.2.output = "1\n" :=
  ⟨rfl, rfl, rfl, rfl, rfl⟩

/-- C4 (amended): a `NewInstance` node owns one class instance.  Every execution that
completes returns the handle of that instance, the same at every execution; the fields
table of the instance is not emptied: without an `__init__` of matching arity the
execution changes neither closure nor world, and with one the arguments are evaluated
and `__init__` is called on that instance in the world the arguments leave. -/
theorem C4_NewInstance_returns_node_instance :
    (∀ (fuel addr : Nat) (cls : Class) (args_ : List Statement) (closure : Closure) (w : World)
        (h : ObjectHolder) (c1 : Closure) (w1 : World),
      Execute (fuel + 1) (.NewInstance addr cls args_) closure w = (.ok h, c1, w1) →
      h = .ClassInstance addr cls) ∧
    (∀ (fuel addr : Nat) (cls : Class) (args_ : List Statement) (closure : Closure) (w : World),
      HasMethod cls "__init__" args_.length = false →
      Execute (fuel + 1) (.NewInstance addr cls args_) closure w =
        (.ok (.ClassInstance addr cls), closure, w)) ∧
    (∀ (fuel addr : Nat) (cls : Class) (args_ : List Statement) (closure : Closure) (w : World)
        (actual_args : List ObjectHolder) (c1 : Closure) (w1 : World),
      HasMethod cls "__init__" args_.length = true →
      ExecuteArgs (Execute fuel) args_ closure w = (.ok actual_args, c1, w1) →
      Execute (fuel + 1) (.NewInstance addr cls args_) closure w =
        match ClassInstance.Call (Execute fuel) addr cls "__init__" actual_args w1 with
        | (.error e, w2) => (.error e, c1, w2)
        | (.ok _, w2) => (.ok (.ClassInstance addr cls), c1, w2)) := by
  refine ⟨?_, ?_, ?_⟩
  · intro fuel addr cls args_ closure w h c1 w1 hex
    simp only [Execute] at hex
    split at hex
    · split at hex
      · simp at hex
      · split at hex
        · simp at hex
        · simp only [Prod.mk.injEq, Except.ok.injEq] at hex
          exact hex.1.symm
    · simp only [Prod.mk.injEq, Except.ok.injEq] at hex
      exact hex.1.symm
  · intro fuel addr cls args_ closure w hno
    simp only [Execute, hno]
    rfl
  · intro fuel addr cls args_ closure w actual_args c1 w1 hhas hargs
    simp only [Execute, hhas, hargs, if_true]

/-- Witness of C4: executing the `NewInstance` node of `make` when its instance already
has the field `x` returns that instance and leaves the field in place. -/
theorem C4_NewInstance_returns_node_instance_witness :
    Execute 1 (.NewInstance 1 plainC []) [] ⟨[(1, [("x", .Number 1)])], ""⟩ =
      (.ok (.ClassInstance 1 plainC), [], ⟨[(1, [("x", .Number 1)])], ""⟩) :=
  C4_NewInstance_returns_node_instance.2.1 0 1 plainC [] []
    ⟨[(1, [("x", .Number 1)])], ""⟩ rfl

/-- C5: `MethodBody.Execute` confines the return signal.  If executing the body reaches a
`Return(e)` nested inside `Compound` and `IfElse` nodes, `MethodBody.Execute` returns the
handle `e` evaluated to, with closure, fields and output as they were right after `e`
was evaluated (no later statement has run); whenever the body raises the return signal
its payload is returned; if the body completes normally the empty handle is returned;
every other exception of the body is propagated unchanged. -/
theorem C5_MethodBody_confines_return :
    (∀ (fuel : Nat) (body : Statement) (closure : Closure) (w : World) (h : ObjectHolder)
        (c2 : Closure) (w2 : World),
      ReachesReturn fuel body closure w h c2 w2 →
      Execute (fuel + 1) (.MethodBody body) closure w = (.ok h, c2, w2)) ∧
    (∀ (fuel : Nat) (body : Statement) (closure : Closure) (w : World) (h : ObjectHolder)
        (c2 : Closure) (w2 : World),
      Execute fuel body closure w = (.error (.thrown_holder h), c2, w2) →
      Execute (fuel + 1) (.MethodBody body) closure w = (.ok h, c2, w2)) ∧
    (∀ (fuel : Nat) (body : Statement) (closure : Closure) (w : World) (v : ObjectHolder)
        (c2 : Closure) (w2 : World),
      Execute fuel body closure w = (.ok v, c2, w2) →
      Execute (fuel + 1) (.MethodBody body) closure w = (.ok .None, c2, w2)) ∧
    (∀ (fuel : Nat) (body : Statement) (closure : Closure) (w : World) (e : Exception)
        (c2 : Closure) (w2 : World),
      Execute fuel body closure w = (.error e, c2, w2) →
      (∀ h, e ≠ .thrown_holder h) →
      Execute (fuel + 1) (.MethodBody body) closure w = (.error e, c2, w2)) := by
  refine ⟨?_, ?_, ?_, ?_⟩
  · intro fuel body closure w h c2 w2 hr
    simp only [Execute, ReachesReturn_signal fuel body closure w h c2 w2 hr]
  · intro fuel body closure w h c2 w2 hb
    simp only [Execute, hb]
  · intro fuel body closure w v c2 w2 hb
    simp only [Execute, hb]
  · intro fuel body closure w e c2 w2 hb hne
    cases e with
    | thrown_holder h => exact absurd rfl (hne h)
    | runtime_error what => simp only [Execute, hb]
    | out_of_range => simp only [Execute, hb]
    | undefined_behaviour => simp only [Execute, hb]
    | fuel => simp only [Execute, hb]

/-- Witness of C5: the body `print "a"; if True: (return 1; print "b"); print "c"` reaches
its `Return`; the method body returns 1 and only `a` was printed. -/
theorem C5_MethodBody_confines_return_witness :
    Execute 6 (.MethodBody returnInsideIf) [] ⟨[], ""⟩ =
      (.ok (.Number 1), [], ⟨[], "a\n"⟩) :=
  C5_MethodBody_confines_return.1 5 returnInsideIf [] ⟨[], ""⟩ (.Number 1) [] ⟨[], "a\n"⟩
    (ReachesReturn.compound 4 [.Print [.Const (.String "a")]] [.Print [.Const (.String "c")]]
      (.IfElse (.Const (.Bool true))
        (.Compound [.Return (.Const (.Number 1)), .Print [.Const (.String "b")]]) none)
      [] ⟨[], ""⟩ [.None] [] ⟨[], "a\n"⟩ (.Number 1) [] ⟨[], "a\n"⟩ rfl
      (ReachesReturn.if_body 3 (.Const (.Bool true))
        (.Compound [.Return (.Const (.Number 1)), .Print [.Const (.String "b")]]) none
        [] ⟨[], "a\n"⟩ (.Bool true) [] ⟨[], "a\n"⟩ (.Number 1) [] ⟨[], "a\n"⟩ rfl rfl
        (ReachesReturn.compound 2 [] [.Print [.Const (.String "b")]]
          (.Return (.Const (.Number 1))) [] ⟨[], "a\n"⟩ [] [] ⟨[], "a\n"⟩ (.Number 1) []
          ⟨[], "a\n"⟩ rfl
          (ReachesReturn.ret 1 (.Const (.Number 1)) [] ⟨[], "a\n"⟩ (.Number 1) []
            ⟨[], "a\n"⟩ rfl))))

/-- Counterexample to C6 as stated: the method `f(x, x)` of class `T` resolves for two
arguments; `Call` with the arguments 1 and 2 runs the body in the closure
`self ↦ receiver, x ↦ 2`, so the first formal parameter is not bound to the first
argument (the body, which returns `x`, returns 2).  Likewise the method `f(self)` of
class `S` called with the argument 7 runs in the closure `self ↦ 7`, where `self` is
not the receiver. -/
theorem C6_counterexample_repeated_parameter :
    HasMethod twiceX "f" 2 = true ∧
    bindParams ["x", "x"] [.Number 1, .Number 2] 0 (mapSet [] "self" (.ClassInstance 0 twiceX))
      = .ok [("self", .ClassInstance 0 twiceX), ("x", .Number 2)] ∧
    ClassInstance.Call (Execute 5) 0 twiceX "f" [.Number 1, .Number 2] ⟨[], ""⟩ =
      (.ok (.Number 2), ⟨[], ""⟩) ∧
    HasMethod selfParam "f" 1 = true ∧
    bindParams ["self"] [.Number 7] 0 (mapSet [] "self" (.ClassInstance 0 selfParam))
      = .ok [("self", .Number 7)] ∧
    ClassInstance.Call (Execute 5) 0 selfParam "f" [.Number 7] ⟨[], ""⟩ =
      (.ok (.Number 7), ⟨[], ""⟩) :=
  ⟨rfl, rfl, rfl, rfl, rfl, rfl⟩

/-- C6 (amended): when `GetMethod` resolves the method name to a method whose arity is
the number of arguments and whose formal parameter names are pairwise distinct and
differ from `self`, `Call` executes the method body in a new closure, built from the
empty one, that binds `self` to the receiver and `formal_params[i]` to `actual_args[i]`
for every `i` and binds no other name; when no method with that name and arity resolves,
`Call` raises the runtime error `No method <method>(<n>) in class <class>`. -/
theorem C6_Call_closure :
    (∀ (exec : Executor) (addr : Nat) (cls : Class) (method : String)
        (actual_args : List ObjectHolder) (w : World) (method_ : Method),
      cls.GetMethod method = some method_ →
      method_.formal_params.length = actual_args.length →
      method_.formal_params.Nodup →
      "self" ∉ method_.formal_params →
      ∃ args : Closure,
        ClassInstance.Call exec addr cls method actual_args w =
          ((exec method_.body args w).1, (exec method_.body args w).2.2) ∧
        mapFind args "self" = some (.ClassInstance addr cls) ∧
        (∀ i p, method_.formal_params.get? i = some p →
          ∃ a, actual_args.get? i = some a ∧ mapFind args p = some a) ∧
        (∀ k, k ≠ "self" → k ∉ method_.formal_params → mapFind args k = none)) ∧
    (∀ (exec : Executor) (addr : Nat) (cls : Class) (method : String)
        (actual_args : List ObjectHolder) (w : World),
      HasMethod cls method actual_args.length = false →
      ClassInstance.Call exec addr cls method actual_args w =
        (.error (.runtime_error ("No method " ++ method ++ "(" ++
          toString actual_args.length ++ ") in class " ++ cls.GetName)), w)) := by
  constructor
  · intro exec addr cls method actual_args w method_ hget hlen hnd hself
    obtain ⟨bound, hb, hother, hparam⟩ :=
      bindParams_distinct method_.formal_params actual_args 0
        (mapSet [] "self" (.ClassInstance addr cls)) hnd (by omega)
    refine ⟨bound, ?_, ?_, ?_, ?_⟩
    · have hhas : HasMethod cls method actual_args.length = true := by
        simp [HasMethod, hget, hlen]
      simp only [ClassInstance.Call, hhas, hget, hb]
      rfl
    · rw [hother "self" hself, mapFind_mapSet]
      simp
    · intro i p hp
      have hlt : i < actual_args.length := by
        have := List.get?_eq_some.1 hp
        obtain ⟨hi, _⟩ := this
        omega
      refine ⟨actual_args.get ⟨i, hlt⟩, List.get?_eq_get hlt, ?_⟩
      rw [hparam i p hp, Nat.zero_add]
      exact List.get?_eq_get hlt
    · intro k hk hnot
      rw [hother k hnot, mapFind_mapSet]
      simp [Ne.symm hk, mapFind]
  · intro exec addr cls method actual_args w hhas
    simp only [ClassInstance.Call, hhas]
    rfl

/-- Witness of C6: `Call` of `sub(x, y)` with the arguments 7 and 2 executes the body in
a closure that binds `self` to the receiver, `x` to 7 and `y` to 2 and nothing else; the
body returns `x - y`, that is 5. -/
theorem C6_Call_closure_witness :
    (∃ args : Closure,
      ClassInstance.Call (Execute 5) 0 subtractXY "sub" [.Number 7, .Number 2] ⟨[], ""⟩ =
        ((Execute 5 (Method.body (.mk "sub" ["x", "y"] (.MethodBody (.Return
            (.Sub (.VariableValue ["x"]) (.VariableValue ["y"])))))) args ⟨[], ""⟩).1,
         (Execute 5 (Method.body (.mk "sub" ["x", "y"] (.MethodBody (.Return
            (.Sub (.VariableValue ["x"]) (.VariableValue ["y"])))))) args ⟨[], ""⟩).2.2) ∧
      mapFind args "self" = some (.ClassInstance 0 subtractXY) ∧
      (∀ i p, (Method.formal_params (.mk "sub" ["x", "y"] (.MethodBody (.Return
            (.Sub (.VariableValue ["x"]) (.VariableValue ["y"])))))).get? i = some p →
        ∃ a, [ObjectHolder.Number 7, ObjectHolder.Number 2].get? i = some a ∧
          mapFind args p = some a) ∧
      (∀ k, k ≠ "self" →
        k ∉ Method.formal_params (.mk "sub" ["x", "y"] (.MethodBody (.Return
            (.Sub (.VariableValue ["x"]) (.VariableValue ["y"]))))) →
        mapFind args k = none)) ∧
    bindParams ["x", "y"] [.Number 7, .Number 2] 0
        (mapSet [] "self" (.ClassInstance 0 subtractXY)) =
      .ok [("self", .ClassInstance 0 subtractXY), ("x", .Number 7), ("y", .Number 2)] ∧
    ClassInstance.Call (Execute 5) 0 subtractXY "sub" [.Number 7, .Number 2] ⟨[], ""⟩ =
      (.ok (.Number 5), ⟨[], ""⟩) :=
  ⟨C6_Call_closure.1 (Execute 5) 0 subtractXY "sub" [.Number 7, .Number 2] ⟨[], ""⟩
    (.mk "sub" ["x", "y"] (.MethodBody (.Return
      (.Sub (.VariableValue ["x"]) (.VariableValue ["y"]))))) rfl rfl
    (by simp [Method.formal_params]) (by simp [Method.formal_params]), rfl, rfl⟩

/-- C7: for every class `C` and name, `GetMethod` returns nothing iff no class of the
chain `C, parent(C), ...` declares the name, and otherwise it returns the method of that
name declared by the nearest class of the chain that declares it (the last one of that
name in that class), so a method of the class shadows an inherited one.  In scenario 5,
calling `f` on an instance of `B` returns `Number(1)`. -/
theorem C7_GetMethod_nearest_class :
    (∀ (C : Class) (name : String),
      (C.GetMethod name = none ↔ ∀ D ∈ C.chain, ¬ D.declares name) ∧
      (∀ (pre post : List Class) (D : Class), C.chain = pre ++ D :: post →
        (∀ E ∈ pre, ¬ E.declares name) → D.declares name →
        ∃ m, C.GetMethod name = some m ∧ m ∈ D.methods_ ∧ m.name = name ∧
          IsLastNamed D.methods_ name m)) ∧
    (∀ (fuel : Nat) (closure : Closure) (w : World),
      Execute (fuel + 6) (.MethodCall (.NewInstance 0 scenarioB []) "f" []) closure w =
        (.ok (.Number 1), closure, w)) := by
  refine ⟨fun C name => ⟨(GetMethod_chain C name).1, ?_⟩, fun fuel closure w => rfl⟩
  intro pre post D hchain hpre hdecl
  obtain ⟨m, hget, hlast⟩ := (GetMethod_chain C name).2 pre post D hchain hpre hdecl
  exact ⟨m, hget, (IsLastNamed_mem _ _ _ hlast).1, (IsLastNamed_mem _ _ _ hlast).2, hlast⟩

/-- Witness of C7: in the chain `B, A` of scenario 5 the class `B` does not declare `f`
and `A` does, so `GetMethod` on `B` returns the `f` of `A`. -/
theorem C7_GetMethod_nearest_class_witness :
    ∃ m, scenarioB.GetMethod "f" = some m ∧ m ∈ scenarioA.methods_ ∧ m.name = "f" ∧
      IsLastNamed scenarioA.methods_ "f" m :=
  (C7_GetMethod_nearest_class.1 scenarioB "f").2 [scenarioB] [] scenarioA rfl
    (by
      intro E hE
      rw [List.mem_singleton.1 hE]
      rintro ⟨m, hm, _⟩
      simp [scenarioB, Class.methods_] at hm)
    ⟨.mk "f" [] (.MethodBody (.Return (.Const (.Number 1)))),
      by simp [scenarioA, Class.methods_], rfl⟩

/-- C8: division by zero should be a runtime error.  When the left operand evaluates to
a Number and the right operand to Number 0, `Div.Execute` evaluates the `int` division
inside `NUM_BINARY_OPERATION` before any check: the behaviour is undefined and no
runtime error is raised. -/
theorem C8_Div_by_zero_is_undefined (fuel : Nat) (lhs_ rhs_ : Statement) (closure : Closure)
    (w : World) (a : Int) (c1 c2 : Closure) (w1 w2 : World)
    (hl : Execute fuel lhs_ closure w = (.ok (.Number a), c1, w1))
    (hr : Execute fuel rhs_ c1 w1 = (.ok (.Number 0), c2, w2)) :
    Execute (fuel + 1) (.Div lhs_ rhs_) closure w = (.error .undefined_behaviour, c2, w2) := by
  simp only [Execute, ExecuteOperands, hl, hr, NUM_BINARY_OPERATION, intDiv, if_true]

/-- Witness of C8: `Div(Number(1), Number(0))`. -/
theorem C8_Div_by_zero_is_undefined_witness :
    Execute 2 (.Div (.Const (.Number 1)) (.Const (.Number 0))) [] ⟨[], ""⟩ =
      (.error .undefined_behaviour, [], ⟨[], ""⟩) :=
  C8_Div_by_zero_is_undefined 1 (.Const (.Number 1)) (.Const (.Number 0)) [] ⟨[], ""⟩ 1
    [] [] ⟨[], ""⟩ ⟨[], ""⟩ rfl rfl

/-- C9: a `MethodCall` on an object that is not a class instance should return the empty
handle.  `MethodCall::Execute` calls `HasMethod` through the null pointer that `TryAs`
returns for such an object: the behaviour is undefined. -/
theorem C9_MethodCall_on_non_instance (fuel : Nat) (object_ : Statement) (method_ : String)
    (args_ : List Statement) (closure : Closure) (w : World) (h : ObjectHolder)
    (c1 : Closure) (w1 : World)
    (ho : Execute fuel object_ closure w = (.ok h, c1, w1))
    (hn : IsClassInstance h = false) :
    Execute (fuel + 1) (.MethodCall object_ method_ args_) closure w =
      (.error .undefined_behaviour, c1, w1) := by
  simp only [Execute, ho]
  cases h with
  | ClassInstance addr cls => simp [IsClassInstance] at hn
  | None => rfl
  | Number v => rfl
  | String v => rfl
  | Bool v => rfl
  | Class c => rfl

/-- Witness of C9: the method call `1.f()`. -/
theorem C9_MethodCall_on_non_instance_witness :
    Execute 2 (.MethodCall (.Const (.Number 1)) "f" []) [] ⟨[], ""⟩ =
      (.error .undefined_behaviour, [], ⟨[], ""⟩) :=
  C9_MethodCall_on_non_instance 1 (.Const (.Number 1)) "f" [] [] ⟨[], ""⟩ (.Number 1) []
    ⟨[], ""⟩ rfl rfl

/-- Counterexample to C10 as stated: the chain of `B` is `B, A`; `A` declares `f` with no
parameter, so the chain has a method `f` of arity 0, yet the `MethodCall` of `f` with no
argument on an instance of `B` returns the empty handle, because `B` declares `f(x)`. -/
theorem C10_counterexample_shadowed_arity :
    arityB.chain = [arityB, arityA] ∧
    (∃ m ∈ arityA.methods_, m.name = "f" ∧ m.formal_params.length = 0) ∧
    Execute 3 (.MethodCall (.NewInstance 0 arityB []) "f" []) [] ⟨[], ""⟩ =
      (.ok .None, [], ⟨[], ""⟩) :=
  ⟨rfl, ⟨.mk "f" [] (.MethodBody (.Return (.Const (.Number 1)))),
      by simp [arityA, Class.methods_], rfl, rfl⟩, rfl⟩

/-- C10 (amended): for a `MethodCall` whose object evaluates to a class instance: if
`HasMethod` fails for the name and the number of argument expressions (in particular if
no class of the chain declares a method of that name and arity) the result is the empty
handle, without error, in the state the object expression left, so no argument was
evaluated; if `HasMethod` holds, i.e. the method that `GetMethod` resolves for the name
has that arity, the arguments are evaluated in order, each in the state the one before
left, and the result is that of `ClassInstance::Call`; an exception of an argument is
propagated. -/
theorem C10_MethodCall_on_instance (fuel : Nat) (object_ : Statement) (method_ : String)
    (args_ : List Statement) (closure : Closure) (w : World) (addr : Nat) (cls : Class)
    (c1 : Closure) (w1 : World)
    (ho : Execute fuel object_ closure w = (.ok (.ClassInstance addr cls), c1, w1)) :
    (HasMethod cls method_ args_.length = false →
      Execute (fuel + 1) (.MethodCall object_ method_ args_) closure w = (.ok .None, c1, w1)) ∧
    ((∀ D ∈ cls.chain, ∀ m ∈ D.methods_,
        ¬ (m.name = method_ ∧ m.formal_params.length = args_.length)) →
      Execute (fuel + 1) (.MethodCall object_ method_ args_) closure w = (.ok .None, c1, w1)) ∧
    (HasMethod cls method_ args_.length = true →
      (∀ (actual_args : List ObjectHolder) (c2 : Closure) (w2 : World),
        ExecuteArgs (Execute fuel) args_ c1 w1 = (.ok actual_args, c2, w2) →
        Execute (fuel + 1) (.MethodCall object_ method_ args_) closure w =
          ((ClassInstance.Call (Execute fuel) addr cls method_ actual_args w2).1, c2,
           (ClassInstance.Call (Execute fuel) addr cls method_ actual_args w2).2)) ∧
      (∀ (e : Exception) (c2 : Closure) (w2 : World),
        ExecuteArgs (Execute fuel) args_ c1 w1 = (.error e, c2, w2) →
        Execute (fuel + 1) (.MethodCall object_ method_ args_) closure w = (.error e, c2, w2))) ∧
    (∀ (exec : Executor) (arg : Statement) (rest : List Statement) (c : Closure) (v : World)
        (h : ObjectHolder) (c2 : Closure) (w2 : World),
      exec arg c v = (.ok h, c2, w2) →
      ExecuteArgs exec (arg :: rest) c v =
        match ExecuteArgs exec rest c2 w2 with
        | (.ok hs, c3, w3) => (.ok (h :: hs), c3, w3)
        | (.error e, c3, w3) => (.error e, c3, w3)) := by
  have hfalse : HasMethod cls method_ args_.length = false →
      Execute (fuel + 1) (.MethodCall object_ method_ args_) closure w = (.ok .None, c1, w1) := by
    intro hno
    simp only [Execute, ho, hno]
    rfl
  refine ⟨hfalse, fun h => hfalse (HasMethod_false_of_none_in_chain _ _ _ h), ?_, ?_⟩
  · intro hhas
    constructor
    · intro actual_args c2 w2 hargs
      simp only [Execute, ho, hhas, hargs, if_true]
    · intro e c2 w2 hargs
      simp only [Execute, ho, hhas, hargs, if_true]
  · intro exec arg rest c v h c2 w2 harg
    simp only [ExecuteArgs, harg]

/-- Witness of C10: `B().f(5)` resolves `f(x)` of `B`, evaluates the argument and returns
the result of the call, 2. -/
theorem C10_MethodCall_on_instance_witness :
    Execute 6 (.MethodCall (.NewInstance 0 arityB []) "f" [.Const (.Number 5)]) []
        ⟨[], ""⟩ = (.ok (.Number 2), [], ⟨[], ""⟩) :=
  ((C10_MethodCall_on_instance 5 (.NewInstance 0 arityB []) "f" [.Const (.Number 5)] []
      ⟨[], ""⟩ 0 arityB [] ⟨[], ""⟩ rfl).2.2.1 rfl).1 [.Number 5] [] ⟨[], ""⟩ rfl

theorem BaseCompareEqual_none (a b : ObjectHolder) :
    BaseCompareEqual a b = none ↔ ¬ SamePrimitiveType a b := by
  cases a <;> cases b <;> simp [BaseCompareEqual, SamePrimitiveType]

theorem primitive_trichotomy (a b : ObjectHolder) (h : SamePrimitiveType a b) :
    ∃ eq lt gt : Bool, BaseCompareEqual a b = some eq ∧ BaseCompareLess a b = some lt ∧
      BaseCompareLess b a = some gt ∧ ExactlyOne lt eq gt := by
  cases a <;> cases b <;> simp only [SamePrimitiveType] at h
  · next x y =>
    refine ⟨decide (x = y), decide (x < y), decide (y < x), rfl, rfl, rfl, ?_⟩
    unfold ExactlyOne
    rcases lt_trichotomy x y with hlt | heq | hgt
    · left
      simp [hlt, ne_of_lt hlt, not_lt_of_gt hlt]
    · right; left
      simp [heq]
    · right; right
      simp [hgt, ne_of_gt hgt, not_lt_of_gt hgt]
  · next x y =>
    refine ⟨decide (x = y), decide (x.data < y.data), decide (y.data < x.data), rfl, rfl, rfl, ?_⟩
    unfold ExactlyOne
    have hxy : x = y ↔ x.data = y.data := by
      constructor
      · intro h; rw [h]
      · intro h; exact String.ext h
    rcases lt_trichotomy x.data y.data with hlt | heq | hgt
    · left
      have hne : ¬ x = y := fun hc => (ne_of_lt hlt) (hxy.1 hc)
      simp [hlt, hne, not_lt_of_gt hlt]
    · right; left
      have he : x = y := hxy.2 heq
      simp [he]
    · right; right
      have hne : ¬ x = y := fun hc => (ne_of_gt hgt) (hxy.1 hc)
      simp [hgt, hne, not_lt_of_gt hgt]
  · next x y =>
    refine ⟨decide (x = y), !x && y, !y && x, rfl, rfl, rfl, ?_⟩
    unfold ExactlyOne
    cases x <;> cases y <;> simp

/-- C18: for two handles of the same primitive type (both Number, both String or both
Bool) none of the six comparison functions raises an error or changes the world, and
with `eq = Equal(a,b)`, `lt = Less(a,b)`, `gt = Less(b,a)`: `NotEqual(a,b) = not eq`,
exactly one of `lt`, `eq`, `gt` is true, `Greater(a,b) = gt`,
`LessOrEqual(a,b) = not gt` and `GreaterOrEqual(a,b) = not lt`. -/
theorem C18_primitive_total_order (exec : Executor) (w : World) (a b : ObjectHolder)
    (h : SamePrimitiveType a b) :
    ∃ eq lt gt : Bool,
      Equal exec a b w = (.ok eq, w) ∧ NotEqual exec a b w = (.ok (!eq), w) ∧
      Less exec a b w = (.ok lt, w) ∧ Less exec b a w = (.ok gt, w) ∧
      ExactlyOne lt eq gt ∧
      Greater exec a b w = (.ok gt, w) ∧ LessOrEqual exec a b w = (.ok (!gt), w) ∧
      GreaterOrEqual exec a b w = (.ok (!lt), w) := by
  obtain ⟨eq, lt, gt, heq, hlt, hgt, hone⟩ := primitive_trichotomy a b h
  have hE : Equal exec a b w = (.ok eq, w) := by simp only [Equal, heq]
  have hL : Less exec a b w = (.ok lt, w) := by simp only [Less, hlt]
  have hG : Less exec b a w = (.ok gt, w) := by simp only [Less, hgt]
  have hGr : Greater exec a b w = (.ok gt, w) := by
    unfold ExactlyOne at hone
    rcases hone with ⟨h1, h2, h3⟩ | ⟨h1, h2, h3⟩ | ⟨h1, h2, h3⟩ <;>
      simp only [Greater, hL, hE, h1, h2, h3] <;> rfl
  refine ⟨eq, lt, gt, hE, ?_, hL, hG, hone, hGr, ?_, ?_⟩
  · simp only [NotEqual, hE]
  · simp only [LessOrEqual, hGr]
  · simp only [GreaterOrEqual, hL]

/-- Witness of C18: the Numbers 1 and 2. -/
theorem C18_primitive_total_order_witness :
    ∃ eq lt gt : Bool,
      Equal (Execute 1) (.Number 1) (.Number 2) ⟨[], ""⟩ = (.ok eq, ⟨[], ""⟩) ∧
      NotEqual (Execute 1) (.Number 1) (.Number 2) ⟨[], ""⟩ = (.ok (!eq), ⟨[], ""⟩) ∧
      Less (Execute 1) (.Number 1) (.Number 2) ⟨[], ""⟩ = (.ok lt, ⟨[], ""⟩) ∧
      Less (Execute 1) (.Number 2) (.Number 1) ⟨[], ""⟩ = (.ok gt, ⟨[], ""⟩) ∧
      ExactlyOne lt eq gt ∧
      Greater (Execute 1) (.Number 1) (.Number 2) ⟨[], ""⟩ = (.ok gt, ⟨[], ""⟩) ∧
      LessOrEqual (Execute 1) (.Number 1) (.Number 2) ⟨[], ""⟩ = (.ok (!gt), ⟨[], ""⟩) ∧
      GreaterOrEqual (Execute 1) (.Number 1) (.Number 2) ⟨[], ""⟩ = (.ok (!lt), ⟨[], ""⟩) :=
  C18_primitive_total_order (Execute 1) ⟨[], ""⟩ (.Number 1) (.Number 2) trivial

/-- C19: outside the same-primitive-type case `Equal(lhs, rhs)` is decided in this
order.  If `lhs` is a class instance whose class resolves `__eq__` with arity 1, then
`__eq__` is called on `lhs` with the single argument `rhs`, whatever `rhs` is, and the
Bool it returns is the result (an exception of the call is propagated).  Otherwise, if
both handles are empty the result is true, and in every remaining case the runtime error
`Cannot compare objects for equality` is raised. -/
theorem C19_Equal_outside_primitives (exec : Executor) (lhs rhs : ObjectHolder) (w : World)
    (hprim : ¬ SamePrimitiveType lhs rhs) :
    (∀ (addr : Nat) (cls : Class), lhs = .ClassInstance addr cls →
      HasMethod cls "__eq__" 1 = true →
      (∀ (b : Bool) (w1 : World),
        ClassInstance.Call exec addr cls "__eq__" [rhs] w = (.ok (.Bool b), w1) →
        Equal exec lhs rhs w = (.ok b, w1)) ∧
      (∀ (e : Exception) (w1 : World),
        ClassInstance.Call exec addr cls "__eq__" [rhs] w = (.error e, w1) →
        Equal exec lhs rhs w = (.error e, w1))) ∧
    ((∀ (addr : Nat) (cls : Class), lhs = .ClassInstance addr cls →
        HasMethod cls "__eq__" 1 = false) →
      (lhs = .None → rhs = .None → Equal exec lhs rhs w = (.ok true, w)) ∧
      (¬ (lhs = .None ∧ rhs = .None) →
        Equal exec lhs rhs w =
          (.error (.runtime_error "Cannot compare objects for equality"), w))) := by
  have hnone := (BaseCompareEqual_none lhs rhs).2 hprim
  refine ⟨?_, ?_⟩
  · intro addr cls hl hhas
    subst hl
    constructor
    · intro b w1 hcall
      simp only [Equal, hnone, hhas, hcall, if_true]
    · intro e w1 hcall
      simp only [Equal, hnone, hhas, hcall, if_true]
  · intro hno
    constructor
    · intro hl hr
      subst hl; subst hr
      rfl
    · intro hnot
      cases lhs with
      | ClassInstance addr cls =>
        have := hno addr cls rfl
        simp only [Equal, hnone, this]
        rfl
      | None =>
        cases rhs with
        | None => exact absurd ⟨rfl, rfl⟩ hnot
        | Number v => rfl
        | String v => rfl
        | Bool v => rfl
        | Class c => rfl
        | ClassInstance a c => rfl
      | Number v => simp only [Equal, hnone]; rfl
      | String v => simp only [Equal, hnone]; rfl
      | Bool v => simp only [Equal, hnone]; rfl
      | Class c => simp only [Equal, hnone]; rfl

/-- Witness of C19: an instance of a class whose `__eq__` returns `True`, compared with
the empty handle: `__eq__` is called and the result is true. -/
theorem C19_Equal_outside_primitives_witness :
    Equal (Execute 3) (.ClassInstance 0 alwaysEqual) .None ⟨[], ""⟩ = (.ok true, ⟨[], ""⟩) :=
  ((C19_Equal_outside_primitives (Execute 3) (.ClassInstance 0 alwaysEqual) .None ⟨[], ""⟩
      (fun h => h)).1 0 alwaysEqual rfl rfl).1 true ⟨[], ""⟩ rfl

/-- C20: when the right-hand expression `rv` evaluates to the handle `h`, leaving the
closure `c1`, `Assignment(v, rv)` returns `h` and leaves the closure `c1` with `v`
bound to `h`: every other name is bound as in `c1`, and `VariableValue(v)` executed on
the resulting closure returns `h` again. -/
theorem C20_Assignment_then_VariableValue (fuel : Nat) (v : String) (rv : Statement)
    (closure : Closure) (w : World) (h : ObjectHolder) (c1 : Closure) (w1 : World)
    (hrv : Execute fuel rv closure w = (.ok h, c1, w1)) :
    Execute (fuel + 1) (.Assignment v rv) closure w = (.ok h, mapSet c1 v h, w1) ∧
    mapFind (mapSet c1 v h) v = some h ∧
    (∀ k, k ≠ v → mapFind (mapSet c1 v h) k = mapFind c1 k) ∧
    (∀ (fuel2 : Nat) (w2 : World),
      Execute (fuel2 + 1) (.VariableValue [v]) (mapSet c1 v h) w2 =
        (.ok h, mapSet c1 v h, w2)) := by
  have hfind : mapFind (mapSet c1 v h) v = some h := by
    rw [mapFind_mapSet]; simp
  refine ⟨?_, hfind, ?_, ?_⟩
  · simp only [Execute, hrv, hfind]
  · intro k hk
    rw [mapFind_mapSet]
    simp [Ne.symm hk]
  · intro fuel2 w2
    simp only [Execute, VariableValueLoop, hfind]
    cases h <;> rfl

/-- Witness of C20: `x = 2 + 3` on the empty closure, then `x`. -/
theorem C20_Assignment_then_VariableValue_witness :
    Execute 3 (.Assignment "x" (.Add (.Const (.Number 2)) (.Const (.Number 3)))) []
        ⟨[], ""⟩ = (.ok (.Number 5), mapSet [] "x" (.Number 5), ⟨[], ""⟩) ∧
    mapFind (mapSet [] "x" (ObjectHolder.Number 5)) "x" = some (.Number 5) ∧
    (∀ k, k ≠ "x" →
      mapFind (mapSet [] "x" (ObjectHolder.Number 5)) k = mapFind ([] : Closure) k) ∧
    (∀ (fuel2 : Nat) (w2 : World),
      Execute (fuel2 + 1) (.VariableValue ["x"]) (mapSet [] "x" (.Number 5)) w2 =
        (.ok (.Number 5), mapSet [] "x" (.Number 5), w2)) :=
  C20_Assignment_then_VariableValue 2 "x" (.Add (.Const (.Number 2)) (.Const (.Number 3)))
    [] ⟨[], ""⟩ (.Number 5) [] ⟨[], ""⟩ rfl

/-- C22: `Add.Execute` by the values `lhs` and `rhs` of its operands.  Two Numbers whose
sum fits in a signed 32-bit integer give the Number of the sum; two Strings give the
String of the left value followed by the right one; a class instance on the left gives
the result of `Call("__add__", {rhs})`, which is the runtime error `No method` when its
class does not resolve `__add__` with one parameter; every other pair of operand types
raises the runtime error of `Add`.  Two Numbers whose sum does not fit should raise a
runtime error as well: their sum is evaluated on `int` inside the `std::isfinite` test of
`NUM_BINARY_OPERATION`, the behaviour is undefined and no runtime error is raised. -/
theorem C22_Add_by_operand_values (fuel : Nat) (lhs_ rhs_ : Statement) (closure : Closure)
    (w : World) (lhs rhs : ObjectHolder) (c1 c2 : Closure) (w1 w2 : World)
    (hl : Execute fuel lhs_ closure w = (.ok lhs, c1, w1))
    (hr : Execute fuel rhs_ c1 w1 = (.ok rhs, c2, w2)) :
    (∀ a b : Int, lhs = .Number a → rhs = .Number b →
      -2147483648 ≤ a + b → a + b ≤ 2147483647 →
      Execute (fuel + 1) (.Add lhs_ rhs_) closure w = (.ok (.Number (a + b)), c2, w2)) ∧
    (∀ a b : Int, lhs = .Number a → rhs = .Number b →
      (a + b < -2147483648 ∨ 2147483647 < a + b) →
      Execute (fuel + 1) (.Add lhs_ rhs_) closure w = (.error .undefined_behaviour, c2, w2)) ∧
    (∀ a b : String, lhs = .String a → rhs = .String b →
      Execute (fuel + 1) (.Add lhs_ rhs_) closure w = (.ok (.String (a ++ b)), c2, w2)) ∧
    (∀ (addr : Nat) (cls : Class), lhs = .ClassInstance addr cls →
      Execute (fuel + 1) (.Add lhs_ rhs_) closure w =
        ((ClassInstance.Call (Execute fuel) addr cls "__add__" [rhs] w2).1, c2,
         (ClassInstance.Call (Execute fuel) addr cls "__add__" [rhs] w2).2)) ∧
    (∀ (addr : Nat) (cls : Class), lhs = .ClassInstance addr cls →
      HasMethod cls "__add__" 1 = false →
      Execute (fuel + 1) (.Add lhs_ rhs_) closure w =
        (.error (.runtime_error
          ("No method " ++ "__add__" ++ "(" ++ toString 1 ++ ") in class " ++ cls.GetName)),
         c2, w2)) ∧
    (IsClassInstance lhs = false →
      (∀ a b : Int, ¬ (lhs = .Number a ∧ rhs = .Number b)) →
      (∀ a b : String, ¬ (lhs = .String a ∧ rhs = .String b)) →
      Execute (fuel + 1) (.Add lhs_ rhs_) closure w =
        (.error (.runtime_error "Error: the operation cannot be performed: Add"), c2, w2)) := by
  have hops : ExecuteOperands (Execute fuel) lhs_ rhs_ closure w = (.ok (lhs, rhs), c2, w2) := by
    simp only [ExecuteOperands, hl, hr]
  refine ⟨?_, ?_, ?_, ?_, ?_, ?_⟩
  · intro a b hla hrb h1 h2
    subst hla hrb
    simp only [Execute, hops, NUM_BINARY_OPERATION, intResult, h1, h2, and_self, if_true]
  · intro a b hla hrb hout
    subst hla hrb
    have hno : ¬ (-2147483648 ≤ a + b ∧ a + b ≤ 2147483647) := by omega
    simp only [Execute, hops, NUM_BINARY_OPERATION, intResult, hno, if_false]
  · intro a b hla hrb
    subst hla hrb
    simp only [Execute, hops, NUM_BINARY_OPERATION]
  · intro addr cls hla
    subst hla
    simp only [Execute, hops, NUM_BINARY_OPERATION]
  · intro addr cls hla hno
    subst hla
    simp only [Execute, hops, NUM_BINARY_OPERATION, ClassInstance.Call, List.length_singleton,
      hno, Bool.not_false, if_true]
  · intro hni hnum hstr
    simp only [Execute, hops]
    cases lhs <;> cases rhs <;>
      first
      | rfl
      | (exfalso; exact hnum _ _ ⟨rfl, rfl⟩)
      | (exfalso; exact hstr _ _ ⟨rfl, rfl⟩)
      | (exfalso; simp [IsClassInstance] at hni)

/-- Witness of C22: `Add(Number(2147483647), Number(1))`. -/
theorem C22_Add_by_operand_values_witness :
    Execute 2 (.Add (.Const (.Number 2147483647)) (.Const (.Number 1))) [] ⟨[], ""⟩ =
      (.error .undefined_behaviour, [], ⟨[], ""⟩) :=
  (C22_Add_by_operand_values 1 (.Const (.Number 2147483647)) (.Const (.Number 1)) []
    ⟨[], ""⟩ (.Number 2147483647) (.Number 1) [] [] ⟨[], ""⟩ ⟨[], ""⟩ rfl rfl).2.1
    2147483647 1 rfl rfl (Or.inr (by decide))

/-- C23: `Or` and `And` do not short-circuit.  When the left operand evaluates to a
handle `l`, whatever it is, the right operand is evaluated next, in the closure and world
the left one left, and its effects stay: if it raises, the exception is propagated; if it
gives the handle `r`, the result is `Bool(IsTrue(l) or IsTrue(r))`, respectively
`Bool(IsTrue(l) and IsTrue(r))`, when both handles are non-empty and the runtime error
`Invalid arguments` when one of them is empty.  So `Or(True, None)` and
`And(False, None)` raise the error, and in `Or(True, x = 1)` the assignment is made. -/
theorem C23_Or_And_evaluate_both :
    (∀ (fuel : Nat) (lhs_ rhs_ : Statement) (closure : Closure) (w : World) (l : ObjectHolder)
        (c1 : Closure) (w1 : World),
      Execute fuel lhs_ closure w = (.ok l, c1, w1) →
      (∀ (r : ObjectHolder) (c2 : Closure) (w2 : World),
        Execute fuel rhs_ c1 w1 = (.ok r, c2, w2) →
        (NonEmpty l = true → NonEmpty r = true →
          Execute (fuel + 1) (.Or lhs_ rhs_) closure w =
            (.ok (.Bool (IsTrue l || IsTrue r)), c2, w2) ∧
          Execute (fuel + 1) (.And lhs_ rhs_) closure w =
            (.ok (.Bool (IsTrue l && IsTrue r)), c2, w2)) ∧
        (NonEmpty l = false ∨ NonEmpty r = false →
          Execute (fuel + 1) (.Or lhs_ rhs_) closure w =
            (.error (.runtime_error "Invalid arguments"), c2, w2) ∧
          Execute (fuel + 1) (.And lhs_ rhs_) closure w =
            (.error (.runtime_error "Invalid arguments"), c2, w2))) ∧
      (∀ (e : Exception) (c2 : Closure) (w2 : World),
        Execute fuel rhs_ c1 w1 = (.error e, c2, w2) →
        Execute (fuel + 1) (.Or lhs_ rhs_) closure w = (.error e, c2, w2) ∧
        Execute (fuel + 1) (.And lhs_ rhs_) closure w = (.error e, c2, w2))) ∧
    Execute 2 (.Or (.Const (.Bool true)) (.Const .None)) [] ⟨[], ""⟩ =
      (.error (.runtime_error "Invalid arguments"), [], ⟨[], ""⟩) ∧
    Execute 2 (.And (.Const (.Bool false)) (.Const .None)) [] ⟨[], ""⟩ =
      (.error (.runtime_error "Invalid arguments"), [], ⟨[], ""⟩) ∧
    Execute 3 (.Or (.Const (.Bool true)) (.Assignment "x" (.Const (.Number 1)))) []
        ⟨[], ""⟩ = (.ok (.Bool true), [("x", .Number 1)], ⟨[], ""⟩) ∧
    Execute 3 (.And (.Const (.Bool false)) (.Print [.Const (.String "p")])) [] ⟨[], ""⟩ =
      (.error (.runtime_error "Invalid arguments"), [], ⟨[], "p\n"⟩) := by
  refine ⟨?_, rfl, rfl, rfl, rfl⟩
  intro fuel lhs_ rhs_ closure w l c1 w1 hl
  constructor
  · intro r c2 w2 hr
    have hops : ExecuteOperands (Execute fuel) lhs_ rhs_ closure w = (.ok (l, r), c2, w2) := by
      simp only [ExecuteOperands, hl, hr]
    constructor
    · intro h1 h2
      simp only [Execute, hops, h1, h2, Bool.and_self, if_true, and_self]
    · intro h
      have hno : (NonEmpty l && NonEmpty r) = false := by
        rcases h with h | h <;> simp [h]
      simp only [Execute, hops, hno, Bool.false_eq_true, if_false, and_self]
  · intro e c2 w2 hr
    have hops : ExecuteOperands (Execute fuel) lhs_ rhs_ closure w = (.error e, c2, w2) := by
      simp only [ExecuteOperands, hl, hr]
    simp only [Execute, hops, and_self]

/-- Witness of C23: `Or(Number(0), String(""))`, two non-empty handles that are both
false. -/
theorem C23_Or_And_evaluate_both_witness :
    Execute 2 (.Or (.Const (.Number 0)) (.Const (.String ""))) [] ⟨[], ""⟩ =
        (.ok (.Bool (IsTrue (.Number 0) || IsTrue (.String ""))), [], ⟨[], ""⟩) ∧
    Execute 2 (.And (.Const (.Number 0)) (.Const (.String ""))) [] ⟨[], ""⟩ =
        (.ok (.Bool (IsTrue (.Number 0) && IsTrue (.String ""))), [], ⟨[], ""⟩) :=
  ((C23_Or_And_evaluate_both.1 1 (.Const (.Number 0)) (.Const (.String "")) [] ⟨[], ""⟩
      (.Number 0) [] ⟨[], ""⟩ rfl).1 (.String "") [] ⟨[], ""⟩ rfl).1 rfl rfl

theorem Stringify_of_String (fuel : Nat) (e : Statement) (c : Closure) (w : World)
    (S : String) (c1 : Closure) (w1 : World)
    (h : Execute fuel e c w = (.ok (.String S), c1, w1)) :
    Execute (fuel + 1) (.Stringify e) c w = (.ok (.String S), c1, w1) := by
  cases fuel with
  | zero => simp [Execute] at h
  | succ n =>
    rw [Execute]
    simp only [h, NonEmpty, if_true, PrintObject, PrintString]

theorem Stringify_gives_String (fuel : Nat) (e : Statement) (c : Closure) (w : World)
    (h : ObjectHolder) (c1 : Closure) (w1 : World)
    (hs : Execute fuel (.Stringify e) c w = (.ok h, c1, w1)) : ∃ T, h = .String T := by
  cases fuel with
  | zero => simp [Execute] at hs
  | succ n =>
    simp only [Execute] at hs
    split at hs
    · simp at hs
    · split at hs
      · split at hs
        · simp only [Prod.mk.injEq, Except.ok.injEq] at hs
          exact ⟨_, hs.1.symm⟩
        · simp at hs
      · simp only [Prod.mk.injEq, Except.ok.injEq] at hs
        exact ⟨_, hs.1.symm⟩

/-- C24: `Stringify` of an expression whose value is the String `S` yields the String
`S`; of an expression whose value is the empty handle it yields the String `None`;
whenever `Stringify(e)` succeeds its result is a String `T`, and
`Stringify(Stringify(e))` yields the String `T` as well, with the same closure and
world. -/
theorem C24_Stringify_idempotent :
    (∀ (fuel : Nat) (e : Statement) (c : Closure) (w : World) (S : String) (c1 : Closure)
        (w1 : World),
      Execute fuel e c w = (.ok (.String S), c1, w1) →
      Execute (fuel + 1) (.Stringify e) c w = (.ok (.String S), c1, w1)) ∧
    (∀ (fuel : Nat) (e : Statement) (c : Closure) (w : World) (c1 : Closure) (w1 : World),
      Execute fuel e c w = (.ok .None, c1, w1) →
      Execute (fuel + 1) (.Stringify e) c w = (.ok (.String "None"), c1, w1)) ∧
    (∀ (fuel : Nat) (e : Statement) (c : Closure) (w : World) (h : ObjectHolder)
        (c1 : Closure) (w1 : World),
      Execute fuel (.Stringify e) c w = (.ok h, c1, w1) →
      ∃ T : String, h = .String T ∧
        Execute (fuel + 1) (.Stringify (.Stringify e)) c w = (.ok (.String T), c1, w1)) ∧
    Execute 3 (.Stringify (.Add (.Const (.Number 2)) (.Const (.Number 3)))) [] ⟨[], ""⟩ =
      (.ok (.String "5"), [], ⟨[], ""⟩) ∧
    Execute 4 (.Stringify (.Stringify (.Add (.Const (.Number 2)) (.Const (.Number 3))))) []
        ⟨[], ""⟩ = (.ok (.String "5"), [], ⟨[], ""⟩) := by
  refine ⟨Stringify_of_String, ?_, ?_, rfl, rfl⟩
  · intro fuel e c w c1 w1 h
    simp only [Execute, h, NonEmpty]
    rfl
  · intro fuel e c w h c1 w1 hs
    obtain ⟨T, hT⟩ := Stringify_gives_String fuel e c w h c1 w1 hs
    subst hT
    exact ⟨T, rfl, Stringify_of_String fuel (.Stringify e) c w T c1 w1 hs⟩

/-- Witness of C24: `Stringify(String("a b"))`. -/
theorem C24_Stringify_idempotent_witness :
    Execute 2 (.Stringify (.Const (.String "a b"))) [] ⟨[], ""⟩ =
      (.ok (.String "a b"), [], ⟨[], ""⟩) :=
  C24_Stringify_idempotent.1 1 (.Const (.String "a b")) [] ⟨[], ""⟩ "a b" [] ⟨[], ""⟩ rfl

/-- C25: `VariableValue` on the dotted path `a.b` when the closure binds `a` to `va`.  If
`va` is not a class instance (a Number, String, Bool, Class or the empty handle), `b` is
looked up in the same closure: the handle bound to `b` there is returned, and the runtime
error for an unknown name is raised when the closure does not bind `b`.  If `va` is a
class instance, `b` is looked up in the fields of that instance.  Closure and world are
unchanged. -/
theorem C25_dotted_path_through_non_instance (fuel : Nat) (closure : Closure) (w : World)
    (a b : String) (va : ObjectHolder) (ha : mapFind closure a = some va) :
    (IsClassInstance va = false →
      (∀ vb, mapFind closure b = some vb →
        Execute (fuel + 1) (.VariableValue [a, b]) closure w = (.ok vb, closure, w)) ∧
      (mapFind closure b = none →
        Execute (fuel + 1) (.VariableValue [a, b]) closure w =
          (.error (.runtime_error ("Uncknown : " ++ GetStrDottedIds [a, b])), closure, w))) ∧
    (∀ (addr : Nat) (cls : Class), va = .ClassInstance addr cls →
      (∀ vb, mapFind (w.Fields addr) b = some vb →
        Execute (fuel + 1) (.VariableValue [a, b]) closure w = (.ok vb, closure, w)) ∧
      (mapFind (w.Fields addr) b = none →
        Execute (fuel + 1) (.VariableValue [a, b]) closure w =
          (.error (.runtime_error ("Uncknown : " ++ GetStrDottedIds [a, b])), closure, w))) := by
  constructor
  · intro hni
    constructor
    · intro vb hb
      cases va <;> first
        | (simp [IsClassInstance] at hni; done)
        | (simp only [Execute, VariableValueLoop, ha, hb]; cases vb <;> rfl)
    · intro hb
      cases va <;> first
        | (simp [IsClassInstance] at hni; done)
        | simp only [Execute, VariableValueLoop, ha, hb]
  · intro addr cls hva
    subst hva
    constructor
    · intro vb hb
      simp only [Execute, VariableValueLoop, ha, hb]
      cases vb <;> rfl
    · intro hb
      simp only [Execute, VariableValueLoop, ha, hb]

/-- Witness of C25: with `a` bound to Number 1 and `b` to Number 2, the path `a.b` gives
Number 2. -/
theorem C25_dotted_path_through_non_instance_witness :
    Execute 1 (.VariableValue ["a", "b"]) [("a", .Number 1), ("b", .Number 2)] ⟨[], ""⟩ =
      (.ok (.Number 2), [("a", .Number 1), ("b", .Number 2)], ⟨[], ""⟩) :=
  ((C25_dotted_path_through_non_instance 0 [("a", .Number 1), ("b", .Number 2)] ⟨[], ""⟩
      "a" "b" (.Number 1) rfl).1 rfl).1 (.Number 2) rfl

theorem IsLastNamed_unique (methods : List Method) (name : String) (m m2 : Method)
    (h : IsLastNamed methods name m) (h2 : IsLastNamed methods name m2) : m = m2 := by
  obtain ⟨j, hget, hname, hlast⟩ := h
  obtain ⟨j2, hget2, hname2, hlast2⟩ := h2
  rcases Nat.lt_trichotomy j j2 with hlt | heq | hgt
  · exact absurd hname2 (hlast j2 m2 hlt hget2)
  · subst heq
    rw [hget] at hget2
    exact Option.some.inj hget2
  · exact absurd hname (hlast2 j m hgt hget)

/-- `GetMethod` on a class that declares the name resolves to the last method of that
name in the class itself. -/
theorem GetMethod_own (B : Class) (name : String) (m : Method)
    (h : IsLastNamed B.methods_ name m) : B.GetMethod name = some m := by
  have hdecl : B.declares name := ⟨m, (IsLastNamed_mem _ _ _ h).1, (IsLastNamed_mem _ _ _ h).2⟩
  obtain ⟨j, m1, hj, hget, hlast1⟩ := own_method_of_declares B name hdecl
  have hm : m1 = m := IsLastNamed_unique _ _ _ _ hlast1 h
  subst hm
  cases B with
  | mk name_ methods_ parent_ =>
    simp only [Class.methods_] at hj hget
    rw [GetMethod_unfold, hj]
    exact hget

/-- Counterexample to C26 as stated: `B` has the parent `A`, `B` declares a method `f`
with one parameter and `A` declares `f` with none, yet `HasMethod(f, 0)` holds on an
instance of `B` and the call of `f` without arguments runs a method: `B` declares `f`
a second time, without parameters, and the later declaration is the one in effect. -/
theorem C26_counterexample_redeclared_method :
    twiceF.parent_ = some arityA ∧
    (∃ m ∈ twiceF.methods_, m.name = "f" ∧ m.formal_params.length = 1) ∧
    (∃ m ∈ arityA.methods_, m.name = "f" ∧ m.formal_params.length = 0) ∧
    HasMethod twiceF "f" 0 = true ∧
    Execute 5 (.MethodCall (.NewInstance 0 twiceF []) "f" []) [] ⟨[], ""⟩ =
      (.ok (.Number 3), [], ⟨[], ""⟩) :=
  ⟨rfl, ⟨.mk "f" ["x"] (.MethodBody (.Return (.Const (.Number 2)))),
      by simp [twiceF, Class.methods_], rfl, rfl⟩,
    ⟨.mk "f" [] (.MethodBody (.Return (.Const (.Number 1)))),
      by simp [arityA, Class.methods_], rfl, rfl⟩, rfl, rfl⟩

/-- C26 (amended): method resolution is by name only and the arity is checked afterwards.
For classes `A` and `B` with `parent(B) = A`: if the method `f` of `B` (the last one that
`B` declares under that name) has a number of formal parameters other than `n`, then on
an instance of `B` `HasMethod(f, n)` is false, `ClassInstance::Call` of `f` with `n`
arguments raises the runtime error `No method f(n) in class B`, and a `MethodCall` of `f`
with `n` argument expressions returns the empty handle in the state the object expression
left; this holds although `A`, a class of the chain of `B`, has a method `f` with `n`
parameters for which `HasMethod(f, n)` holds on an instance of `A`. -/
theorem C26_override_with_other_arity_hides (A B : Class) (f : String) (mB : Method) (n : Nat)
    (hparent : B.parent_ = some A) (hB : IsLastNamed B.methods_ f mB)
    (hne : mB.formal_params.length ≠ n) :
    HasMethod B f n = false ∧
    (∀ (exec : Executor) (addr : Nat) (actual_args : List ObjectHolder) (w : World),
      actual_args.length = n →
      ClassInstance.Call exec addr B f actual_args w =
        (.error (.runtime_error
          ("No method " ++ f ++ "(" ++ toString n ++ ") in class " ++ B.GetName)), w)) ∧
    (∀ (fuel : Nat) (object_ : Statement) (args_ : List Statement) (closure : Closure)
        (w : World) (addr : Nat) (c1 : Closure) (w1 : World),
      args_.length = n →
      Execute fuel object_ closure w = (.ok (.ClassInstance addr B), c1, w1) →
      Execute (fuel + 1) (.MethodCall object_ f args_) closure w = (.ok .None, c1, w1)) ∧
    (∀ mA : Method, IsLastNamed A.methods_ f mA → mA.formal_params.length = n →
      A ∈ B.chain ∧ HasMethod A f n = true) := by
  have hhas : HasMethod B f n = false := by
    unfold HasMethod
    rw [GetMethod_own B f mB hB]
    simp [hne]
  refine ⟨hhas, ?_, ?_, ?_⟩
  · intro exec addr actual_args w hlen
    subst hlen
    simp only [ClassInstance.Call, hhas, Bool.not_false, if_true]
  · intro fuel object_ args_ closure w addr c1 w1 hlen ho
    subst hlen
    simp only [Execute, ho, hhas]
    rfl
  · intro mA hA hlen
    constructor
    · cases B with
      | mk name_ methods_ parent_ =>
        simp only [Class.parent_] at hparent
        subst hparent
        cases A with
        | mk an am ap =>
          have h1 : (Class.mk name_ methods_ (some (Class.mk an am ap))).chain =
              Class.mk name_ methods_ (some (Class.mk an am ap)) :: (Class.mk an am ap).chain := by
            simp [Class.chain]
          have h2 : ∃ tail, (Class.mk an am ap).chain = Class.mk an am ap :: tail := by
            cases ap <;> simp [Class.chain]
          obtain ⟨tail, h2⟩ := h2
          rw [h1, h2]
          simp
    · unfold HasMethod
      rw [GetMethod_own A f mA hA]
      simp [hlen]

/-- Witness of C26: `B` declares only `f(x)` and its parent `A` declares `f()`; `f` is not
found with arity 0 on an instance of `B`. -/
theorem C26_override_with_other_arity_hides_witness :
    HasMethod arityB "f" 0 = false ∧
    (∀ (exec : Executor) (addr : Nat) (actual_args : List ObjectHolder) (w : World),
      actual_args.length = 0 →
      ClassInstance.Call exec addr arityB "f" actual_args w =
        (.error (.runtime_error
          ("No method " ++ "f" ++ "(" ++ toString 0 ++ ") in class " ++ arityB.GetName)), w)) ∧
    (∀ (fuel : Nat) (object_ : Statement) (args_ : List Statement) (closure : Closure)
        (w : World) (addr : Nat) (c1 : Closure) (w1 : World),
      args_.length = 0 →
      Execute fuel object_ closure w = (.ok (.ClassInstance addr arityB), c1, w1) →
      Execute (fuel + 1) (.MethodCall object_ "f" args_) closure w = (.ok .None, c1, w1)) ∧
    (∀ mA : Method, IsLastNamed arityA.methods_ "f" mA → mA.formal_params.length = 0 →
      arityA ∈ arityB.chain ∧ HasMethod arityA "f" 0 = true) :=
  C26_override_with_other_arity_hides arityA arityB "f"
    (.mk "f" ["x"] (.MethodBody (.Return (.Const (.Number 2))))) 0 rfl
    ⟨0, rfl, rfl, fun j2 m2 hlt hget => by
      cases j2 with
      | zero => omega
      | succ k => simp [arityB, Class.methods_] at hget⟩
    (by decide)

end runtime
